import Mathlib

/-!
# libsbn: nodes, structural hashing, traversals and trees

A shallow embedding of `src/node.cpp` and `src/tree.cpp`, and of the part of the class
`Bitset` (declared in `src/bitset.hpp`) that minorization needs.

Conventions of the embedding.

* A `Node` is the record of the four data members `children_`, `index_`, `tag_`, `hash_`.
  Shared pointers are replaced by values: a topology is the unfolding of the pointer graph,
  and a node of the topology is identified by its position (the path of child numbers that
  leads to it from the root).
* `uint32_t` and `size_t` values are natural numbers; every operation that can leave the
  machine range in the source is followed by an explicit `% 2 ^ 32` or `% 2 ^ 64`.
  `size_t` counters that only count nodes (`next_index++`) are not reduced.
* `abort()`, a failing `assert` and an out-of-range vector access make the embedded function
  return `none`.
* A visitor call `f(...)` is modelled by the list of argument tuples in call order.
-/

namespace Libsbn

/-- The node record: `children_`, `index_`, `tag_`, `hash_`. -/
inductive Node where
  | mk (children : List Node) (index : Nat) (tag : Nat) (hash : Nat) : Node

namespace Node

mutual
/-- Decidable equality of node records. -/
def decEqNode : (a b : Node) → Decidable (a = b)
  | mk cs i t h, mk cs' i' t' h' =>
    if hi : i = i' then
      if ht : t = t' then
        if hh : h = h' then
          match decEqList cs cs' with
          | isTrue hc => isTrue (by rw [hc, hi, ht, hh])
          | isFalse hc => isFalse (fun e => hc (by injection e))
        else isFalse (fun e => hh (by injection e))
      else isFalse (fun e => ht (by injection e))
    else isFalse (fun e => hi (by injection e))
/-- Decidable equality of child vectors. -/
def decEqList : (a b : List Node) → Decidable (a = b)
  | [], [] => isTrue rfl
  | [], _ :: _ => isFalse (fun e => by injection e)
  | _ :: _, [] => isFalse (fun e => by injection e)
  | a :: as, b :: bs =>
    match decEqNode a b with
    | isTrue h1 =>
      match decEqList as bs with
      | isTrue h2 => isTrue (by rw [h1, h2])
      | isFalse h2 => isFalse (fun e => h2 (by injection e))
    | isFalse h1 => isFalse (fun e => h1 (by injection e))
end

instance : DecidableEq Node := decEqNode

/-- Accessor `Children()`. -/
def Children : Node → List Node
  | mk cs _ _ _ => cs

/-- Accessor `Index()`. -/
def Index : Node → Nat
  | mk _ i _ _ => i

/-- Accessor `Tag()`. -/
def Tag : Node → Nat
  | mk _ _ t _ => t

/-- Accessor `Hash()`. -/
def Hash : Node → Nat
  | mk _ _ _ h => h

end Node

/-- Modelled from the spec: `PackInts` of the absent integer-packing header. The tag is
"a 64-bit value packing (max leaf id spanned by subtree, count of leaves in subtree)":
the first 32-bit integer in the high half, the second in the low half. -/
def PackInts (a b : Nat) : Nat := (a % 2 ^ 32) * 2 ^ 32 + b % 2 ^ 32

/-- Modelled from the spec: the high 32 bits of a packed tag. -/
def UnpackFirstInt (x : Nat) : Nat := x / 2 ^ 32 % 2 ^ 32

/-- Modelled from the spec: the low 32 bits of a packed tag. -/
def UnpackSecondInt (x : Nat) : Nat := x % 2 ^ 32

namespace Node

/-- Modelled from the spec: `MaxLeafID()` of the absent `node.hpp`, the first component of
the tag, a 32-bit value. -/
def MaxLeafID (n : Node) : Nat := UnpackFirstInt n.Tag

/-- Modelled from the spec: `LeafCount()` of the absent `node.hpp`, the second component of
the tag, a 32-bit value. -/
def LeafCount (n : Node) : Nat := UnpackSecondInt n.Tag

/-- Modelled from the spec: `IsLeaf()` of the absent `node.hpp`; a leaf is a node without
children. -/
def IsLeaf (n : Node) : Bool := n.Children.isEmpty

/-- The 32-bit mix `Node::SOHash`; every line is computed in `uint32_t`. -/
def SOHash (x : Nat) : Nat :=
  let x1 := (((x >>> 16) ^^^ x) * 0x45d9f3b) % 2 ^ 32
  let x2 := (((x1 >>> 16) ^^^ x1) * 0x45d9f3b) % 2 ^ 32
  (x2 >>> 16) ^^^ x2

/-- The rotation `Node::SORotate` on a 64-bit `size_t`; `c` and `mask` are `uint32_t`. -/
def SORotate (n c : Nat) : Nat :=
  let mask := 8 * 8 - 1
  let c1 := c &&& mask
  ((n <<< c1) % 2 ^ 64) ||| (n >>> (((2 ^ 32 - c1) % 2 ^ 32) &&& mask))

/-- The leaf constructor `Node::Node(uint32_t leaf_id)`. -/
def Leaf (leaf_id : Nat) : Node :=
  mk [] leaf_id (PackInts leaf_id 1) (SOHash leaf_id)

/-- The comparator handed to `std::sort`: it aborts on a tie of max leaf ids. -/
def compareChildren (lhs rhs : Node) : Option Bool :=
  if lhs.MaxLeafID = rhs.MaxLeafID then none
  else some (decide (lhs.MaxLeafID < rhs.MaxLeafID))

/-- One insertion step of the sort, with the aborting comparator. -/
def insertChild (x : Node) : List Node → Option (List Node)
  | [] => some [x]
  | y :: ys =>
    match compareChildren x y with
    | none => none
    | some true => some (x :: y :: ys)
    | some false =>
      match insertChild x ys with
      | none => none
      | some r => some (y :: r)

/-- The call `std::sort(children_.begin(), children_.end(), cmp)`, as an insertion sort.
The algorithm behind `std::sort` is not fixed by the language; for a comparator that is a
strict weak order every sorting algorithm returns the same vector when no two keys tie, and
has to compare two tied elements when there is a tie. -/
def sortChildren : List Node → Option (List Node)
  | [] => some []
  | x :: xs =>
    match sortChildren xs with
    | none => none
    | some r => insertChild x r

/-- The order the comparator decides when no two keys tie: by max leaf id. -/
def keyLE (a b : Node) : Prop := a.MaxLeafID ≤ b.MaxLeafID

instance : DecidableRel keyLE := fun a b => inferInstanceAs (Decidable (a.MaxLeafID ≤ b.MaxLeafID))

instance : IsTotal Node keyLE := ⟨fun a b => Nat.le_total a.MaxLeafID b.MaxLeafID⟩

instance : IsTrans Node keyLE := ⟨fun _ _ _ h1 h2 => Nat.le_trans h1 h2⟩

/-- The strict order by max leaf id. -/
def keyLT (a b : Node) : Prop := a.MaxLeafID < b.MaxLeafID

instance : IsAntisymm Node keyLT :=
  ⟨fun _ _ h1 h2 => absurd h1 (Nat.lt_asymm h2)⟩

instance : RightCommutative (fun (acc : Nat) (child : Node) => acc ^^^ child.Hash) :=
  ⟨fun a b c => by
    show (a ^^^ b.Hash) ^^^ c.Hash = (a ^^^ c.Hash) ^^^ b.Hash
    rw [Nat.xor_assoc, Nat.xor_comm b.Hash, ← Nat.xor_assoc]⟩

/-- The accumulation loop of the internal constructor for `leaf_count` (a `uint32_t`). -/
def sumLeafCount (cs : List Node) : Nat :=
  cs.foldl (fun acc child => (acc + child.LeafCount) % 2 ^ 32) 0

/-- The accumulation loop of the internal constructor for `hash_`. -/
def xorHash (cs : List Node) : Nat :=
  cs.foldl (fun acc child => acc ^^^ child.Hash) 0

/-- The internal constructor `Node::Node(NodePtrVec children, size_t index)`, which is
also `Node::Join(children, index)`. -/
def Join (children : List Node) (index : Nat) : Option Node :=
  if children.isEmpty then none
  else
    match sortChildren children with
    | none => none
    | some sorted =>
      match sorted.getLast? with
      | none => none
      | some back =>
        some (mk sorted index (PackInts back.MaxLeafID (sumLeafCount sorted))
          (SORotate (xorHash sorted) 1))

/-- For comparison, after the remark in the constructor ("if we only XOR then we can get
collisions"): the internal constructor with the hashes of the children combined by XOR
alone, the closing `SORotate` left out. -/
def JoinXorOnly (children : List Node) (index : Nat) : Option Node :=
  if children.isEmpty then none
  else
    match sortChildren children with
    | none => none
    | some sorted =>
      match sorted.getLast? with
      | none => none
      | some back =>
        some (mk sorted index (PackInts back.MaxLeafID (sumLeafCount sorted))
          (xorHash sorted))

/-- The two-argument form `Node::Join(left, right, index)`. -/
def Join2 (left right : Node) (index : Nat) : Option Node :=
  Join [left, right] index

mutual
/-- The comparison `Node::operator==`. -/
def eq : Node → Node → Bool
  | mk cs _ _ h, mk cs' _ _ h' =>
    if h ≠ h' then false
    else if cs.length ≠ cs'.length then false
    else eqChildren cs cs'
/-- The loop of `operator==` over the two child vectors of equal length. -/
def eqChildren : List Node → List Node → Bool
  | c :: cs, c' :: cs' => if eq c c' = false then false else eqChildren cs cs'
  | _, _ => true
end

/-- The nodes that can be built with `Leaf` on a 32-bit id and `Join`. -/
inductive Built : Node → Prop
  | leaf (leaf_id : Nat) (h : leaf_id < 2 ^ 32) : Built (Leaf leaf_id)
  | join (children : List Node) (index : Nat) (n : Node)
      (hchildren : ∀ c ∈ children, Built c) (h : Join children index = some n) : Built n

/-- The coherence of the data members that the two constructors establish and that a
change of `index_` keeps: a leaf carries the tag and hash of its 32-bit id; an internal
node stores at least one child, in strictly ascending order of max leaf id, and carries the
tag and hash computed from the stored children. -/
inductive Canon : Node → Prop
  | leaf (leaf_id index t h : Nat) (hid : leaf_id < 2 ^ 32) (ht : t = PackInts leaf_id 1)
      (hh : h = SOHash leaf_id) : Canon (mk [] index t h)
  | internal (cs : List Node) (index t h : Nat) (back : Node) (hne : cs ≠ [])
      (hcs : ∀ c ∈ cs, Canon c)
      (hsorted : cs.Pairwise (fun a b => a.MaxLeafID < b.MaxLeafID))
      (hback : cs.getLast? = some back)
      (ht : t = PackInts back.MaxLeafID (sumLeafCount cs))
      (hh : h = SORotate (xorHash cs) 1) : Canon (mk cs index t h)

mutual
/-- Identical canonical trees: both are leaves with the same taxon id, or both are
internal with the same number of children and the stored children are pairwise identical,
in order. The taxon id of a leaf is the first component of its tag. -/
def Identical : Node → Node → Prop
  | mk cs _ t _, mk cs' _ t' _ =>
    (cs = [] ∧ cs' = [] ∧ UnpackFirstInt t = UnpackFirstInt t') ∨
      (cs ≠ [] ∧ cs' ≠ [] ∧ cs.length = cs'.length ∧ IdenticalChildren cs cs')
/-- Pairwise identical child vectors. -/
def IdenticalChildren : List Node → List Node → Prop
  | c :: cs, c' :: cs' => Identical c c' ∧ IdenticalChildren cs cs'
  | [], [] => True
  | _ :: _, [] => False
  | [], _ :: _ => False
end

mutual
/-- The number of nodes of a topology. -/
def size : Node → Nat
  | mk cs _ _ _ => 1 + sizeChildren cs
/-- The number of nodes of a forest. -/
def sizeChildren : List Node → Nat
  | [] => 0
  | c :: cs => size c + sizeChildren cs
end

mutual
/-- The traversal `Node::PreOrder`: the outputs of the visitor calls, in call order. -/
def PreOrder {β : Type} (f : Node → List β) : Node → List β
  | mk cs i t h => f (mk cs i t h) ++ PreOrderChildren f cs
/-- The loop of `PreOrder` over the children. -/
def PreOrderChildren {β : Type} (f : Node → List β) : List Node → List β
  | [] => []
  | child :: rest => PreOrder f child ++ PreOrderChildren f rest
end

mutual
/-- The traversal `Node::PostOrder`. -/
def PostOrder {β : Type} (f : Node → List β) : Node → List β
  | mk cs i t h => PostOrderChildren f cs ++ f (mk cs i t h)
/-- The loop of `PostOrder` over the children. -/
def PostOrderChildren {β : Type} (f : Node → List β) : List Node → List β
  | [] => []
  | child :: rest => PostOrder f child ++ PostOrderChildren f rest
end

/-- The node at a position: the path of child numbers is followed from the given node. -/
def nodeAt : Node → List Nat → Option Node
  | n, [] => some n
  | n, k :: p =>
    match n.Children[k]? with
    | none => none
    | some c => nodeAt c p

mutual
/-- The taxon ids of the leaves of a topology, from left to right. -/
def leafIds : Node → List Nat
  | mk cs _ t _ => if cs.isEmpty then [UnpackFirstInt t] else leafIdsChildren cs
/-- The taxon ids of the leaves of a forest. -/
def leafIdsChildren : List Node → List Nat
  | [] => []
  | c :: cs => leafIds c ++ leafIdsChildren cs
end

mutual
/-- The number of internal nodes (nodes with at least one child) of a topology. -/
def numInternal : Node → Nat
  | mk cs _ _ _ => (if cs.isEmpty then 0 else 1) + numInternalChildren cs
/-- The number of internal nodes of a forest. -/
def numInternalChildren : List Node → Nat
  | [] => 0
  | c :: cs => numInternal c + numInternalChildren cs
end

/-- The number of leaves of a topology. -/
def numLeaves (n : Node) : Nat := (leafIds n).length

/-- The subtrees in which every internal node has exactly two children. -/
inductive Binary : Node → Prop
  | leaf (i t h : Nat) : Binary (mk [] i t h)
  | internal (c0 c1 : Node) (i t h : Nat) (h0 : Binary c0) (h1 : Binary c1) :
      Binary (mk [c0, c1] i t h)

mutual
/-- The indices that `Reindex` assigns when the counter stands at `next_index`: a leaf
gets its max leaf id, the internal nodes get consecutive numbers in postorder. -/
def renumber : Node → Nat → Node
  | mk cs _ t h, next_index =>
    if cs.isEmpty then mk [] (UnpackFirstInt t) t h
    else mk (renumberChildren cs next_index) (next_index + numInternalChildren cs) t h
/-- The indices assigned in a forest, from left to right. -/
def renumberChildren : List Node → Nat → List Node
  | [], _ => []
  | c :: cs, next_index => renumber c next_index :: renumberChildren cs (next_index + numInternal c)
end

/-- The condition under which the insertions of `Reindex` for the given tags all succeed
on the map `m`: the tags are pairwise distinct and none is a key of `m`. -/
def tagsFresh (m : List (Nat × Nat)) (tags : List Nat) : Prop :=
  tags.Nodup ∧ ∀ tag ∈ tags, tag ∉ m.map Prod.fst

instance (m : List (Nat × Nat)) (tags : List Nat) : Decidable (tagsFresh m tags) :=
  inferInstanceAs (Decidable (tags.Nodup ∧ ∀ tag ∈ tags, tag ∉ m.map Prod.fst))

/-- The total number of nodes held by a work queue. -/
def queueSize (to_visit : List Node) : Nat := (to_visit.map size).sum

/-- The loop of `Node::LevelOrder` on the deque `to_visit`. Every round removes one node
from the total held by the queue, so the loop terminates. -/
def LevelOrderLoop {β : Type} (f : Node → List β) (to_visit : List Node) : List β :=
  match to_visit with
  | [] => []
  | n :: rest => f n ++ LevelOrderLoop f (rest ++ n.Children)
termination_by queueSize to_visit
decreasing_by
  have h : ∀ cs : List Node, (cs.map size).sum = sizeChildren cs := by
    intro cs
    induction cs with
    | nil => rfl
    | cons c cs ih => simp [sizeChildren, ih]
  have key : ∀ (m : Node) (q : List Node), queueSize (q ++ m.Children) < queueSize (m :: q) := by
    intro m q
    cases m with
    | mk cs i t h0 =>
      simp only [queueSize, List.map_append, List.sum_append, List.map_cons, List.sum_cons,
        Children, h, size]
      omega
  exact key _ _

/-- The traversal `Node::LevelOrder`. -/
def LevelOrder {β : Type} (f : Node → List β) (n : Node) : List β :=
  LevelOrderLoop f [n]

mutual
/-- The positions of a topology in preorder. -/
def prePaths : Node → List (List Nat)
  | mk cs _ _ _ => [] :: prePathsChildren cs 0
/-- The positions below the children `k, k + 1, ...` of a node, in preorder. -/
def prePathsChildren : List Node → Nat → List (List Nat)
  | [], _ => []
  | c :: cs, k => (prePaths c).map (List.cons k) ++ prePathsChildren cs (k + 1)
end

mutual
/-- The positions of a topology in postorder. -/
def postPaths : Node → List (List Nat)
  | mk cs _ _ _ => postPathsChildren cs 0 ++ [[]]
/-- The positions below the children `k, k + 1, ...` of a node, in postorder. -/
def postPathsChildren : List Node → Nat → List (List Nat)
  | [], _ => []
  | c :: cs, k => (postPaths c).map (List.cons k) ++ postPathsChildren cs (k + 1)
end

/-- The children of the node at position `p`, each with its position. -/
def childEntries (p : List Nat) (n : Node) : List (List Nat × Node) :=
  n.Children.enum.map (fun jc => (p ++ [jc.1], jc.2))

/-- The positions in the order of `LevelOrderLoop`, for a queue whose nodes are held
together with their positions. -/
def levelPathsLoop (to_visit : List (List Nat × Node)) : List (List Nat) :=
  match to_visit with
  | [] => []
  | (p, n) :: rest => p :: levelPathsLoop (rest ++ childEntries p n)
termination_by queueSize (to_visit.map Prod.snd)
decreasing_by
  have h : ∀ cs : List Node, (cs.map size).sum = sizeChildren cs := by
    intro cs
    induction cs with
    | nil => rfl
    | cons c cs ih => simp [sizeChildren, ih]
  have hsnd : ∀ (q : List Nat) (m : Node), (childEntries q m).map Prod.snd = m.Children := by
    intro q m
    simp only [childEntries, List.map_map]
    have : (Prod.snd ∘ fun jc : Nat × Node => (q ++ [jc.1], jc.2)) = Prod.snd := rfl
    rw [this, List.enum_map_snd]
  have key : ∀ (q : List Nat) (m : Node) (r : List (List Nat × Node)),
      queueSize ((r ++ childEntries q m).map Prod.snd) < queueSize (((q, m) :: r).map Prod.snd) := by
    intro q m r
    cases m with
    | mk cs i t h0 =>
      simp only [queueSize, List.map_append, List.sum_append, List.map_cons, List.sum_cons, hsnd,
        Children, h, size]
      omega
  exact key _ _ _

/-- The position of the other child of the parent, in a topology whose internal nodes
have two children. -/
def sisterPath (r : List Nat) : List Nat :=
  match r.getLast? with
  | none => []
  | some k => r.dropLast ++ [1 - k]

/-- The traversal `Node::TriplePreOrderInternal`; the visitor may abort. -/
def TriplePreOrderInternal {β : Type} (f : Node → Node → Node → Option (List β)) :
    Node → Option (List β)
  | mk cs i t h =>
    match cs with
    | [] => some []
    | [c0, c1] =>
      match f (mk cs i t h) c1 c0, TriplePreOrderInternal f c0,
          f (mk cs i t h) c0 c1, TriplePreOrderInternal f c1 with
      | some r0, some r1, some r2, some r3 => some (r0 ++ r1 ++ r2 ++ r3)
      | _, _, _, _ => none
    | _ => none

/-- The calls `f(parent, sister, node)` that `TriplePreOrderInternal` makes, in call
order (empty when the traversal aborts). -/
def triples (n : Node) : List (Node × Node × Node) :=
  (TriplePreOrderInternal (fun p s v => some [(p, s, v)]) n).getD []

/-- Two positions neither of which lies at or below the other. -/
def Apart (a b : List Nat) : Prop := (∀ s, b ≠ a ++ s) ∧ (∀ s, a ≠ b ++ s)

/-- The loop of `Node::TriplePreOrder` over the children. -/
def TriplePreOrderChildren {β : Type} (f : Node → Node → Node → Option (List β)) :
    List Node → Option (List β)
  | [] => some []
  | child :: rest =>
    match TriplePreOrderInternal f child, TriplePreOrderChildren f rest with
    | some r0, some r1 => some (r0 ++ r1)
    | _, _ => none

/-- The traversal `Node::TriplePreOrder`. -/
def TriplePreOrder {β : Type} (f_root f_internal : Node → Node → Node → Option (List β))
    (n : Node) : Option (List β) :=
  match n.Children with
  | [c0, c1, c2] =>
    match f_root c0 c1 c2, f_root c1 c2 c0, f_root c2 c0 c1,
        TriplePreOrderChildren f_internal [c0, c1, c2] with
    | some r0, some r1, some r2, some r3 => some (r0 ++ r1 ++ r2 ++ r3)
    | _, _, _, _ => none
  | _ => none

end Node

/-- One call of a `PCSSFun`: four nodes, each with its rootward flag. -/
structure PCSSRecord where
  s0 : Node
  s0_rootward : Bool
  s1 : Node
  s1_rootward : Bool
  t0 : Node
  t0_rootward : Bool
  t1 : Node
  t1_rootward : Bool
deriving DecidableEq

namespace Node

/-- The first lambda of `Node::PCSSPreOrder`. -/
def pcssRoot (node0 node1 node2 : Node) : Option (List PCSSRecord) :=
  if node2.IsLeaf then
    some [⟨node2, false, node2, true, node0, false, node1, false⟩]
  else
    match node2.Children with
    | [child0, child1] =>
      some [⟨node2, false, node2, true, node0, false, node1, false⟩,
        ⟨node0, false, node2, false, child0, false, child1, false⟩,
        ⟨node1, false, node2, false, child0, false, child1, false⟩,
        ⟨node2, true, node2, false, child0, false, child1, false⟩,
        ⟨child1, false, node2, true, node0, false, node1, false⟩,
        ⟨child0, false, node2, true, node0, false, node1, false⟩]
    | _ => none

/-- The second lambda of `Node::PCSSPreOrder`. -/
def pcssInternal (parent sister node : Node) : Option (List PCSSRecord) :=
  if node.IsLeaf then
    some [⟨node, false, node, true, parent, true, sister, false⟩]
  else
    match node.Children with
    | [child0, child1] =>
      some [⟨node, false, node, true, parent, true, sister, false⟩,
        ⟨sister, false, node, false, child0, false, child1, false⟩,
        ⟨parent, true, node, false, child0, false, child1, false⟩,
        ⟨node, true, node, false, child0, false, child1, false⟩,
        ⟨child1, false, node, true, sister, false, parent, true⟩,
        ⟨child0, false, node, true, sister, false, parent, true⟩]
    | _ => none

/-- The records of one call of the first lambda (empty when it aborts). -/
def rootRecords (c : Node × Node × Node) : List PCSSRecord :=
  (pcssRoot c.1 c.2.1 c.2.2).getD []

/-- The records of one call of the second lambda (empty when it aborts). -/
def internalRecords (c : Node × Node × Node) : List PCSSRecord :=
  (pcssInternal c.1 c.2.1 c.2.2).getD []

/-- The number of records of one call: 1 for a leaf, 6 for an internal node. -/
def recordCount (v : Node) : Nat := if v.IsLeaf then 1 else 6

/-- The four nodes of a record, without the rootward flags. -/
def quadruple (r : PCSSRecord) : Node × Node × Node × Node := (r.s0, r.s1, r.t0, r.t1)

/-- The traversal `Node::PCSSPreOrder`: the records handed to `f`, in call order. -/
def PCSSPreOrder (n : Node) : Option (List PCSSRecord) :=
  TriplePreOrder pcssRoot pcssInternal n

/-- The map type `TagSizeMap`, as the list of its entries in insertion order. -/
abbrev TagSizeMap := List (Nat × Nat)

/-- The call `tag_index_map.insert({tag, index})`: `none` when the key is present. -/
def tagInsert (m : TagSizeMap) (tag index : Nat) : Option TagSizeMap :=
  if tag ∈ m.map Prod.fst then none else some (m ++ [(tag, index)])

mutual
/-- The traversal `Node::MutablePostOrder` with a visitor that updates the node it is
given and a state of captured variables; the visitor may abort. -/
def MutablePostOrder {σ : Type} (f : Node → σ → Option (Node × σ)) :
    Node → σ → Option (Node × σ)
  | mk cs i t h, st =>
    match MutablePostOrderChildren f cs st with
    | none => none
    | some (cs1, st1) => f (mk cs1 i t h) st1
/-- The loop of `MutablePostOrder` over the children. -/
def MutablePostOrderChildren {σ : Type} (f : Node → σ → Option (Node × σ)) :
    List Node → σ → Option (List Node × σ)
  | [], st => some ([], st)
  | child :: rest, st =>
    match MutablePostOrder f child st with
    | none => none
    | some (child1, st1) =>
      match MutablePostOrderChildren f rest st1 with
      | none => none
      | some (rest1, st2) => some (child1 :: rest1, st2)
end

/-- Assignment to the data member `index_`. -/
def setIndex : Node → Nat → Node
  | mk cs _ t h, i => mk cs i t h

/-- The lambda of `Node::Reindex`; the state is `(tag_index_map, next_index)`. The
`assert` around the insertion is taken as enabled. -/
def reindexVisit (node : Node) (st : TagSizeMap × Nat) : Option (Node × (TagSizeMap × Nat)) :=
  let node1 := if node.IsLeaf then node.setIndex node.MaxLeafID else node.setIndex st.2
  let next_index := if node.IsLeaf then st.2 else st.2 + 1
  match tagInsert st.1 node1.Tag node1.Index with
  | none => none
  | some m => some (node1, (m, next_index))

/-- The pass `Node::Reindex`: the reindexed topology and the returned map. In
`size_t next_index = 1 + MaxLeafID()` the operands are the `int` 1 and the 32-bit max leaf
id unpacked from the tag, so the sum is formed in `uint32_t` and wraps at `2 ^ 32` before
it is widened to `size_t`. -/
def Reindex (n : Node) : Option (Node × TagSizeMap) :=
  match MutablePostOrder reindexVisit n ([], (1 + n.MaxLeafID) % 2 ^ 32) with
  | none => none
  | some (n1, st) => some (n1, st.1)

/-- The fixtures `Node::ExampleTopologies`; `default_index` stands for the default value
of the `index` argument of `Join`, declared in the absent `node.hpp`. -/
def ExampleTopologies (default_index : Nat) : Option (List Node) :=
  let reindexed (t : Option Node) : Option Node :=
    match t with
    | none => none
    | some n => (Reindex n).map Prod.fst
  let join (cs : List (Option Node)) : Option Node :=
    match cs.allSome with
    | none => none
    | some l => Join l default_index
  [reindexed (join [some (Leaf 0), some (Leaf 1), join [some (Leaf 2), some (Leaf 3)]]),
   reindexed (join [some (Leaf 1), some (Leaf 0), join [some (Leaf 3), some (Leaf 2)]]),
   reindexed (join [some (Leaf 0), some (Leaf 2), join [some (Leaf 1), some (Leaf 3)]]),
   reindexed (join [some (Leaf 0),
     join [some (Leaf 1), join [some (Leaf 2), some (Leaf 3)]]])].allSome

/-- The value of `ExampleTopologies()[0]`, the topology `(0,1,(2,3))` after `Reindex`. -/
def exampleTopology0 : Node :=
  mk [Leaf 0, Leaf 1, mk [Leaf 2, Leaf 3] 4 12884901890 6209831354] 5 12884901892 10839077946

/-- The cherry `(0,1)` as `Join` returns it for the index 2. -/
def exampleCherry : Node := mk [Leaf 0, Leaf 1] 2 4294967298 1649030990

end Node

/-- The class `Tree`: `topology_` and `branch_lengths_`. The scalar type `D` stands for
`double`; the code only stores, copies and zeroes branch lengths. -/
structure Tree (D : Type) where
  topology : Node
  branch_lengths : List D
deriving DecidableEq

namespace Tree

variable {D : Type} [Zero D]

/-- The loop of the tag-map constructor over the entries of `tag_index_map`. A write
past the end of the vector is `none`. -/
def fillBranchLengths (branch_lengths : Nat → Option D) :
    Node.TagSizeMap → List D → Option (List D)
  | [], acc => some acc
  | (tag, index) :: rest, acc =>
    match branch_lengths tag with
    | some v =>
      if index < acc.length then fillBranchLengths branch_lengths rest (acc.set index v)
      else none
    | none =>
      if index < acc.length then fillBranchLengths branch_lengths rest (acc.set index 0)
      else none

/-- The constructor `Tree::Tree(Node::NodePtr, TagDoubleMap)`; the map is given by its
lookup function. -/
def ofTagMap (topology : Node) (branch_lengths : Nat → Option D) : Option (Tree D) :=
  match topology.Reindex with
  | none => none
  | some (topology1, tag_index_map) =>
    match fillBranchLengths branch_lengths tag_index_map
        (List.replicate (topology1.Index + 1) 0) with
    | none => none
    | some bl => some ⟨topology1, bl⟩

/-- The constructor `Tree::Tree(Node::NodePtr, BranchLengthVector)`. The assertion
compares two `size_t` values: the sum `Index() + 1`, formed in 64 bits, and the size of the
vector. -/
def ofVector (topology : Node) (branch_lengths : List D) : Option (Tree D) :=
  if (topology.Index + 1) % 2 ^ 64 = branch_lengths.length % 2 ^ 64 then
    some ⟨topology, branch_lengths⟩
  else none

/-- The lookup `Tree::BranchLength`. -/
def BranchLength (t : Tree D) (node : Node) : Option D :=
  if node.Index < t.branch_lengths.length then t.branch_lengths.get? node.Index else none

/-- The transform `Tree::Detrifurcate`. -/
def Detrifurcate (t : Tree D) : Option (Tree D) :=
  match t.topology.Children with
  | [c0, c1, c2] =>
    let our_index := t.topology.Index
    match Node.Join2 c1 c2 our_index with
    | none => none
    | some root12 =>
      if our_index < t.branch_lengths.length then
        let branch_lengths := t.branch_lengths.set our_index 0
        match Node.Join2 c0 root12 (our_index + 1) with
        | none => none
        | some rerooted_topology => ofVector rerooted_topology (branch_lengths ++ [0])
      else none
  | _ => none

end Tree

namespace Node

mutual
/-- The topology with every `index_` set to 0: what is left of a topology when the indices
of its nodes are put aside. -/
def eraseIndex : Node → Node
  | mk cs _ t h => mk (eraseIndexChildren cs) 0 t h
/-- The forest with every `index_` set to 0. -/
def eraseIndexChildren : List Node → List Node
  | [] => []
  | c :: cs => eraseIndex c :: eraseIndexChildren cs
end

/-- The node `((0,1),(0,2))` as `Join` returns it (every index 0): the taxon id 0 occurs
under both children. -/
def exampleOverlap : Node :=
  mk [mk [Leaf 0, Leaf 1] 0 4294967298 1649030990, mk [Leaf 0, Leaf 2] 0 8589934594 3444516144]
    0 8589934596 5872690428

end Node

/-- Modelled from the spec: the class `Bitset` declared in `bitset.hpp`, an "ordered
sequence of booleans, fixed length at construction" (the member `value_`). The member
functions are declared in `bitset.hpp`; their bodies are in the absent `bitset.cpp`. -/
structure Bitset where
  value : List Bool
deriving DecidableEq

namespace Bitset

/-- Modelled from the spec: the constructor `Bitset(std::string)`; the character `1` gives
a true bit and index 0 is the first character ("given bitset `"1100"`: `a[1] == true`,
`a[2] == false`"). -/
def ofString (s : String) : Bitset := ⟨s.toList.map (fun c => decide (c = '1'))⟩

/-- Modelled from the spec: `size()`, the fixed length. -/
def size (a : Bitset) : Nat := a.value.length

/-- Modelled from the spec: `operator[]`, read access; `none` outside the range. -/
def get (a : Bitset) (i : Nat) : Option Bool := a.value[i]?

/-- Modelled from the spec: `flip()`, which flips all bits in place. -/
def flip (a : Bitset) : Bitset := ⟨a.value.map (fun b => !b)⟩

/-- Modelled from the spec: `operator~`, the NOT of the set algebra, "producing a new
same-length bitset" (`~Bitset("1010") == Bitset("0101")`). -/
def compl (a : Bitset) : Bitset := ⟨a.value.map (fun b => !b)⟩

/-- Modelled from the spec: `operator==`, equality of the boolean sequences. -/
def eq (a b : Bitset) : Bool := decide (a.value = b.value)

/-- Modelled from the spec: `Minorize()`, which "flips all bits in place iff the first bit
is true". -/
def Minorize (a : Bitset) : Bitset :=
  if a.value.head? = some true then a.flip else a

end Bitset

namespace Tree

/-- A branch-length vector that is correctly aligned with its topology: it has the length
root index + 1, the index of every node is a valid offset into it, and no two nodes share
an offset. -/
def Aligned {D : Type} (t : Tree D) : Prop :=
  t.branch_lengths.length = t.topology.Index + 1 ∧
    (∀ v ∈ Node.PreOrder (fun v => [v]) t.topology, v.Index < t.branch_lengths.length) ∧
    ((Node.PreOrder (fun v => [v]) t.topology).map Node.Index).Nodup

end Tree

namespace Node

/-! ## Induction over topologies -/

/-- Structural induction over a topology: a property that passes from the children of a
node to the node holds of every node. -/
theorem induct {P : Node → Prop}
    (step : ∀ cs i t h, (∀ c ∈ cs, P c) → P (mk cs i t h)) : ∀ n, P n := by
  intro n
  refine Node.rec (motive_1 := P) (motive_2 := fun cs => ∀ c ∈ cs, P c) ?_ ?_ ?_ n
  · intro cs i t h ih
    exact step cs i t h ih
  · intro c hc
    cases hc
  · intro hd tl ihd itl c hc
    rcases List.mem_cons.mp hc with h | h
    · exact h ▸ ihd
    · exact itl c h

theorem Children_mk (cs : List Node) (i t h : Nat) : (mk cs i t h).Children = cs := rfl

theorem Index_mk (cs : List Node) (i t h : Nat) : (mk cs i t h).Index = i := rfl

theorem Tag_mk (cs : List Node) (i t h : Nat) : (mk cs i t h).Tag = t := rfl

theorem Hash_mk (cs : List Node) (i t h : Nat) : (mk cs i t h).Hash = h := rfl

theorem sizeChildren_eq (cs : List Node) : sizeChildren cs = (cs.map size).sum := by
  induction cs with
  | nil => rfl
  | cons c cs ih => simp [sizeChildren, ih]

theorem PreOrderChildren_eq {β : Type} (f : Node → List β) (cs : List Node) :
    PreOrderChildren f cs = (cs.map (PreOrder f)).flatten := by
  induction cs with
  | nil => rfl
  | cons c cs ih => simp [PreOrderChildren, ih]

theorem PostOrderChildren_eq {β : Type} (f : Node → List β) (cs : List Node) :
    PostOrderChildren f cs = (cs.map (PostOrder f)).flatten := by
  induction cs with
  | nil => rfl
  | cons c cs ih => simp [PostOrderChildren, ih]

/-! ## The sort of the internal constructor -/

theorem insertChild_of_fresh (x : Node) (l : List Node)
    (h : ∀ y ∈ l, x.MaxLeafID ≠ y.MaxLeafID) :
    insertChild x l = some (l.orderedInsert keyLE x) := by
  induction l with
  | nil => rfl
  | cons y ys ih =>
    have hxy : x.MaxLeafID ≠ y.MaxLeafID := h y (List.mem_cons_self _ _)
    have ih1 := ih (fun z hz => h z (List.mem_cons_of_mem _ hz))
    by_cases hlt : x.MaxLeafID < y.MaxLeafID
    · have hle : keyLE x y := Nat.le_of_lt hlt
      simp [insertChild, compareChildren, hxy, hlt, List.orderedInsert, hle]
    · have hle : ¬ keyLE x y := fun hle => hlt (Nat.lt_of_le_of_ne hle hxy)
      simp [insertChild, compareChildren, hxy, hlt, List.orderedInsert, hle, ih1]

theorem insertChild_of_tie (x : Node) (l : List Node)
    (h : ∃ y ∈ l, x.MaxLeafID = y.MaxLeafID) (hs : l.Pairwise keyLT) :
    insertChild x l = none := by
  induction l with
  | nil => obtain ⟨y, hy, _⟩ := h; cases hy
  | cons y ys ih =>
    by_cases hxy : x.MaxLeafID = y.MaxLeafID
    · simp [insertChild, compareChildren, hxy]
    · obtain ⟨z, hz, hxz⟩ := h
      have hz1 : z ∈ ys := by
        rcases List.mem_cons.mp hz with h1 | h1
        · exact absurd (h1 ▸ hxz) hxy
        · exact h1
      have hyz : y.MaxLeafID < z.MaxLeafID := (List.pairwise_cons.mp hs).1 z hz1
      have hlt : ¬ x.MaxLeafID < y.MaxLeafID := by omega
      have ih1 := ih ⟨z, hz1, hxz⟩ (List.pairwise_cons.mp hs).2
      simp [insertChild, compareChildren, hxy, hlt, ih1]

theorem pairwise_keyLT_of_sorted (l : List Node) (hs : l.Sorted keyLE)
    (hd : (l.map MaxLeafID).Nodup) : l.Pairwise keyLT := by
  induction l with
  | nil => exact List.Pairwise.nil
  | cons y ys ih =>
    rw [List.map_cons, List.nodup_cons] at hd
    have hs1 := List.pairwise_cons.mp hs
    refine List.pairwise_cons.mpr ⟨?_, ih hs1.2 hd.2⟩
    intro z hz
    have hne : y.MaxLeafID ≠ z.MaxLeafID := by
      intro e
      exact hd.1 (e ▸ List.mem_map_of_mem _ hz)
    exact Nat.lt_of_le_of_ne (hs1.1 z hz) hne

/-- With pairwise distinct max leaf ids the sort succeeds and returns the sorted vector. -/
theorem sortChildren_of_nodup (l : List Node) (hd : (l.map MaxLeafID).Nodup) :
    sortChildren l = some (l.insertionSort keyLE) := by
  induction l with
  | nil => rfl
  | cons x xs ih =>
    rw [List.map_cons, List.nodup_cons] at hd
    have hfresh : ∀ y ∈ xs.insertionSort keyLE, x.MaxLeafID ≠ y.MaxLeafID := by
      intro y hy e
      have hy1 : y ∈ xs := (List.perm_insertionSort keyLE xs).subset hy
      exact hd.1 (e ▸ List.mem_map_of_mem _ hy1)
    simp only [sortChildren, ih hd.2, List.insertionSort]
    exact insertChild_of_fresh x _ hfresh

/-- With a tie of max leaf ids the sort aborts. -/
theorem sortChildren_of_tie (l : List Node) (hd : ¬ (l.map MaxLeafID).Nodup) :
    sortChildren l = none := by
  induction l with
  | nil => exact absurd List.nodup_nil hd
  | cons x xs ih =>
    by_cases hxs : (xs.map MaxLeafID).Nodup
    · have hx : x.MaxLeafID ∈ xs.map MaxLeafID := by
        by_contra hx
        exact hd (by rw [List.map_cons]; exact List.nodup_cons.mpr ⟨hx, hxs⟩)
      obtain ⟨y, hy, hxy⟩ := List.mem_map.mp hx
      have hsort := sortChildren_of_nodup xs hxs
      have hp := List.perm_insertionSort keyLE xs
      have hs : (xs.insertionSort keyLE).Pairwise keyLT :=
        pairwise_keyLT_of_sorted _ (List.sorted_insertionSort keyLE xs)
          ((hp.map MaxLeafID).nodup_iff.mpr hxs)
      simp only [sortChildren, hsort]
      exact insertChild_of_tie x _ ⟨y, hp.symm.subset hy, hxy.symm⟩ hs
    · simp [sortChildren, ih hxs]

theorem sorted_keyLT_insertionSort (l : List Node) (hd : (l.map MaxLeafID).Nodup) :
    (l.insertionSort keyLE).Pairwise keyLT :=
  pairwise_keyLT_of_sorted _ (List.sorted_insertionSort keyLE l)
    (((List.perm_insertionSort keyLE l).map MaxLeafID).nodup_iff.mpr hd)

/-- The sorted vector does not depend on the order of the input. -/
theorem insertionSort_perm (l p : List Node) (hd : (l.map MaxLeafID).Nodup) (hp : p.Perm l) :
    p.insertionSort keyLE = l.insertionSort keyLE := by
  have hdp : (p.map MaxLeafID).Nodup := (hp.map MaxLeafID).nodup_iff.mpr hd
  refine List.eq_of_perm_of_sorted (r := keyLT) ?_ (sorted_keyLT_insertionSort p hdp)
    (sorted_keyLT_insertionSort l hd)
  exact ((List.perm_insertionSort keyLE p).trans hp).trans (List.perm_insertionSort keyLE l).symm

/-- A vector that is already in strictly ascending order is left as it is. -/
theorem insertionSort_of_sorted (l : List Node) (hs : l.Pairwise keyLT) :
    l.insertionSort keyLE = l := by
  have hd : (l.map MaxLeafID).Nodup := by
    rw [List.Nodup, List.pairwise_map]
    exact hs.imp (fun h => Nat.ne_of_lt h)
  exact List.eq_of_perm_of_sorted (r := keyLT) (List.perm_insertionSort keyLE l)
    (sorted_keyLT_insertionSort l hd) hs

/-- The result of the internal constructor when no two children tie. -/
theorem Join_of_nodup (cs : List Node) (index : Nat) (hne : cs ≠ [])
    (hd : (cs.map MaxLeafID).Nodup) :
    ∃ back, (cs.insertionSort keyLE).getLast? = some back ∧
      Join cs index = some (mk (cs.insertionSort keyLE) index
        (PackInts back.MaxLeafID (sumLeafCount (cs.insertionSort keyLE)))
        (SORotate (xorHash (cs.insertionSort keyLE)) 1)) := by
  have hne1 : cs.insertionSort keyLE ≠ [] := by
    intro e
    have := (List.perm_insertionSort keyLE cs).length_eq
    rw [e] at this
    exact hne (List.length_eq_zero.mp this.symm)
  obtain ⟨back, hback⟩ : ∃ back, (cs.insertionSort keyLE).getLast? = some back := by
    cases h : (cs.insertionSort keyLE).getLast? with
    | none => exact absurd (List.getLast?_eq_none_iff.mp h) hne1
    | some b => exact ⟨b, rfl⟩
  refine ⟨back, hback, ?_⟩
  have hemp : cs.isEmpty = false := by
    cases cs with
    | nil => exact absurd rfl hne
    | cons _ _ => rfl
  simp [Join, hemp, sortChildren_of_nodup cs hd, hback]

/-! ## The comparison -/

theorem eqChildren_self (cs : List Node) (h : ∀ c ∈ cs, c.eq c = true) :
    eqChildren cs cs = true := by
  induction cs with
  | nil => simp [eqChildren]
  | cons c cs ih =>
    simp [eqChildren, h c (List.mem_cons_self _ _),
      ih (fun d hd => h d (List.mem_cons_of_mem _ hd))]

theorem eq_self (n : Node) : n.eq n = true := by
  induction n using Node.induct with
  | step cs i t h ih => simp [eq, eqChildren_self cs ih]

/-- The comparison does not look at the index of the two nodes compared. -/
theorem eq_same_children (cs : List Node) (i j t h : Nat) :
    (mk cs i t h).eq (mk cs j t h) = true := by
  simp [eq, eqChildren_self cs (fun c _ => eq_self c)]

/-! ## Tags -/

theorem UnpackFirstInt_PackInts (a b : Nat) : UnpackFirstInt (PackInts a b) = a % 2 ^ 32 := by
  unfold UnpackFirstInt PackInts
  have hb : b % 2 ^ 32 < 2 ^ 32 := Nat.mod_lt _ (by norm_num)
  have ha : a % 2 ^ 32 < 2 ^ 32 := Nat.mod_lt _ (by norm_num)
  omega

theorem UnpackSecondInt_PackInts (a b : Nat) : UnpackSecondInt (PackInts a b) = b % 2 ^ 32 := by
  unfold UnpackSecondInt PackInts
  omega

theorem MaxLeafID_lt (n : Node) : n.MaxLeafID < 2 ^ 32 :=
  Nat.mod_lt _ (by norm_num)

theorem LeafCount_lt (n : Node) : n.LeafCount < 2 ^ 32 :=
  Nat.mod_lt _ (by norm_num)

theorem MaxLeafID_Leaf (a : Nat) (ha : a < 2 ^ 32) : (Leaf a).MaxLeafID = a := by
  simp only [Leaf, MaxLeafID, Tag, UnpackFirstInt_PackInts]
  exact Nat.mod_eq_of_lt ha

theorem LeafCount_Leaf (a : Nat) : (Leaf a).LeafCount = 1 := by
  simp [Leaf, LeafCount, Tag, UnpackSecondInt_PackInts]

/-! ## The hash mix -/

/-- One xor-shift step of `SOHash`. -/
theorem xorshift_lt (x : Nat) (hx : x < 2 ^ 32) : (x >>> 16) ^^^ x < 2 ^ 32 := by
  refine Nat.xor_lt_two_pow ?_ hx
  rw [Nat.shiftRight_eq_div_pow]
  exact lt_of_le_of_lt (Nat.div_le_self _ _) hx

theorem testBit_high (x : Nat) (hx : x < 2 ^ 32) (j : Nat) : x.testBit (32 + j) = false := by
  apply Nat.testBit_lt_two_pow
  exact lt_of_lt_of_le hx (Nat.pow_le_pow_right (by norm_num) (by omega))

/-- The xor-shift step by half the width is its own inverse. -/
theorem xorshift_involutive (x : Nat) (hx : x < 2 ^ 32) :
    (((x >>> 16) ^^^ x) >>> 16) ^^^ ((x >>> 16) ^^^ x) = x := by
  apply Nat.eq_of_testBit_eq
  intro j
  have h := testBit_high x hx j
  simp only [Nat.testBit_xor, Nat.testBit_shiftRight]
  have e : 16 + (16 + j) = 32 + j := by omega
  rw [e, h]
  cases x.testBit (16 + j) <;> cases x.testBit j <;> rfl

theorem xorshift_injective (x y : Nat) (hx : x < 2 ^ 32) (hy : y < 2 ^ 32)
    (h : (x >>> 16) ^^^ x = (y >>> 16) ^^^ y) : x = y := by
  rw [← xorshift_involutive x hx, ← xorshift_involutive y hy, h]

/-- The multiplier of `SOHash` is odd, hence invertible modulo `2 ^ 32`. -/
theorem mul_mix_injective (x y : Nat) (hx : x < 2 ^ 32) (hy : y < 2 ^ 32)
    (h : (x * 0x45d9f3b) % 2 ^ 32 = (y * 0x45d9f3b) % 2 ^ 32) : x = y := by
  have key : ∀ z : Nat, z < 2 ^ 32 → ((z * 0x45d9f3b) % 2 ^ 32 * 0x119de1f3) % 2 ^ 32 = z := by
    intro z hz
    rw [Nat.mod_mul_mod, Nat.mul_assoc]
    omega
  rw [← key x hx, ← key y hy, h]

theorem SOHash_lt (x : Nat) : SOHash x < 2 ^ 32 := by
  unfold SOHash
  exact xorshift_lt _ (Nat.mod_lt _ (by norm_num))

/-- The mix `SOHash` is injective on 32-bit values. -/
theorem SOHash_injective (x y : Nat) (hx : x < 2 ^ 32) (hy : y < 2 ^ 32)
    (h : SOHash x = SOHash y) : x = y := by
  unfold SOHash at h
  have h1 := xorshift_injective _ _ (Nat.mod_lt _ (by norm_num)) (Nat.mod_lt _ (by norm_num)) h
  have h2 := mul_mix_injective _ _ (xorshift_lt _ (Nat.mod_lt _ (by norm_num)))
    (xorshift_lt _ (Nat.mod_lt _ (by norm_num))) h1
  have h3 := xorshift_injective _ _ (Nat.mod_lt _ (by norm_num)) (Nat.mod_lt _ (by norm_num)) h2
  have h4 := mul_mix_injective _ _ (xorshift_lt _ hx) (xorshift_lt _ hy) h3
  exact xorshift_injective _ _ hx hy h4

/-- A rotation by one bit doubles a value whose top bit is clear. -/
theorem SORotate_one (n : Nat) (hn : n < 2 ^ 63) : SORotate n 1 = 2 * n := by
  unfold SORotate
  have e1 : (1 : Nat) &&& (8 * 8 - 1) = 1 := by decide
  have e2 : ((2 ^ 32 - 1) % 2 ^ 32) &&& (8 * 8 - 1) = 63 := by decide
  simp only [e1, e2]
  have e3 : n >>> 63 = 0 := by
    rw [Nat.shiftRight_eq_div_pow]
    exact Nat.div_eq_of_lt hn
  rw [e3, Nat.or_zero, Nat.shiftLeft_eq]
  omega

/-! ## The hash of a joined node -/

theorem xorHash_perm (l p : List Node) (h : l.Perm p) : xorHash l = xorHash p :=
  List.Perm.foldl_eq h 0

/-- What a successful `Join` returns. -/
theorem Join_eq_some (cs : List Node) (index : Nat) (n : Node) (h : Join cs index = some n) :
    cs ≠ [] ∧ (cs.map MaxLeafID).Nodup ∧
      ∃ back, (cs.insertionSort keyLE).getLast? = some back ∧
        n = mk (cs.insertionSort keyLE) index
          (PackInts back.MaxLeafID (sumLeafCount (cs.insertionSort keyLE)))
          (SORotate (xorHash cs) 1) := by
  have hne : cs ≠ [] := by
    intro e
    rw [e] at h
    simp [Join] at h
  have hd : (cs.map MaxLeafID).Nodup := by
    by_contra hd
    have hemp : cs.isEmpty = false := by
      cases cs with
      | nil => exact absurd rfl hne
      | cons _ _ => rfl
    simp [Join, hemp, sortChildren_of_tie cs hd] at h
  obtain ⟨back, hback, hj⟩ := Join_of_nodup cs index hne hd
  refine ⟨hne, hd, back, hback, ?_⟩
  rw [hj] at h
  rw [← Option.some.inj h, xorHash_perm _ _ (List.perm_insertionSort keyLE cs)]

theorem Join_isSome (cs : List Node) (index : Nat) (hne : cs ≠ [])
    (hd : (cs.map MaxLeafID).Nodup) : ∃ n, Join cs index = some n := by
  obtain ⟨back, _, hj⟩ := Join_of_nodup cs index hne hd
  exact ⟨_, hj⟩

theorem Join_Hash (cs : List Node) (index : Nat) (n : Node) (h : Join cs index = some n) :
    n.Hash = SORotate (xorHash cs) 1 := by
  obtain ⟨_, _, back, _, hn⟩ := Join_eq_some cs index n h
  rw [hn]
  rfl

/-- The max leaf id of a joined node is the max leaf id of one of the children. -/
theorem Join_MaxLeafID_mem (cs : List Node) (index : Nat) (n : Node)
    (h : Join cs index = some n) : ∃ back ∈ cs, n.MaxLeafID = back.MaxLeafID := by
  obtain ⟨_, _, back, hback, hn⟩ := Join_eq_some cs index n h
  refine ⟨back, ?_, ?_⟩
  · exact (List.perm_insertionSort keyLE cs).subset (List.mem_of_getLast?_eq_some hback)
  · rw [hn]
    simp only [MaxLeafID, Tag, UnpackFirstInt_PackInts]
    exact Nat.mod_eq_of_lt (MaxLeafID_lt back)

/-! ## The example topologies -/

theorem exampleCherry_Built : Built exampleCherry := by
  refine Built.join [Leaf 1, Leaf 0] 2 _ ?_ (by decide)
  intro c hc
  simp only [List.mem_cons, List.mem_singleton, List.not_mem_nil, or_false] at hc
  rcases hc with e | e <;> rw [e] <;> exact Built.leaf _ (by decide)

theorem exampleTopology0_Built : Built exampleTopology0 := by
  have h23 : Built (mk [Leaf 2, Leaf 3] 4 12884901890 6209831354) := by
    refine Built.join [Leaf 2, Leaf 3] 4 _ ?_ (by decide)
    intro c hc
    simp only [List.mem_cons, List.mem_singleton, List.not_mem_nil, or_false] at hc
    rcases hc with e | e <;> rw [e] <;> exact Built.leaf _ (by decide)
  refine Built.join [Leaf 0, Leaf 1, mk [Leaf 2, Leaf 3] 4 12884901890 6209831354] 5 _ ?_
    (by decide)
  intro c hc
  simp only [List.mem_cons, List.mem_singleton, List.not_mem_nil, or_false] at hc
  rcases hc with e | e | e
  · rw [e]; exact Built.leaf _ (by decide)
  · rw [e]; exact Built.leaf _ (by decide)
  · rw [e]; exact h23

theorem exampleTopology0_eq :
    (ExampleTopologies 7).map (fun l => l.head?) = some (some exampleTopology0) := by
  decide!

theorem JoinXorOnly_of_nodup (cs : List Node) (index : Nat) (hne : cs ≠ [])
    (hd : (cs.map MaxLeafID).Nodup) :
    ∃ n, JoinXorOnly cs index = some n ∧ n.Hash = xorHash cs ∧
      ∃ back ∈ cs, n.MaxLeafID = back.MaxLeafID := by
  obtain ⟨back, hback, _⟩ := Join_of_nodup cs index hne hd
  have hemp : cs.isEmpty = false := by
    cases cs with
    | nil => exact absurd rfl hne
    | cons _ _ => rfl
  refine ⟨_, by simp only [JoinXorOnly, hemp, sortChildren_of_nodup cs hd, hback]; rfl, ?_, back,
    ?_, ?_⟩
  · exact (xorHash_perm _ _ (List.perm_insertionSort keyLE cs))
  · exact (List.perm_insertionSort keyLE cs).subset (List.mem_of_getLast?_eq_some hback)
  · simp only [MaxLeafID, Tag, UnpackFirstInt_PackInts]
    exact Nat.mod_eq_of_lt (MaxLeafID_lt back)

theorem testBit_two_mul_succ (n j : Nat) : (2 * n).testBit (j + 1) = n.testBit j := by
  rw [Nat.testBit_succ, Nat.mul_div_cancel_left n (by norm_num : 0 < 2)]

theorem testBit_two_mul_zero (n : Nat) : (2 * n).testBit 0 = false := by
  simp

/-- The arithmetic core of the rotation argument: two 32-bit values that pass the
collision equation are equal. -/
theorem rotation_core (ha hb hc hd : Nat) (hblt : hb < 2 ^ 32) (hclt : hc < 2 ^ 32)
    (h : ha ^^^ hb ^^^ 2 * (hc ^^^ hd) = ha ^^^ hc ^^^ 2 * (hb ^^^ hd)) : hb = hc := by
  have bits : ∀ j, (ha ^^^ hb ^^^ 2 * (hc ^^^ hd)).testBit j
      = (ha ^^^ hc ^^^ 2 * (hb ^^^ hd)).testBit j := fun j => by rw [h]
  have step : ∀ j, (hb.testBit (j + 1) ^^ hc.testBit (j + 1)) = (hb.testBit j ^^ hc.testBit j) := by
    intro j
    have := bits (j + 1)
    simp only [Nat.testBit_xor, testBit_two_mul_succ] at this
    revert this
    cases ha.testBit (j + 1) <;> cases hb.testBit (j + 1) <;> cases hc.testBit (j + 1) <;>
      cases hb.testBit j <;> cases hc.testBit j <;> cases hd.testBit j <;> simp
  have all : ∀ j k, (hb.testBit (j + k) ^^ hc.testBit (j + k)) = (hb.testBit j ^^ hc.testBit j) := by
    intro j k
    induction k with
    | zero => rfl
    | succ k ih => rw [← Nat.add_assoc, step, ih]
  apply Nat.eq_of_testBit_eq
  intro j
  have h1 := all j (32 + j)
  have e : j + (32 + j) = 32 + (j + j) := by omega
  rw [e, testBit_high hb hblt, testBit_high hc hclt] at h1
  revert h1
  cases hb.testBit j <;> cases hc.testBit j <;> simp

theorem xor_two_lt (x y z : Nat) (hx : x < 2 ^ 32) (hy : y < 2 ^ 32) (hz : z < 2 ^ 32) (w : Nat)
    (hw : w < 2 ^ 32) : x ^^^ y ^^^ 2 * (z ^^^ w) < 2 ^ 63 := by
  have h1 : x ^^^ y < 2 ^ 32 := Nat.xor_lt_two_pow hx hy
  have h2 : z ^^^ w < 2 ^ 32 := Nat.xor_lt_two_pow hz hw
  have h3 : x ^^^ y < 2 ^ 63 := lt_of_lt_of_le h1 (by norm_num)
  have h4 : 2 * (z ^^^ w) < 2 ^ 63 := by omega
  exact Nat.xor_lt_two_pow h3 h4

theorem Leaf_Hash (a : Nat) : (Leaf a).Hash = SOHash a := rfl

theorem xorHash_two (x y : Node) : xorHash [x, y] = x.Hash ^^^ y.Hash := by
  simp [xorHash]

theorem xorHash_three (x y z : Node) : xorHash [x, y, z] = x.Hash ^^^ y.Hash ^^^ z.Hash := by
  simp [xorHash]

/-- The hash of the three-child topology `(x, y, (z, w))` over four leaves, with and
without the rotation. -/
theorem quartet (x y z w i : Nat) (hx : x < 2 ^ 32) (hy : y < 2 ^ 32) (hz : z < 2 ^ 32)
    (hw : w < 2 ^ 32) (hxy : x ≠ y) (hxz : x ≠ z) (hxw : x ≠ w) (hyz : y ≠ z) (hyw : y ≠ w)
    (hzw : z ≠ w) :
    (∃ inner t, Join2 (Leaf z) (Leaf w) i = some inner ∧
      Join [Leaf x, Leaf y, inner] i = some t ∧
      t.Hash = 2 * (SOHash x ^^^ SOHash y ^^^ 2 * (SOHash z ^^^ SOHash w))) ∧
    (∃ inner t, JoinXorOnly [Leaf z, Leaf w] i = some inner ∧
      JoinXorOnly [Leaf x, Leaf y, inner] i = some t ∧
      t.Hash = SOHash x ^^^ SOHash y ^^^ (SOHash z ^^^ SOHash w)) := by
  have ex := MaxLeafID_Leaf x hx
  have ey := MaxLeafID_Leaf y hy
  have ez := MaxLeafID_Leaf z hz
  have ew := MaxLeafID_Leaf w hw
  have dzw : ([Leaf z, Leaf w].map MaxLeafID).Nodup := by
    simp [ez, ew, hzw]
  constructor
  · obtain ⟨inner, hinner⟩ := Join_isSome [Leaf z, Leaf w] i (by simp) dzw
    obtain ⟨back, hmem, hmax⟩ := Join_MaxLeafID_mem _ _ _ hinner
    have hkey : inner.MaxLeafID = z ∨ inner.MaxLeafID = w := by
      simp only [List.mem_cons, List.mem_singleton, List.not_mem_nil, or_false] at hmem
      rcases hmem with e | e
      · left; rw [hmax, e, MaxLeafID_Leaf z hz]
      · right; rw [hmax, e, MaxLeafID_Leaf w hw]
    have dtop : ([Leaf x, Leaf y, inner].map MaxLeafID).Nodup := by
      rcases hkey with e | e <;> simp [ex, ey, e, hxy, hxz, hxw, hyz, hyw]
    obtain ⟨t, ht⟩ := Join_isSome [Leaf x, Leaf y, inner] i (by simp) dtop
    refine ⟨inner, t, hinner, ht, ?_⟩
    have hih : inner.Hash = 2 * (SOHash z ^^^ SOHash w) := by
      rw [Join_Hash _ _ _ hinner, xorHash_two, Leaf_Hash, Leaf_Hash]
      exact SORotate_one _ (lt_of_lt_of_le (Nat.xor_lt_two_pow (SOHash_lt z) (SOHash_lt w))
        (by norm_num))
    rw [Join_Hash _ _ _ ht, xorHash_three, Leaf_Hash, Leaf_Hash, hih]
    exact SORotate_one _ (xor_two_lt _ _ _ (SOHash_lt x) (SOHash_lt y) (SOHash_lt z) _ (SOHash_lt w))
  · obtain ⟨inner, hinner, hih, back, hmem, hmax⟩ :=
      JoinXorOnly_of_nodup [Leaf z, Leaf w] i (by simp) dzw
    have hkey : inner.MaxLeafID = z ∨ inner.MaxLeafID = w := by
      simp only [List.mem_cons, List.mem_singleton, List.not_mem_nil, or_false] at hmem
      rcases hmem with e | e
      · left; rw [hmax, e, MaxLeafID_Leaf z hz]
      · right; rw [hmax, e, MaxLeafID_Leaf w hw]
    have dtop : ([Leaf x, Leaf y, inner].map MaxLeafID).Nodup := by
      rcases hkey with e | e <;> simp [ex, ey, e, hxy, hxz, hxw, hyz, hyw]
    obtain ⟨t, ht, hth, _⟩ := JoinXorOnly_of_nodup [Leaf x, Leaf y, inner] i (by simp) dtop
    refine ⟨inner, t, hinner, ht, ?_⟩
    rw [hth, xorHash_three, Leaf_Hash, Leaf_Hash, hih, xorHash_two, Leaf_Hash, Leaf_Hash]

/-- C1: node construction does not depend on the order in which the children are
supplied. For a non-empty list of children with pairwise distinct max leaf ids and any
permutation of it, both calls of `Join` succeed, the two nodes store the same child
sequence, which is the input in strictly ascending order of max leaf id, they carry the
same tag and the same hash, and `operator==` holds between them in both directions. -/
theorem Join_order_independent (children permuted : List Node) (index index' : Nat)
    (hne : children ≠ [])
    (hdistinct : children.Pairwise (fun a b => a.MaxLeafID ≠ b.MaxLeafID))
    (hperm : permuted.Perm children) :
    ∃ n n', Join children index = some n ∧ Join permuted index' = some n' ∧
      n'.Children = n.Children ∧
      n.Children.Perm children ∧
      n.Children.Pairwise (fun a b => a.MaxLeafID < b.MaxLeafID) ∧
      n'.Tag = n.Tag ∧ n'.Hash = n.Hash ∧ n.eq n' = true ∧ n'.eq n = true := by
  have hd : (children.map MaxLeafID).Nodup := by
    rw [List.Nodup, List.pairwise_map]
    exact hdistinct
  have hdp : (permuted.map MaxLeafID).Nodup := (hperm.map MaxLeafID).nodup_iff.mpr hd
  have hnep : permuted ≠ [] := by
    intro e
    rw [e] at hperm
    exact hne (List.Perm.eq_nil hperm.symm)
  obtain ⟨back, hback, hj⟩ := Join_of_nodup children index hne hd
  obtain ⟨back', hback', hj'⟩ := Join_of_nodup permuted index' hnep hdp
  have hs := insertionSort_perm children permuted hd hperm
  rw [hs] at hback' hj'
  have hbb : back' = back := Option.some.inj (hback'.symm.trans hback)
  rw [hbb] at hj'
  refine ⟨_, _, hj, hj', rfl, List.perm_insertionSort keyLE children,
    sorted_keyLT_insertionSort children hd, rfl, rfl, eq_same_children _ _ _ _ _,
    eq_same_children _ _ _ _ _⟩

/-- C10: the rotation separates the hashes of `(a, b, (c, d))` and `(a, c, (b, d))` for
pairwise distinct 32-bit leaf ids, whereas combining the hashes of the children by XOR
alone gives the two topologies the same hash. -/
theorem rotation_separates (a b c d i : Nat) (ha : a < 2 ^ 32) (hb : b < 2 ^ 32)
    (hc : c < 2 ^ 32) (hd : d < 2 ^ 32) (hab : a ≠ b) (hac : a ≠ c) (had : a ≠ d)
    (hbc : b ≠ c) (hbd : b ≠ d) (hcd : c ≠ d) :
    (∃ cd t1 bd t2, Join2 (Leaf c) (Leaf d) i = some cd ∧
      Join [Leaf a, Leaf b, cd] i = some t1 ∧
      Join2 (Leaf b) (Leaf d) i = some bd ∧
      Join [Leaf a, Leaf c, bd] i = some t2 ∧ t1.Hash ≠ t2.Hash) ∧
    (∃ cd t1 bd t2, JoinXorOnly [Leaf c, Leaf d] i = some cd ∧
      JoinXorOnly [Leaf a, Leaf b, cd] i = some t1 ∧
      JoinXorOnly [Leaf b, Leaf d] i = some bd ∧
      JoinXorOnly [Leaf a, Leaf c, bd] i = some t2 ∧ t1.Hash = t2.Hash) := by
  obtain ⟨⟨cd, t1, h1, h2, h3⟩, ⟨cd', u1, k1, k2, k3⟩⟩ :=
    quartet a b c d i ha hb hc hd hab hac had hbc hbd hcd
  obtain ⟨⟨bd, t2, h4, h5, h6⟩, ⟨bd', u2, k4, k5, k6⟩⟩ :=
    quartet a c b d i ha hc hb hd hac hab had (Ne.symm hbc) hcd hbd
  refine ⟨⟨cd, t1, bd, t2, h1, h2, h4, h5, ?_⟩, ⟨cd', u1, bd', u2, k1, k2, k4, k5, ?_⟩⟩
  · rw [h3, h6]
    intro e
    have e1 : SOHash a ^^^ SOHash b ^^^ 2 * (SOHash c ^^^ SOHash d)
        = SOHash a ^^^ SOHash c ^^^ 2 * (SOHash b ^^^ SOHash d) := by omega
    have e2 := rotation_core _ _ _ _ (SOHash_lt b) (SOHash_lt c) e1
    exact hbc (SOHash_injective b c hb hc e2)
  · rw [k3, k6]
    apply Nat.eq_of_testBit_eq
    intro j
    simp only [Nat.testBit_xor]
    cases (SOHash a).testBit j <;> cases (SOHash b).testBit j <;> cases (SOHash c).testBit j <;>
      cases (SOHash d).testBit j <;> rfl

/-- C10, at the example topologies: the hashes of `(0, 1, (2, 3))` and `(0, 2, (1, 3))`
differ, and the XOR-only variant gives them the same hash. -/
theorem rotation_separates_witness :
    (∃ cd t1 bd t2, Join2 (Leaf 2) (Leaf 3) 0 = some cd ∧
      Join [Leaf 0, Leaf 1, cd] 0 = some t1 ∧
      Join2 (Leaf 1) (Leaf 3) 0 = some bd ∧
      Join [Leaf 0, Leaf 2, bd] 0 = some t2 ∧ t1.Hash ≠ t2.Hash) ∧
    (∃ cd t1 bd t2, JoinXorOnly [Leaf 2, Leaf 3] 0 = some cd ∧
      JoinXorOnly [Leaf 0, Leaf 1, cd] 0 = some t1 ∧
      JoinXorOnly [Leaf 1, Leaf 3] 0 = some bd ∧
      JoinXorOnly [Leaf 0, Leaf 2, bd] 0 = some t2 ∧ t1.Hash = t2.Hash) :=
  rotation_separates 0 1 2 3 0 (by decide) (by decide) (by decide) (by decide) (by decide)
    (by decide) (by decide) (by decide) (by decide) (by decide)

/-- C1, at the example: the children `Leaf 1, Leaf 0` are a permutation of
`Leaf 0, Leaf 1`; and the first two example topologies, built from the same clades in a
different order, have the same hash and are equal under `operator==`. -/
theorem Join_order_independent_witness :
    (∃ n n', Join [Leaf 0, Leaf 1] 7 = some n ∧ Join [Leaf 1, Leaf 0] 8 = some n' ∧
      n'.Children = n.Children ∧
      n.Children.Perm [Leaf 0, Leaf 1] ∧
      n.Children.Pairwise (fun a b => a.MaxLeafID < b.MaxLeafID) ∧
      n'.Tag = n.Tag ∧ n'.Hash = n.Hash ∧ n.eq n' = true ∧ n'.eq n = true) ∧
    (ExampleTopologies 7).map (fun l => (l.map Hash).take 2) = some [10839077946, 10839077946] ∧
    (ExampleTopologies 7).map (fun l => match l with
      | t0 :: t1 :: _ => t0.eq t1
      | _ => false) = some true :=
  ⟨Join_order_independent [Leaf 0, Leaf 1] [Leaf 1, Leaf 0] 7 8 (by simp) (by decide)
    (List.Perm.swap _ _ _), by decide, by decide!⟩

/-! ## The constructor invariant -/

theorem Canon.leaf_inv {i t h : Nat} (hc : Canon (mk [] i t h)) :
    ∃ leaf_id, leaf_id < 2 ^ 32 ∧ t = PackInts leaf_id 1 ∧ h = SOHash leaf_id := by
  cases hc with
  | leaf leaf_id _ _ _ hid ht hh => exact ⟨leaf_id, hid, ht, hh⟩
  | internal _ _ _ _ _ hne => exact absurd rfl hne

theorem Canon.internal_inv {cs : List Node} {i t h : Nat} (hc : Canon (mk cs i t h))
    (hne : cs ≠ []) :
    (∀ c ∈ cs, Canon c) ∧ cs.Pairwise keyLT ∧
      (∃ back, cs.getLast? = some back ∧ t = PackInts back.MaxLeafID (sumLeafCount cs)) ∧
      h = SORotate (xorHash cs) 1 := by
  cases hc with
  | leaf _ _ _ _ _ _ _ => exact absurd rfl hne
  | internal _ _ _ _ back _ hcs hsorted hback ht hh => exact ⟨hcs, hsorted, ⟨back, hback, ht⟩, hh⟩

theorem Canon.children {cs : List Node} {i t h : Nat} (hc : Canon (mk cs i t h)) :
    ∀ c ∈ cs, Canon c := by
  cases hc with
  | leaf _ _ _ _ _ _ _ => intro c hc; cases hc
  | internal _ _ _ _ _ _ hcs _ _ _ _ => exact hcs

/-- Every node built with `Leaf` and `Join` satisfies the constructor invariant. -/
theorem Built.canon {n : Node} (hb : Built n) : Canon n := by
  induction hb with
  | leaf leaf_id h => exact Canon.leaf leaf_id leaf_id _ _ h rfl rfl
  | join children index n _ h ih =>
    obtain ⟨hne, hd, back, hback, hn⟩ := Join_eq_some children index n h
    have hp := List.perm_insertionSort keyLE children
    rw [hn]
    refine Canon.internal _ _ _ _ back ?_ ?_ (sorted_keyLT_insertionSort children hd) hback rfl ?_
    · intro e
      rw [e] at hp
      exact hne (List.Perm.eq_nil hp.symm)
    · intro c hc
      exact ih c (hp.subset hc)
    · rw [xorHash_perm _ _ hp]

/-! ## The comparison on canonical nodes -/

theorem eq_unfold (cs cs' : List Node) (i t h i' t' h' : Nat) :
    (mk cs i t h).eq (mk cs' i' t' h') = true ↔
      h = h' ∧ cs.length = cs'.length ∧ eqChildren cs cs' = true := by
  by_cases e1 : h = h' <;> by_cases e2 : cs.length = cs'.length <;> simp [eq, e1, e2]

theorem eq_Hash (a b : Node) (h : a.eq b = true) : a.Hash = b.Hash := by
  cases a with
  | mk cs i t h0 =>
    cases b with
    | mk cs' i' t' h0' => exact ((eq_unfold _ _ _ _ _ _ _ _).mp h).1

theorem eqChildren_cons (c c' : Node) (cs cs' : List Node) :
    eqChildren (c :: cs) (c' :: cs') = true ↔ c.eq c' = true ∧ eqChildren cs cs' = true := by
  cases hcc : c.eq c' <;> simp [eqChildren, hcc]

theorem identicalChildren_of_eq (cs : List Node)
    (ih : ∀ c ∈ cs, ∀ b, Canon c → Canon b → c.eq b = true → Identical c b) :
    ∀ cs', (∀ c ∈ cs, Canon c) → (∀ c ∈ cs', Canon c) → cs.length = cs'.length →
      eqChildren cs cs' = true → IdenticalChildren cs cs' := by
  induction cs with
  | nil =>
    intro cs' _ _ hlen _
    cases cs' with
    | nil => simp [IdenticalChildren]
    | cons _ _ => simp at hlen
  | cons c cs ihl =>
    intro cs' hc hc' hlen he
    cases cs' with
    | nil => simp at hlen
    | cons c' cs' =>
      rw [eqChildren_cons] at he
      simp only [IdenticalChildren]
      refine ⟨ih c (List.mem_cons_self _ _) c' (hc c (List.mem_cons_self _ _))
        (hc' c' (List.mem_cons_self _ _)) he.1, ?_⟩
      exact ihl (fun d hd => ih d (List.mem_cons_of_mem _ hd)) cs'
        (fun d hd => hc d (List.mem_cons_of_mem _ hd))
        (fun d hd => hc' d (List.mem_cons_of_mem _ hd)) (by simpa using hlen) he.2

/-- On canonical nodes a successful comparison means identical trees. -/
theorem identical_of_eq (a : Node) : ∀ b, Canon a → Canon b → a.eq b = true → Identical a b := by
  induction a using Node.induct with
  | step cs i t h ih =>
    intro b ha hb he
    cases b with
    | mk cs' i' t' h' =>
      rw [eq_unfold] at he
      obtain ⟨hh, hlen, hch⟩ := he
      simp only [Identical]
      by_cases hcs : cs = []
      · left
        subst hcs
        have hcs' : cs' = [] := List.length_eq_zero.mp hlen.symm
        subst hcs'
        obtain ⟨x, hx, htx, hhx⟩ := ha.leaf_inv
        obtain ⟨y, hy, hty, hhy⟩ := hb.leaf_inv
        have hxy : x = y := SOHash_injective x y hx hy (by rw [← hhx, ← hhy, hh])
        refine ⟨rfl, rfl, ?_⟩
        rw [htx, hty, hxy]
      · right
        have hcs' : cs' ≠ [] := by
          intro e
          rw [e] at hlen
          exact hcs (List.length_eq_zero.mp hlen)
        exact ⟨hcs, hcs', hlen, identicalChildren_of_eq cs ih cs' ha.children hb.children hlen hch⟩

theorem xorHash_cons (c : Node) (cs : List Node) : xorHash (c :: cs) = c.Hash ^^^ xorHash cs := by
  have key : ∀ (l : List Node) (acc : Nat),
      l.foldl (fun acc child => acc ^^^ child.Hash) acc
        = acc ^^^ l.foldl (fun acc child => acc ^^^ child.Hash) 0 := by
    intro l
    induction l with
    | nil => intro acc; simp
    | cons d l ih =>
      intro acc
      simp only [List.foldl_cons]
      rw [ih (acc ^^^ d.Hash), ih (0 ^^^ d.Hash), Nat.zero_xor, Nat.xor_assoc]
  simp only [xorHash, List.foldl_cons]
  rw [key cs (0 ^^^ c.Hash), Nat.zero_xor]

theorem eqChildren_of_identical (cs : List Node)
    (ih : ∀ c ∈ cs, ∀ b, Canon c → Canon b → Identical c b → c.Hash = b.Hash ∧ c.eq b = true) :
    ∀ cs', (∀ c ∈ cs, Canon c) → (∀ c ∈ cs', Canon c) → IdenticalChildren cs cs' →
      xorHash cs = xorHash cs' ∧ eqChildren cs cs' = true := by
  induction cs with
  | nil =>
    intro cs' _ _ hi
    cases cs' with
    | nil => simp [eqChildren]
    | cons _ _ => simp [IdenticalChildren] at hi
  | cons c cs ihl =>
    intro cs' hc hc' hi
    cases cs' with
    | nil => simp [IdenticalChildren] at hi
    | cons c' cs' =>
      simp only [IdenticalChildren] at hi
      have h1 := ih c (List.mem_cons_self _ _) c' (hc c (List.mem_cons_self _ _))
        (hc' c' (List.mem_cons_self _ _)) hi.1
      have h2 := ihl (fun d hd => ih d (List.mem_cons_of_mem _ hd)) cs'
        (fun d hd => hc d (List.mem_cons_of_mem _ hd))
        (fun d hd => hc' d (List.mem_cons_of_mem _ hd)) hi.2
      rw [xorHash_cons, xorHash_cons, h1.1, h2.1, eqChildren_cons]
      exact ⟨rfl, h1.2, h2.2⟩

/-- On canonical nodes identical trees have the same hash and compare equal. -/
theorem eq_of_identical (a : Node) :
    ∀ b, Canon a → Canon b → Identical a b → a.Hash = b.Hash ∧ a.eq b = true := by
  induction a using Node.induct with
  | step cs i t h ih =>
    intro b ha hb hi
    cases b with
    | mk cs' i' t' h' =>
      simp only [Identical] at hi
      rw [eq_unfold]
      rcases hi with ⟨hcs, hcs', ht⟩ | ⟨hcs, hcs', hlen, hch⟩
      · subst hcs
        subst hcs'
        obtain ⟨x, hx, htx, hhx⟩ := ha.leaf_inv
        obtain ⟨y, hy, hty, hhy⟩ := hb.leaf_inv
        rw [htx, hty, UnpackFirstInt_PackInts, UnpackFirstInt_PackInts, Nat.mod_eq_of_lt hx,
          Nat.mod_eq_of_lt hy] at ht
        have hh : h = h' := by rw [hhx, hhy, ht]
        exact ⟨hh, hh, rfl, by simp [eqChildren]⟩
      · obtain ⟨_, _, _, hh⟩ := ha.internal_inv hcs
        obtain ⟨_, _, _, hh'⟩ := hb.internal_inv hcs'
        have h1 := eqChildren_of_identical cs ih cs' ha.children hb.children hch
        have hhh : h = h' := by rw [hh, hh', h1.1]
        exact ⟨hhh, hhh, hlen, h1.2⟩

/-- C2: `operator==` is a full structural comparison. For two nodes built with `Leaf`
and `Join`, `a == b` holds exactly when the two are identical canonical trees; equal
nodes have equal hashes; and two leaves with different 32-bit ids never compare equal. -/
theorem eq_iff_identical (a b : Node) (ha : Built a) (hb : Built b) :
    (a.eq b = true ↔ Identical a b) ∧ (a.eq b = true → a.Hash = b.Hash) ∧
      (∀ x y, x < 2 ^ 32 → y < 2 ^ 32 → x ≠ y → (Leaf x).eq (Leaf y) = false) := by
  refine ⟨⟨identical_of_eq a b ha.canon hb.canon,
    fun h => (eq_of_identical a b ha.canon hb.canon h).2⟩, eq_Hash a b, ?_⟩
  intro x y hx hy hxy
  cases h : (Leaf x).eq (Leaf y) with
  | false => rfl
  | true => exact absurd (SOHash_injective x y hx hy (eq_Hash _ _ h)) hxy

/-- C2, at the cherry `(0,1)` built twice, with the children supplied in different orders
and with different indices: the two nodes compare equal and are identical trees. -/
theorem eq_iff_identical_witness :
    (exampleCherry.eq (mk [Leaf 0, Leaf 1] 9 4294967298 1649030990) = true ∧
      (Leaf 0).eq (Leaf 1) = false) ∧
    ((exampleCherry.eq (mk [Leaf 0, Leaf 1] 9 4294967298 1649030990) = true ↔
        Identical exampleCherry (mk [Leaf 0, Leaf 1] 9 4294967298 1649030990)) ∧
      (exampleCherry.eq (mk [Leaf 0, Leaf 1] 9 4294967298 1649030990) = true →
        exampleCherry.Hash = (mk [Leaf 0, Leaf 1] 9 4294967298 1649030990).Hash) ∧
      (∀ x y, x < 2 ^ 32 → y < 2 ^ 32 → x ≠ y → (Leaf x).eq (Leaf y) = false)) :=
  ⟨⟨by decide, by decide⟩,
    eq_iff_identical exampleCherry (mk [Leaf 0, Leaf 1] 9 4294967298 1649030990)
      exampleCherry_Built
      (Built.join [Leaf 0, Leaf 1] 9 _
        (fun c hc => by
          simp only [List.mem_cons, List.mem_singleton, List.not_mem_nil, or_false] at hc
          rcases hc with e | e <;> rw [e] <;> exact Built.leaf _ (by decide))
        (by decide))⟩

/-! ## The indices assigned by `Reindex` -/

theorem renumberChildren_isEmpty (cs : List Node) (nx : Nat) :
    (renumberChildren cs nx).isEmpty = cs.isEmpty := by
  cases cs <;> rfl

theorem renumber_Tag (n : Node) (nx : Nat) : (renumber n nx).Tag = n.Tag := by
  cases n with
  | mk cs i t h =>
    unfold renumber
    split <;> rfl

theorem renumber_Hash (n : Node) (nx : Nat) : (renumber n nx).Hash = n.Hash := by
  cases n with
  | mk cs i t h =>
    unfold renumber
    split <;> rfl

theorem postTags_renumberChildren (cs : List Node)
    (ih : ∀ c ∈ cs, ∀ nx, PostOrder (fun v => [v.Tag]) (renumber c nx)
      = PostOrder (fun v => [v.Tag]) c) :
    ∀ nx, PostOrderChildren (fun v => [v.Tag]) (renumberChildren cs nx)
      = PostOrderChildren (fun v => [v.Tag]) cs := by
  induction cs with
  | nil => intro nx; rfl
  | cons c cs ihl =>
    intro nx
    simp only [renumberChildren, PostOrderChildren]
    rw [ih c (List.mem_cons_self _ _), ihl (fun d hd => ih d (List.mem_cons_of_mem _ hd))]

theorem postTags_renumber (n : Node) :
    ∀ nx, PostOrder (fun v => [v.Tag]) (renumber n nx) = PostOrder (fun v => [v.Tag]) n := by
  induction n using Node.induct with
  | step cs i t h ih =>
    intro nx
    unfold renumber
    by_cases hcs : cs = []
    · subst hcs
      simp [PostOrder, PostOrderChildren, Tag]
    · have he : cs.isEmpty = false := by
        cases cs with
        | nil => exact absurd rfl hcs
        | cons _ _ => rfl
      simp only [he, PostOrder, Bool.false_eq_true, if_false]
      rw [postTags_renumberChildren cs ih]
      rfl

theorem postEntries_keys {β : Type} (g : Node → β) (n : Node) :
    (PostOrder (fun v => [(v.Tag, g v)]) n).map Prod.fst = PostOrder (fun v => [v.Tag]) n := by
  induction n using Node.induct with
  | step cs i t h ih =>
    have key : (PostOrderChildren (fun v => [(v.Tag, g v)]) cs).map Prod.fst
        = PostOrderChildren (fun v => [v.Tag]) cs := by
      induction cs with
      | nil => rfl
      | cons c cs ihl =>
        simp only [PostOrderChildren, List.map_append]
        rw [ih c (List.mem_cons_self _ _), ihl (fun d hd => ih d (List.mem_cons_of_mem _ hd))]
    simp only [PostOrder, List.map_append, key]
    rfl

theorem postEntries_keys_children {β : Type} (g : Node → β) (cs : List Node) :
    (PostOrderChildren (fun v => [(v.Tag, g v)]) cs).map Prod.fst
      = PostOrderChildren (fun v => [v.Tag]) cs := by
  induction cs with
  | nil => rfl
  | cons c cs ihl =>
    simp only [PostOrderChildren, List.map_append]
    rw [postEntries_keys g c, ihl]

theorem tagsFresh_append (m : List (Nat × Nat)) (e : List (Nat × Nat)) (t1 t2 : List Nat)
    (he : e.map Prod.fst = t1) :
    tagsFresh m (t1 ++ t2) ↔ tagsFresh m t1 ∧ tagsFresh (m ++ e) t2 := by
  unfold tagsFresh
  rw [List.nodup_append, List.map_append, he]
  constructor
  · rintro ⟨⟨h1, h2, h3⟩, h4⟩
    refine ⟨⟨h1, fun x hx => h4 x (List.mem_append_left _ hx)⟩, h2, ?_⟩
    intro x hx hx'
    rcases List.mem_append.mp hx' with h | h
    · exact h4 x (List.mem_append_right _ hx) h
    · exact h3 h hx
  · rintro ⟨⟨h1, h2⟩, h3, h4⟩
    refine ⟨⟨h1, h3, ?_⟩, ?_⟩
    · intro x hx1 hx2
      exact h4 x hx2 (List.mem_append_right _ hx1)
    · intro x hx
      rcases List.mem_append.mp hx with h | h
      · exact h2 x h
      · exact fun h' => h4 x h (List.mem_append_left _ h')

/-- The loop of `MutablePostOrder` with the lambda of `Reindex` over a forest. -/
theorem MutablePostOrderChildren_reindex (cs : List Node)
    (ih : ∀ c ∈ cs, ∀ m nx, MutablePostOrder reindexVisit c (m, nx)
      = if tagsFresh m (PostOrder (fun v => [v.Tag]) c) then
          some (renumber c nx,
            (m ++ PostOrder (fun v => [(v.Tag, v.Index)]) (renumber c nx), nx + numInternal c))
        else none) :
    ∀ m nx, MutablePostOrderChildren reindexVisit cs (m, nx)
      = if tagsFresh m (PostOrderChildren (fun v => [v.Tag]) cs) then
          some (renumberChildren cs nx,
            (m ++ PostOrderChildren (fun v => [(v.Tag, v.Index)]) (renumberChildren cs nx),
              nx + numInternalChildren cs))
        else none := by
  induction cs with
  | nil =>
    intro m nx
    simp [MutablePostOrderChildren, PostOrderChildren, tagsFresh, renumberChildren,
      numInternalChildren]
  | cons c cs ihl =>
    intro m nx
    have ihc := ih c (List.mem_cons_self _ _) m nx
    have ihr := ihl (fun d hd => ih d (List.mem_cons_of_mem _ hd))
    have hkeys : (PostOrder (fun v => [(v.Tag, v.Index)]) (renumber c nx)).map Prod.fst
        = PostOrder (fun v => [v.Tag]) c := by
      rw [postEntries_keys, postTags_renumber]
    have hsplit := tagsFresh_append m _ (PostOrder (fun v => [v.Tag]) c)
      (PostOrderChildren (fun v => [v.Tag]) cs) hkeys
    simp only [MutablePostOrderChildren, ihc, PostOrderChildren]
    by_cases h1 : tagsFresh m (PostOrder (fun v => [v.Tag]) c)
    · simp only [h1, if_true, ihr]
      by_cases h2 : tagsFresh (m ++ PostOrder (fun v => [(v.Tag, v.Index)]) (renumber c nx))
          (PostOrderChildren (fun v => [v.Tag]) cs)
      · simp only [h2, if_true, hsplit.mpr ⟨h1, h2⟩, renumberChildren, numInternalChildren,
          List.append_assoc, Nat.add_assoc]
      · have h3 : ¬ tagsFresh m (PostOrder (fun v => [v.Tag]) c
            ++ PostOrderChildren (fun v => [v.Tag]) cs) := fun h => h2 (hsplit.mp h).2
        simp only [h2, h3, if_false]
    · have h3 : ¬ tagsFresh m (PostOrder (fun v => [v.Tag]) c
          ++ PostOrderChildren (fun v => [v.Tag]) cs) := fun h => h1 (hsplit.mp h).1
      simp only [h1, h3, if_false]

theorem reindexVisit_mk (cs : List Node) (i t h : Nat) (m : TagSizeMap) (nx : Nat) :
    reindexVisit (mk cs i t h) (m, nx)
      = if t ∈ m.map Prod.fst then none
        else some (mk cs (if cs.isEmpty then UnpackFirstInt t else nx) t h,
          (m ++ [(t, if cs.isEmpty then UnpackFirstInt t else nx)],
            if cs.isEmpty then nx else nx + 1)) := by
  cases hcs : cs.isEmpty <;> by_cases hm : t ∈ m.map Prod.fst <;>
    simp [reindexVisit, IsLeaf, Children, hcs, setIndex, Tag, tagInsert, hm, Index, MaxLeafID]

/-- The traversal of `Reindex` from the state `(m, nx)`: it succeeds exactly when the tags
of the topology are pairwise distinct and new to `m`, and then assigns the indices of
`renumber`, appends one entry per node in postorder and advances the counter by the number
of internal nodes. -/
theorem MutablePostOrder_reindex (n : Node) :
    ∀ m nx, MutablePostOrder reindexVisit n (m, nx)
      = if tagsFresh m (PostOrder (fun v => [v.Tag]) n) then
          some (renumber n nx,
            (m ++ PostOrder (fun v => [(v.Tag, v.Index)]) (renumber n nx), nx + numInternal n))
        else none := by
  induction n using Node.induct with
  | step cs i t h ih =>
    intro m nx
    have hch := MutablePostOrderChildren_reindex cs ih m nx
    have hkeys : (PostOrderChildren (fun v => [(v.Tag, v.Index)])
        (renumberChildren cs nx)).map Prod.fst = PostOrderChildren (fun v => [v.Tag]) cs := by
      rw [postEntries_keys_children]
      exact postTags_renumberChildren cs (fun c _ => postTags_renumber c) nx
    have hsplit := tagsFresh_append m _ (PostOrderChildren (fun v => [v.Tag]) cs) [t] hkeys
    have hfresh : tagsFresh (m ++ PostOrderChildren (fun v => [(v.Tag, v.Index)])
        (renumberChildren cs nx)) [t] ↔ t ∉ (m ++ PostOrderChildren
          (fun v => [(v.Tag, v.Index)]) (renumberChildren cs nx)).map Prod.fst := by
      simp [tagsFresh]
    have hpost : PostOrder (fun v => [v.Tag]) (mk cs i t h)
        = PostOrderChildren (fun v => [v.Tag]) cs ++ [t] := rfl
    rw [hpost]
    simp only [MutablePostOrder, hch]
    by_cases h1 : tagsFresh m (PostOrderChildren (fun v => [v.Tag]) cs)
    · simp only [h1, if_true, reindexVisit_mk, renumberChildren_isEmpty]
      by_cases h2 : t ∈ (m ++ PostOrderChildren (fun v => [(v.Tag, v.Index)])
          (renumberChildren cs nx)).map Prod.fst
      · have h3 : ¬ tagsFresh m (PostOrderChildren (fun v => [v.Tag]) cs ++ [t]) :=
          fun h => (hfresh.mp (hsplit.mp h).2) h2
        simp only [h2, h3, if_true, if_false]
      · have h3 : tagsFresh m (PostOrderChildren (fun v => [v.Tag]) cs ++ [t]) :=
          hsplit.mpr ⟨h1, hfresh.mpr h2⟩
        simp only [h2, h3, if_true, if_false]
        by_cases hcs : cs.isEmpty = true
        · have hnil : cs = [] := List.isEmpty_iff.mp hcs
          subst hnil
          simp [renumber, renumberChildren, PostOrder, PostOrderChildren, numInternal,
            numInternalChildren, Tag, Index]
        · have hcs' : cs.isEmpty = false := by simpa using hcs
          simp only [hcs', renumber, PostOrder, Index, numInternal, Bool.false_eq_true, if_false,
            Tag, List.append_assoc]
          have e : nx + (1 + numInternalChildren cs) = nx + numInternalChildren cs + 1 := by
            omega
          rw [e]
    · have h3 : ¬ tagsFresh m (PostOrderChildren (fun v => [v.Tag]) cs ++ [t]) :=
        fun h => h1 (hsplit.mp h).1
      simp only [h1, h3, if_false]

/-- The pass `Reindex` succeeds exactly when the tags of the topology are pairwise
distinct, and then returns the topology with the indices of `renumber` and one map entry
per node, in postorder. -/
theorem Reindex_eq (n : Node) :
    Reindex n = if (PostOrder (fun v => [v.Tag]) n).Nodup then
        some (renumber n ((1 + n.MaxLeafID) % 2 ^ 32),
          PostOrder (fun v => [(v.Tag, v.Index)]) (renumber n ((1 + n.MaxLeafID) % 2 ^ 32)))
      else none := by
  unfold Reindex
  rw [MutablePostOrder_reindex]
  by_cases h : (PostOrder (fun v => [v.Tag]) n).Nodup
  · have h1 : tagsFresh [] (PostOrder (fun v => [v.Tag]) n) := ⟨h, by simp⟩
    simp [h, h1]
  · have h1 : ¬ tagsFresh [] (PostOrder (fun v => [v.Tag]) n) := fun h' => h h'.1
    simp [h, h1]

/-! ## Membership in a visit sequence -/

theorem mem_PreOrderChildren (v : Node) (cs : List Node) :
    v ∈ PreOrderChildren (fun n => [n]) cs ↔ ∃ c ∈ cs, v ∈ PreOrder (fun n => [n]) c := by
  rw [PreOrderChildren_eq]
  simp [List.mem_flatten]

theorem mem_PreOrder (v : Node) (cs : List Node) (i t h : Nat) :
    v ∈ PreOrder (fun n => [n]) (mk cs i t h) ↔
      v = mk cs i t h ∨ ∃ c ∈ cs, v ∈ PreOrder (fun n => [n]) c := by
  simp only [PreOrder, List.singleton_append, List.mem_cons, mem_PreOrderChildren]

theorem self_mem_PreOrder (n : Node) : n ∈ PreOrder (fun n => [n]) n := by
  cases n with
  | mk cs i t h => exact (mem_PreOrder _ _ _ _ _).mpr (Or.inl rfl)

/-- A property of all nodes of a topology, by induction over the topology. -/
theorem forall_mem_PreOrder {P : Node → Prop} (n : Node)
    (step : ∀ cs i t h, (∀ c ∈ cs, ∀ v ∈ PreOrder (fun n => [n]) c, P v) → P (mk cs i t h)) :
    ∀ v ∈ PreOrder (fun n => [n]) n, P v := by
  induction n using Node.induct with
  | step cs i t h ih =>
    intro v hv
    rcases (mem_PreOrder _ _ _ _ _).mp hv with e | ⟨c, hc, hvc⟩
    · rw [e]
      exact step cs i t h ih
    · exact ih c hc v hvc

/-! ## Counting -/

theorem leafIdsChildren_eq (cs : List Node) : leafIdsChildren cs = (cs.map leafIds).flatten := by
  induction cs with
  | nil => rfl
  | cons c cs ih => simp [leafIdsChildren, ih]

theorem renumber_IsLeaf (n : Node) (nx : Nat) : (renumber n nx).IsLeaf = n.IsLeaf := by
  cases n with
  | mk cs i t h =>
    cases cs with
    | nil => rfl
    | cons c cs => rfl

theorem renumber_MaxLeafID (n : Node) (nx : Nat) : (renumber n nx).MaxLeafID = n.MaxLeafID := by
  simp only [MaxLeafID, renumber_Tag]

theorem renumber_Index_leaf (n : Node) (nx : Nat) (h : n.IsLeaf = true) :
    (renumber n nx).Index = n.MaxLeafID := by
  cases n with
  | mk cs i t h0 =>
    have hcs : cs = [] := List.isEmpty_iff.mp h
    subst hcs
    rfl

theorem renumber_Index_internal (n : Node) (nx : Nat) (h : n.IsLeaf = false) :
    (renumber n nx).Index + 1 = nx + n.numInternal := by
  cases n with
  | mk cs i t h0 =>
    have hcs : cs.isEmpty = false := h
    simp only [renumber, hcs, Bool.false_eq_true, if_false, Index, numInternal]
    omega

theorem renumber_children (cs : List Node)
    (ih : ∀ c ∈ cs, ∀ nx, (renumber c nx).size = c.size ∧
      (renumber c nx).numInternal = c.numInternal ∧ leafIds (renumber c nx) = leafIds c) :
    ∀ nx, sizeChildren (renumberChildren cs nx) = sizeChildren cs ∧
      numInternalChildren (renumberChildren cs nx) = numInternalChildren cs ∧
      leafIdsChildren (renumberChildren cs nx) = leafIdsChildren cs := by
  induction cs with
  | nil => intro nx; exact ⟨rfl, rfl, rfl⟩
  | cons c cs ihl =>
    intro nx
    obtain ⟨h1, h2, h3⟩ := ih c (List.mem_cons_self _ _) nx
    obtain ⟨k1, k2, k3⟩ := ihl (fun d hd => ih d (List.mem_cons_of_mem _ hd)) (nx + numInternal c)
    simp only [renumberChildren, sizeChildren, numInternalChildren, leafIdsChildren, h1, h2, h3,
      k1, k2, k3, and_self]

/-- Reindexing changes neither the number of nodes nor the leaves. -/
theorem renumber_counts (n : Node) :
    ∀ nx, (renumber n nx).size = n.size ∧ (renumber n nx).numInternal = n.numInternal ∧
      leafIds (renumber n nx) = leafIds n := by
  induction n using Node.induct with
  | step cs i t h ih =>
    intro nx
    obtain ⟨h1, h2, h3⟩ := renumber_children cs ih nx
    cases cs with
    | nil => exact ⟨rfl, rfl, rfl⟩
    | cons c cs =>
      simp only [renumber, List.isEmpty_cons, Bool.false_eq_true, if_false, size, numInternal,
        leafIds, h1, h2, h3, renumberChildren_isEmpty, and_self]

theorem mem_renumberChildren (cs : List Node) :
    ∀ nx c', c' ∈ renumberChildren cs nx →
      ∃ c ∈ cs, ∃ nx', nx ≤ nx' ∧ nx' + numInternal c ≤ nx + numInternalChildren cs ∧
        c' = renumber c nx' := by
  induction cs with
  | nil => intro nx c' h; cases h
  | cons c cs ih =>
    intro nx c' h
    simp only [renumberChildren, List.mem_cons] at h
    rcases h with e | h
    · exact ⟨c, List.mem_cons_self _ _, nx, Nat.le_refl _, by simp [numInternalChildren], e⟩
    · obtain ⟨d, hd, nx', h1, h2, h3⟩ := ih _ c' h
      refine ⟨d, List.mem_cons_of_mem _ hd, nx', by omega, ?_, h3⟩
      simp only [numInternalChildren]
      omega

/-- After reindexing from the counter `nx`: every leaf has its max leaf id as index, and
every internal node an index from `nx` up to, but not including, `nx` plus the number of
internal nodes. -/
theorem renumber_indices (n : Node) :
    ∀ nx, ∀ v ∈ PreOrder (fun n => [n]) (renumber n nx),
      (v.IsLeaf = true → v.Index = v.MaxLeafID) ∧
      (v.IsLeaf = false → nx ≤ v.Index ∧ v.Index < nx + n.numInternal) := by
  induction n using Node.induct with
  | step cs i t h ih =>
    intro nx v hv
    cases hcs : cs.isEmpty with
    | true =>
      have hnil : cs = [] := List.isEmpty_iff.mp hcs
      subst hnil
      simp only [renumber, List.isEmpty_nil, if_true] at hv
      rcases (mem_PreOrder _ _ _ _ _).mp hv with e | ⟨c, hc, _⟩
      · subst e
        exact ⟨fun _ => rfl, fun hl => by simp [IsLeaf, Children] at hl⟩
      · cases hc
    | false =>
      simp only [renumber, hcs, Bool.false_eq_true, if_false] at hv
      rcases (mem_PreOrder _ _ _ _ _).mp hv with e | ⟨c', hc', hvc⟩
      · subst e
        refine ⟨fun hl => ?_, fun _ => ?_⟩
        · simp [IsLeaf, Children, renumberChildren_isEmpty, hcs] at hl
        · simp only [Index, numInternal, hcs, Bool.false_eq_true, if_false]
          omega
      · obtain ⟨c, hc, nx', h1, h2, h3⟩ := mem_renumberChildren cs nx c' hc'
        subst h3
        obtain ⟨k1, k2⟩ := ih c hc nx' v hvc
        refine ⟨k1, fun hl => ?_⟩
        have := k2 hl
        simp only [numInternal, hcs, Bool.false_eq_true, if_false]
        omega

/-! ## The max leaf id of a canonical node -/

theorem le_back_of_sorted (cs : List Node) (back : Node) (hs : cs.Pairwise keyLT)
    (hb : cs.getLast? = some back) : ∀ c ∈ cs, c.MaxLeafID ≤ back.MaxLeafID := by
  induction cs with
  | nil => intro c hc; cases hc
  | cons d ds ih =>
    intro c hc
    have hs1 := List.pairwise_cons.mp hs
    cases ds with
    | nil =>
      simp only [List.getLast?_singleton, Option.some.injEq] at hb
      simp only [List.mem_singleton] at hc
      rw [hc, hb]
    | cons e es =>
      have hb1 : (e :: es).getLast? = some back := by
        rw [List.getLast?_cons_cons] at hb
        exact hb
      rcases List.mem_cons.mp hc with h | h
      · rw [h]
        exact Nat.le_of_lt (hs1.1 back (List.mem_of_getLast?_eq_some hb1))
      · exact ih hs1.2 hb1 c h

theorem mem_leafIdsChildren (x : Nat) (cs : List Node) :
    x ∈ leafIdsChildren cs ↔ ∃ c ∈ cs, x ∈ leafIds c := by
  rw [leafIdsChildren_eq]
  simp [List.mem_flatten]

/-- The first tag component of a canonical node is the largest taxon id among its
leaves. -/
theorem Canon.maxLeafID {n : Node} (hc : Canon n) :
    n.MaxLeafID ∈ leafIds n ∧ ∀ x ∈ leafIds n, x ≤ n.MaxLeafID := by
  induction hc with
  | leaf leaf_id index t h hid ht hh =>
    simp [leafIds, MaxLeafID, Tag]
  | internal cs index t h back hne hcs hsorted hback ht hh ih =>
    have he : cs.isEmpty = false := by
      cases cs with
      | nil => exact absurd rfl hne
      | cons _ _ => rfl
    have hm : (mk cs index t h).MaxLeafID = back.MaxLeafID := by
      simp only [MaxLeafID, Tag, ht, UnpackFirstInt_PackInts]
      exact Nat.mod_eq_of_lt (MaxLeafID_lt back)
    have hbm : back ∈ cs := List.mem_of_getLast?_eq_some hback
    simp only [leafIds, he, Bool.false_eq_true, if_false, hm, mem_leafIdsChildren]
    refine ⟨⟨back, hbm, (ih back hbm).1⟩, ?_⟩
    rintro x ⟨c, hc, hx⟩
    exact Nat.le_trans ((ih c hc).2 x hx) (le_back_of_sorted cs back hsorted hback c hc)

theorem leafIds_ne_nil (n : Node) : leafIds n ≠ [] := by
  induction n using Node.induct with
  | step cs i t h ih =>
    cases cs with
    | nil => simp [leafIds]
    | cons c cs =>
      simp only [leafIds, List.isEmpty_cons, Bool.false_eq_true, if_false, leafIdsChildren]
      intro e
      exact ih c (List.mem_cons_self _ _) (List.append_eq_nil.mp e).1

/-- The taxon ids of the leaves are the max leaf ids of the leaf nodes, in visit order. -/
theorem leafIds_eq_filter (n : Node) :
    ((PreOrder (fun v => [v]) n).filter IsLeaf).map MaxLeafID = leafIds n := by
  induction n using Node.induct with
  | step cs i t h ih =>
    have key : ((PreOrderChildren (fun v => [v]) cs).filter IsLeaf).map MaxLeafID
        = leafIdsChildren cs := by
      induction cs with
      | nil => rfl
      | cons c cs ihl =>
        simp only [PreOrderChildren, List.filter_append, List.map_append, leafIdsChildren]
        rw [ih c (List.mem_cons_self _ _), ihl (fun d hd => ih d (List.mem_cons_of_mem _ hd))]
    cases cs with
    | nil => simp [PreOrder, PreOrderChildren, leafIds, IsLeaf, Children, MaxLeafID, Tag]
    | cons c cs =>
      simp only [PreOrder, List.singleton_append, leafIds, List.isEmpty_cons, Bool.false_eq_true,
        if_false]
      rw [List.filter_cons_of_neg (by simp [IsLeaf, Children]), key]

/-- With leaves `0 .. n - 1` the max leaf id of the root is `n - 1`. -/
theorem maxLeafID_of_range (t : Node) (n : Nat) (hc : Canon t)
    (hleaves : (leafIds t).Perm (List.range n)) : t.MaxLeafID + 1 = n := by
  obtain ⟨h1, h2⟩ := hc.maxLeafID
  have h3 : t.MaxLeafID < n := List.mem_range.mp (hleaves.subset h1)
  have h4 : n - 1 ∈ leafIds t := hleaves.symm.subset (List.mem_range.mpr (by omega))
  have h5 := h2 _ h4
  omega

theorem Reindex_some (t t' : Node) (m : TagSizeMap) (hr : Reindex t = some (t', m)) :
    t' = renumber t ((1 + t.MaxLeafID) % 2 ^ 32) ∧
      m = PostOrder (fun v => [(v.Tag, v.Index)]) t' ∧
      (PostOrder (fun v => [v.Tag]) t).Nodup := by
  rw [Reindex_eq] at hr
  by_cases h : (PostOrder (fun v => [v.Tag]) t).Nodup
  · rw [if_pos h] at hr
    have e := Option.some.inj hr
    have e1 : renumber t ((1 + t.MaxLeafID) % 2 ^ 32) = t' := congrArg Prod.fst e
    have e2 := congrArg Prod.snd e
    simp only at e2
    rw [e1] at e2
    exact ⟨e1.symm, e2.symm, h⟩
  · rw [if_neg h] at hr
    cases hr

theorem sumLeafCount_eq (cs : List Node) :
    sumLeafCount cs = (cs.map LeafCount).sum % 2 ^ 32 := by
  have key : ∀ (l : List Node) (acc : Nat),
      l.foldl (fun acc child => (acc + child.LeafCount) % 2 ^ 32) acc % 2 ^ 32
        = (acc + (l.map LeafCount).sum) % 2 ^ 32 := by
    intro l
    induction l with
    | nil => intro acc; simp
    | cons d l ih =>
      intro acc
      simp only [List.foldl_cons, List.map_cons, List.sum_cons]
      rw [ih]
      omega
  have h0 : sumLeafCount cs % 2 ^ 32 = sumLeafCount cs := by
    unfold sumLeafCount
    cases cs using List.reverseRecOn with
    | nil => rfl
    | append_singleton l a =>
      simp only [List.foldl_append, List.foldl_cons, List.foldl_nil]
      exact Nat.mod_mod _ _
  rw [← h0]
  unfold sumLeafCount
  rw [key cs 0, Nat.zero_add]

theorem star_keys (N : Nat) (hN : N ≤ 2 ^ 32) :
    ((List.range N).map Leaf).map MaxLeafID = List.range N := by
  rw [List.map_map]
  conv_rhs => rw [← List.map_id (List.range N)]
  apply List.map_congr_left
  intro i hi
  exact MaxLeafID_Leaf i (lt_of_lt_of_le (List.mem_range.mp hi) hN)

theorem star_postTags (l : List Nat) :
    PostOrderChildren (fun v => [v.Tag]) (l.map Leaf) = l.map (fun i => PackInts i 1) := by
  induction l with
  | nil => rfl
  | cons i l ih =>
    simp only [List.map_cons, PostOrderChildren, ih]
    rfl

theorem star_leafIds (l : List Nat) (hl : ∀ i ∈ l, i < 2 ^ 32) :
    leafIdsChildren (l.map Leaf) = l := by
  induction l with
  | nil => rfl
  | cons i l ih =>
    simp only [List.map_cons, leafIdsChildren, ih (fun j hj => hl j (List.mem_cons_of_mem _ hj))]
    have : leafIds (Leaf i) = [i] := by
      simp only [Leaf, leafIds, List.isEmpty_nil, if_true, UnpackFirstInt_PackInts]
      rw [Nat.mod_eq_of_lt (hl i (List.mem_cons_self _ _))]
    rw [this]
    rfl

theorem star_sizes (l : List Nat) :
    sizeChildren (l.map Leaf) = l.length ∧ numInternalChildren (l.map Leaf) = 0 ∧
      (l.map Leaf).map LeafCount = l.map (fun _ => 1) := by
  induction l with
  | nil => exact ⟨rfl, rfl, rfl⟩
  | cons i l ih =>
    obtain ⟨h1, h2, h3⟩ := ih
    refine ⟨?_, ?_, ?_⟩
    · simp only [List.map_cons, sizeChildren, h1, List.length_cons]
      simp [Leaf, size, sizeChildren]
      omega
    · simp only [List.map_cons, numInternalChildren, h2]
      rfl
    · simp only [List.map_cons, h3, LeafCount_Leaf]

theorem PackInts_inj (a b c d : Nat) (ha : a < 2 ^ 32) (hb : b < 2 ^ 32) (hc : c < 2 ^ 32)
    (hd : d < 2 ^ 32) (h : PackInts a b = PackInts c d) : a = c ∧ b = d := by
  unfold PackInts at h
  rw [Nat.mod_eq_of_lt ha, Nat.mod_eq_of_lt hb, Nat.mod_eq_of_lt hc, Nat.mod_eq_of_lt hd] at h
  omega

/-- The star topology on the leaves `0 .. N - 1`, for `2 ≤ N ≤ 2 ^ 32`: the constructor and
`Reindex` succeed, and the root gets the index `N % 2 ^ 32`. -/
theorem star_reindex (N : Nat) (h2 : 2 ≤ N) (hN : N ≤ 2 ^ 32) :
    ∃ t t' m, Join ((List.range N).map Leaf) 0 = some t ∧ Built t ∧
      (leafIds t).Perm (List.range N) ∧ Reindex t = some (t', m) ∧
      t'.Index = N % 2 ^ 32 ∧ t'.size = N + 1 := by
  have hkeys := star_keys N hN
  have hd : (((List.range N).map Leaf).map MaxLeafID).Nodup := by
    rw [hkeys]
    exact List.nodup_range N
  have hne : (List.range N).map Leaf ≠ [] := by
    intro e
    have := congrArg List.length e
    simp only [List.length_map, List.length_range, List.length_nil] at this
    omega
  have hsorted : ((List.range N).map Leaf).Pairwise keyLT := by
    have h1 : (((List.range N).map Leaf).map MaxLeafID).Pairwise (fun a b => a < b) := by
      rw [hkeys]
      exact List.pairwise_lt_range N
    have h3 := List.pairwise_map.mp h1
    exact h3
  obtain ⟨back, hback, hj⟩ := Join_of_nodup _ 0 hne hd
  rw [insertionSort_of_sorted _ hsorted] at hback hj
  obtain ⟨tg, htg⟩ : ∃ tg, tg = PackInts back.MaxLeafID
      (sumLeafCount ((List.range N).map Leaf)) := ⟨_, rfl⟩
  obtain ⟨hs, hhs⟩ : ∃ hs, hs = SORotate (xorHash ((List.range N).map Leaf)) 1 := ⟨_, rfl⟩
  rw [← htg, ← hhs] at hj
  have hrange : ∀ i ∈ List.range N, i < 2 ^ 32 :=
    fun i hi => lt_of_lt_of_le (List.mem_range.mp hi) hN
  have hbuilt : Built (mk ((List.range N).map Leaf) 0 tg hs) := by
    refine Built.join _ 0 _ ?_ hj
    intro c hc
    obtain ⟨i, hi, e⟩ := List.mem_map.mp hc
    rw [← e]
    exact Built.leaf i (hrange i hi)
  have hcs : ((List.range N).map Leaf).isEmpty = false := by
    cases h : (List.range N).map Leaf with
    | nil => exact absurd h hne
    | cons _ _ => rfl
  have hleaf : leafIds (mk ((List.range N).map Leaf) 0 tg hs) = List.range N := by
    simp only [leafIds, hcs, Bool.false_eq_true, if_false]
    exact star_leafIds _ hrange
  have hM := maxLeafID_of_range _ N hbuilt.canon (by rw [hleaf])
  have hMb : back.MaxLeafID + 1 = N := by
    have e : (mk ((List.range N).map Leaf) 0 tg hs).MaxLeafID = back.MaxLeafID := by
      simp only [MaxLeafID, Tag, htg, UnpackFirstInt_PackInts]
      exact Nat.mod_eq_of_lt (MaxLeafID_lt back)
    rw [← e]
    exact hM
  obtain ⟨hsz, hni, hlc⟩ := star_sizes (List.range N)
  have hsum : sumLeafCount ((List.range N).map Leaf) = N % 2 ^ 32 := by
    rw [sumLeafCount_eq, hlc]
    simp
  have hp : PostOrder (fun v => [v.Tag]) (mk ((List.range N).map Leaf) 0 tg hs)
      = PostOrderChildren (fun v => [v.Tag]) ((List.range N).map Leaf) ++ [tg] := rfl
  have htags : (PostOrder (fun v => [v.Tag]) (mk ((List.range N).map Leaf) 0 tg hs)).Nodup := by
    rw [hp, star_postTags, List.nodup_append]
    refine ⟨?_, List.nodup_singleton _, ?_⟩
    · refine (List.nodup_range N).map_on ?_
      intro i hi j hj e
      exact (PackInts_inj i 1 j 1 (hrange i (List.mem_range.mpr (List.mem_range.mp hi)))
        (by norm_num) (hrange j (List.mem_range.mpr (List.mem_range.mp hj))) (by norm_num) e).1
    · intro x hx hx'
      obtain ⟨i, hi, e⟩ := List.mem_map.mp hx
      rw [List.mem_singleton] at hx'
      rw [hx', htg, hsum] at e
      have hi' := List.mem_range.mp hi
      obtain ⟨e1, e2⟩ := PackInts_inj i 1 back.MaxLeafID (N % 2 ^ 32) (hrange i hi)
        (by norm_num) (MaxLeafID_lt back) (Nat.mod_lt _ (by norm_num)) e
      have hlt : N < 2 ^ 32 ∨ N = 2 ^ 32 := by omega
      rcases hlt with hlt | hlt
      · rw [Nat.mod_eq_of_lt hlt] at e2
        omega
      · rw [hlt] at e2
        omega
  have hre := Reindex_eq (mk ((List.range N).map Leaf) 0 tg hs)
  have hnx : (1 + (mk ((List.range N).map Leaf) 0 tg hs).MaxLeafID) % 2 ^ 32 = N % 2 ^ 32 := by
    rw [Nat.add_comm, hM]
  rw [if_pos htags, hnx] at hre
  refine ⟨_, _, _, hj, hbuilt, by rw [hleaf], hre, ?_, ?_⟩
  · have hnl : IsLeaf (mk ((List.range N).map Leaf) 0 tg hs) = false := hcs
    have h1 := renumber_Index_internal _ (N % 2 ^ 32) hnl
    have h3 : numInternal (mk ((List.range N).map Leaf) 0 tg hs) = 1 := by
      simp only [numInternal, hcs, Bool.false_eq_true, if_false, hni]
    rw [h3] at h1
    omega
  · rw [(renumber_counts _ _).1]
    simp only [size, hsz, List.length_range]
    omega

/-! ## Visit sequences as lists of nodes -/

theorem PostOrderChildren_map {β : Type} (g : Node → β) (cs : List Node)
    (ih : ∀ c ∈ cs, PostOrder (fun v => [g v]) c = (PostOrder (fun v => [v]) c).map g) :
    PostOrderChildren (fun v => [g v]) cs = (PostOrderChildren (fun v => [v]) cs).map g := by
  induction cs with
  | nil => rfl
  | cons c cs ihl =>
    simp only [PostOrderChildren, List.map_append]
    rw [ih c (List.mem_cons_self _ _), ihl (fun d hd => ih d (List.mem_cons_of_mem _ hd))]

/-- A visitor that logs one value per node logs the image of the visit sequence. -/
theorem PostOrder_map {β : Type} (g : Node → β) (n : Node) :
    PostOrder (fun v => [g v]) n = (PostOrder (fun v => [v]) n).map g := by
  induction n using Node.induct with
  | step cs i t h ih =>
    simp only [PostOrder, List.map_append, PostOrderChildren_map g cs ih]
    rfl

theorem PostOrderChildren_perm (cs : List Node)
    (ih : ∀ c ∈ cs, (PostOrder (fun v => [v]) c).Perm (PreOrder (fun v => [v]) c)) :
    (PostOrderChildren (fun v => [v]) cs).Perm (PreOrderChildren (fun v => [v]) cs) := by
  induction cs with
  | nil => exact List.Perm.refl _
  | cons c cs ihl =>
    simp only [PostOrderChildren, PreOrderChildren]
    exact (ih c (List.mem_cons_self _ _)).append
      (ihl (fun d hd => ih d (List.mem_cons_of_mem _ hd)))

/-- The postorder and the preorder visit sequences hold the same nodes. -/
theorem PostOrder_perm_PreOrder (n : Node) :
    (PostOrder (fun v => [v]) n).Perm (PreOrder (fun v => [v]) n) := by
  induction n using Node.induct with
  | step cs i t h ih =>
    simp only [PostOrder, PreOrder]
    exact List.perm_append_comm.trans ((PostOrderChildren_perm cs ih).append_left _)

/-! ## The nodes of a reindexed topology -/

/-- Every node of the reindexed topology is the reindexed form of a node of the
topology. -/
theorem mem_PreOrder_renumber (n : Node) :
    ∀ nx, ∀ v' ∈ PreOrder (fun v => [v]) (renumber n nx),
      ∃ v ∈ PreOrder (fun v => [v]) n, ∃ nx', v' = renumber v nx' := by
  induction n using Node.induct with
  | step cs i t h ih =>
    intro nx v' hv'
    cases hcs : cs.isEmpty with
    | true =>
      have hnil : cs = [] := List.isEmpty_iff.mp hcs
      subst hnil
      simp only [renumber, List.isEmpty_nil, if_true] at hv'
      rcases (mem_PreOrder _ _ _ _ _).mp hv' with e | ⟨c, hc, _⟩
      · exact ⟨_, self_mem_PreOrder _, nx, by rw [e]; rfl⟩
      · cases hc
    | false =>
      have hv0 := hv'
      simp only [renumber, hcs, Bool.false_eq_true, if_false] at hv'
      rcases (mem_PreOrder _ _ _ _ _).mp hv' with e | ⟨c', hc', hvc⟩
      · refine ⟨_, self_mem_PreOrder _, nx, ?_⟩
        rw [e]
        simp only [renumber, hcs, Bool.false_eq_true, if_false]
      · obtain ⟨c, hc, nx', _, _, h3⟩ := mem_renumberChildren cs nx c' hc'
        subst h3
        obtain ⟨v, hv, nx'', e⟩ := ih c hc nx' v' hvc
        exact ⟨v, (mem_PreOrder _ _ _ _ _).mpr (Or.inr ⟨c, hc, hv⟩), nx'', e⟩

/-- The nodes of a canonical topology are canonical, and their leaves are leaves of the
topology. -/
theorem Canon.of_mem {n : Node} (hc : Canon n) :
    ∀ v ∈ PreOrder (fun v => [v]) n, Canon v ∧ leafIds v ⊆ leafIds n := by
  induction hc with
  | leaf leaf_id index t h hid ht hh =>
    intro v hv
    rcases (mem_PreOrder _ _ _ _ _).mp hv with e | ⟨c, hc, _⟩
    · rw [e]
      exact ⟨Canon.leaf leaf_id index t h hid ht hh, List.Subset.refl _⟩
    · cases hc
  | internal cs index t h back hne hcs hsorted hback ht hh ih =>
    intro v hv
    rcases (mem_PreOrder _ _ _ _ _).mp hv with e | ⟨c, hc, hvc⟩
    · rw [e]
      exact ⟨Canon.internal cs index t h back hne hcs hsorted hback ht hh, List.Subset.refl _⟩
    · obtain ⟨h1, h2⟩ := ih c hc v hvc
      refine ⟨h1, fun x hx => ?_⟩
      have he : cs.isEmpty = false := by
        cases cs with
        | nil => exact absurd rfl hne
        | cons _ _ => rfl
      simp only [leafIds, he, Bool.false_eq_true, if_false]
      exact (mem_leafIdsChildren x cs).mpr ⟨c, hc, h2 hx⟩

theorem Canon.leaf_Tag {v : Node} (hc : Canon v) (hl : v.IsLeaf = true) :
    v.Tag = PackInts v.MaxLeafID 1 := by
  cases hc with
  | leaf leaf_id index t h hid ht hh =>
    simp only [Tag, MaxLeafID, ht, UnpackFirstInt_PackInts, Nat.mod_eq_of_lt hid]
  | internal cs index t h back hne _ _ _ _ _ =>
    have : cs = [] := List.isEmpty_iff.mp hl
    exact absurd this hne

/-- In a reindexed canonical topology a leaf carries the tag of its index, and its index
is at most the max leaf id of the root. -/
theorem renumber_leaf (n : Node) (hc : Canon n) (nx : Nat) :
    ∀ v' ∈ PreOrder (fun v => [v]) (renumber n nx), v'.IsLeaf = true →
      v'.Index = v'.MaxLeafID ∧ v'.Tag = PackInts v'.Index 1 ∧ v'.Index ≤ n.MaxLeafID := by
  intro v' hv' hl
  have h1 := (renumber_indices n nx v' hv').1 hl
  obtain ⟨v, hv, nx', e⟩ := mem_PreOrder_renumber n nx v' hv'
  obtain ⟨hcv, hsub⟩ := hc.of_mem v hv
  have hlv : v.IsLeaf = true := by
    rw [e, renumber_IsLeaf] at hl
    exact hl
  have hM : v'.MaxLeafID = v.MaxLeafID := by rw [e, renumber_MaxLeafID]
  refine ⟨h1, ?_, ?_⟩
  · rw [h1, hM, e, renumber_Tag]
    exact hcv.leaf_Tag hlv
  · rw [h1, hM]
    exact hc.maxLeafID.2 _ (hsub hcv.maxLeafID.1)

/-! ## The indices of the internal nodes -/

theorem internal_indices_children (cs : List Node)
    (ih : ∀ c ∈ cs, ∀ nx, ((PostOrder (fun v => [v]) (renumber c nx)).filter
      (fun v => !v.IsLeaf)).map Index = List.range' nx (numInternal c)) :
    ∀ nx, ((PostOrderChildren (fun v => [v]) (renumberChildren cs nx)).filter
      (fun v => !v.IsLeaf)).map Index = List.range' nx (numInternalChildren cs) := by
  induction cs with
  | nil => intro nx; rfl
  | cons c cs ihl =>
    intro nx
    simp only [renumberChildren, PostOrderChildren, List.filter_append, List.map_append,
      numInternalChildren]
    rw [ih c (List.mem_cons_self _ _), ihl (fun d hd => ih d (List.mem_cons_of_mem _ hd)),
      List.range'_append_1, Nat.add_comm]

/-- After reindexing from the counter `nx` the internal nodes, taken in postorder, have
the indices `nx, nx + 1, ...`. -/
theorem internal_indices (n : Node) :
    ∀ nx, ((PostOrder (fun v => [v]) (renumber n nx)).filter (fun v => !v.IsLeaf)).map Index
      = List.range' nx (numInternal n) := by
  induction n using Node.induct with
  | step cs i t h ih =>
    intro nx
    cases hcs : cs.isEmpty with
    | true =>
      have hnil : cs = [] := List.isEmpty_iff.mp hcs
      subst hnil
      simp [renumber, PostOrder, PostOrderChildren, IsLeaf, Children, numInternal,
        numInternalChildren]
    | false =>
      have hroot : (mk (renumberChildren cs nx) (nx + numInternalChildren cs) t h).IsLeaf
          = false := by
        simp [IsLeaf, Children, renumberChildren_isEmpty, hcs]
      simp only [renumber, hcs, Bool.false_eq_true, if_false, PostOrder, List.filter_append,
        List.map_append, numInternal]
      rw [internal_indices_children cs ih]
      simp only [List.filter_cons, hroot, Bool.not_false, if_true, List.filter_nil, List.map_cons,
        List.map_nil, Index]
      have e : [nx + numInternalChildren cs] = List.range' (nx + numInternalChildren cs) 1 := rfl
      rw [e, List.range'_append_1, Nat.add_comm 1]

/-- After reindexing a canonical topology with pairwise distinct tags from a counter above
the max leaf id, no two nodes share an index. -/
theorem renumber_index_nodup (n : Node) (hc : Canon n) (nx : Nat) (hnx : n.MaxLeafID < nx)
    (htags : (PostOrder (fun v => [v.Tag]) n).Nodup) :
    ((PostOrder (fun v => [v]) (renumber n nx)).map Index).Nodup := by
  have hperm := (List.filter_append_perm IsLeaf (PostOrder (fun v => [v]) (renumber n nx))).map
    Index
  refine hperm.nodup_iff.mp ?_
  rw [List.map_append, List.nodup_append]
  have hmem : ∀ v, v ∈ PostOrder (fun v => [v]) (renumber n nx) →
      v ∈ PreOrder (fun v => [v]) (renumber n nx) :=
    fun v hv => (PostOrder_perm_PreOrder _).subset hv
  have hleafIdx : ∀ v ∈ (PostOrder (fun v => [v]) (renumber n nx)).filter IsLeaf,
      v.Tag = PackInts v.Index 1 ∧ v.Index ≤ n.MaxLeafID := by
    intro v hv
    obtain ⟨h1, h2⟩ := List.mem_filter.mp hv
    exact (renumber_leaf n hc nx v (hmem v h1) h2).2
  refine ⟨?_, ?_, ?_⟩
  · have h1 : ((PostOrder (fun v => [v]) (renumber n nx)).map Tag).Nodup := by
      rw [← PostOrder_map, postTags_renumber]
      exact htags
    have h2 : (((PostOrder (fun v => [v]) (renumber n nx)).filter IsLeaf).map Tag).Nodup :=
      h1.sublist ((List.filter_sublist _).map Tag)
    have h3 : ((PostOrder (fun v => [v]) (renumber n nx)).filter IsLeaf).map Tag
        = (((PostOrder (fun v => [v]) (renumber n nx)).filter IsLeaf).map Index).map
          (fun i => PackInts i 1) := by
      rw [List.map_map]
      apply List.map_congr_left
      intro v hv
      exact (hleafIdx v hv).1
    rw [h3] at h2
    exact h2.of_map _
  · rw [internal_indices n nx]
    exact List.nodup_range' _ _
  · intro x hx1 hx2
    obtain ⟨v, hv, e1⟩ := List.mem_map.mp hx1
    have hle := (hleafIdx v hv).2
    rw [internal_indices n nx] at hx2
    have := (List.mem_range'_1.mp hx2).1
    omega

/-- After reindexing a canonical topology with internal root from the counter
`MaxLeafID + 1`, the index of every node is at most the index of the root. -/
theorem renumber_index_le_root (n : Node) (hc : Canon n) :
    ∀ v ∈ PreOrder (fun v => [v]) (renumber n (n.MaxLeafID + 1)),
      v.Index ≤ (renumber n (n.MaxLeafID + 1)).Index := by
  intro v hv
  cases hl : n.IsLeaf with
  | true =>
    cases n with
    | mk cs i t h =>
      have hnil : cs = [] := List.isEmpty_iff.mp hl
      subst hnil
      simp only [renumber, List.isEmpty_nil, if_true] at hv ⊢
      rcases (mem_PreOrder _ _ _ _ _).mp hv with e | ⟨c, hc', _⟩
      · rw [e]
      · cases hc'
  | false =>
    have hroot := renumber_Index_internal n (n.MaxLeafID + 1) hl
    cases hvl : v.IsLeaf with
    | true =>
      have := (renumber_leaf n hc _ v hv hvl).2.2
      omega
    | false =>
      have := ((renumber_indices n _ v hv).2 hvl).2
      omega

end Node

namespace Tree

variable {D : Type} [Zero D]

/-- The loop of the tag-map constructor: when every index is inside the vector and no two
entries share an index, the loop succeeds, keeps the length, sets the slot of every entry to
the length found for its tag or to zero, and leaves the other slots as they are. -/
theorem fillBranchLengths_spec (lengths : Nat → Option D) (m : Node.TagSizeMap) :
    ∀ acc : List D, (∀ e ∈ m, e.2 < acc.length) → (m.map Prod.snd).Nodup →
      ∃ r, fillBranchLengths lengths m acc = some r ∧ r.length = acc.length ∧
        (∀ e ∈ m, r.get? e.2 = some ((lengths e.1).getD 0)) ∧
        (∀ j, j ∉ m.map Prod.snd → r.get? j = acc.get? j) := by
  induction m with
  | nil =>
    intro acc _ _
    exact ⟨acc, rfl, rfl, fun e he => (by cases he), fun _ _ => rfl⟩
  | cons e rest ih =>
    intro acc hlt hnd
    obtain ⟨tag, index⟩ := e
    rw [List.map_cons, List.nodup_cons] at hnd
    have hidx : index < acc.length := hlt (tag, index) (List.mem_cons_self _ _)
    have hstep : fillBranchLengths lengths ((tag, index) :: rest) acc
        = fillBranchLengths lengths rest (acc.set index ((lengths tag).getD 0)) := by
      cases hl : lengths tag with
      | none => simp [fillBranchLengths, hl, hidx]
      | some v => simp [fillBranchLengths, hl, hidx]
    obtain ⟨r, hr, hlen, hset, hkeep⟩ := ih (acc.set index ((lengths tag).getD 0))
      (fun e he => by
        rw [List.length_set]
        exact hlt e (List.mem_cons_of_mem _ he)) hnd.2
    refine ⟨r, hstep.trans hr, by rw [hlen, List.length_set], ?_, ?_⟩
    · intro e he
      rcases List.mem_cons.mp he with h | h
      · rw [h]
        simp only
        rw [hkeep index hnd.1]
        simp [hidx]
      · exact hset e h
    · intro j hj
      rw [List.map_cons, List.mem_cons, not_or] at hj
      rw [hkeep j hj.2]
      simp only [List.get?_eq_getElem?]
      rw [List.getElem?_set_ne (Ne.symm hj.1)]

/-- For a root that is a leaf or whose max leaf id is below `2 ^ 32 - 1`: the tree
built from a built topology on which `Reindex` succeeds and a tag-keyed map has a
branch-length vector of length root index + 1, and the branch length of every node is the
length the map holds for its tag, or zero when the tag is not a key. -/
theorem ofTagMap_lengths (t : Node) (lengths : Nat → Option D) (hb : Node.Built t)
    (t' : Node) (m : Node.TagSizeMap) (hr : Node.Reindex t = some (t', m))
    (hM : t.IsLeaf = true ∨ t.MaxLeafID + 1 < 2 ^ 32) :
    ∃ tree : Tree D, ofTagMap t lengths = some tree ∧ tree.topology = t' ∧
      tree.branch_lengths.length = t'.Index + 1 ∧
      ∀ v ∈ Node.PreOrder (fun v => [v]) t',
        tree.BranchLength v = some ((lengths v.Tag).getD 0) := by
  obtain ⟨ht', hm, htags⟩ := Node.Reindex_some t t' m hr
  have hc := hb.canon
  -- the bounds and the distinctness of the indices
  have hfacts : (∀ v ∈ Node.PreOrder (fun v => [v]) t', v.Index ≤ t'.Index) ∧
      ((Node.PostOrder (fun v => [v]) t').map Node.Index).Nodup := by
    rcases hM with hl | hlt
    · cases t with
      | mk cs i tg h =>
        have hnil : cs = [] := List.isEmpty_iff.mp hl
        subst hnil
        simp only [Node.renumber, List.isEmpty_nil, if_true] at ht'
        subst ht'
        constructor
        · intro v hv
          rcases (Node.mem_PreOrder _ _ _ _ _).mp hv with e | ⟨c, hc', _⟩
          · rw [e]
          · cases hc'
        · simp [Node.PostOrder, Node.PostOrderChildren]
    · have hnx : (1 + t.MaxLeafID) % 2 ^ 32 = t.MaxLeafID + 1 := by
        rw [Nat.add_comm]
        exact Nat.mod_eq_of_lt hlt
      rw [hnx] at ht'
      subst ht'
      exact ⟨Node.renumber_index_le_root t hc,
        Node.renumber_index_nodup t hc _ (Nat.lt_succ_self _) htags⟩
  obtain ⟨hle, hnd⟩ := hfacts
  have hmmap : m = (Node.PostOrder (fun v => [v]) t').map (fun v => (v.Tag, v.Index)) := by
    rw [hm, Node.PostOrder_map]
  have hsnd : m.map Prod.snd = (Node.PostOrder (fun v => [v]) t').map Node.Index := by
    rw [hmmap, List.map_map]
    rfl
  have hbound : ∀ e ∈ m, e.2 < (List.replicate (t'.Index + 1) (0 : D)).length := by
    intro e he
    rw [hmmap] at he
    obtain ⟨v, hv, e1⟩ := List.mem_map.mp he
    rw [← e1, List.length_replicate]
    exact Nat.lt_succ_of_le (hle v ((Node.PostOrder_perm_PreOrder t').subset hv))
  obtain ⟨r, hfill, hlen, hset, _⟩ := fillBranchLengths_spec lengths m
    (List.replicate (t'.Index + 1) 0) hbound (by rw [hsnd]; exact hnd)
  rw [List.length_replicate] at hlen
  refine ⟨⟨t', r⟩, ?_, rfl, hlen, ?_⟩
  · simp only [ofTagMap, hr, hfill]
  · intro v hv
    have hvm : (v.Tag, v.Index) ∈ m := by
      rw [hmmap]
      exact List.mem_map.mpr ⟨v, (Node.PostOrder_perm_PreOrder t').symm.subset hv, rfl⟩
    have h1 := hset _ hvm
    have h2 : v.Index < r.length := by
      rw [hlen]
      exact Nat.lt_succ_of_le (hle v hv)
    simp only [BranchLength, h2, if_true]
    rw [h1]

end Tree

namespace Node

/-- The internal constructor on children that are already in strictly ascending order. -/
theorem Join_sorted (cs : List Node) (index : Nat) (back : Node) (hs : cs.Pairwise keyLT)
    (hback : cs.getLast? = some back) :
    Join cs index = some (mk cs index (PackInts back.MaxLeafID (sumLeafCount cs))
      (SORotate (xorHash cs) 1)) := by
  have hne : cs ≠ [] := by
    intro e
    rw [e] at hback
    cases hback
  have hd : (cs.map MaxLeafID).Nodup := by
    rw [List.Nodup, List.pairwise_map]
    exact hs.imp (fun h => Nat.ne_of_lt h)
  obtain ⟨back', hback', hj⟩ := Join_of_nodup cs index hne hd
  rw [insertionSort_of_sorted cs hs] at hback' hj
  rw [hback] at hback'
  rw [hj, ← Option.some.inj hback']

theorem Join2_sorted (a b : Node) (index : Nat) (h : a.MaxLeafID < b.MaxLeafID) :
    Join2 a b index = some (mk [a, b] index (PackInts b.MaxLeafID (sumLeafCount [a, b]))
      (SORotate (xorHash [a, b]) 1)) := by
  refine Join_sorted [a, b] index b ?_ rfl
  simp [keyLT, h]

/-- After reindexing a canonical topology from the counter `MaxLeafID + 1`, every node
below the root has an index below the index of the root. -/
theorem renumber_index_lt_root (n : Node) (hc : Canon n) :
    ∀ c ∈ (renumber n (n.MaxLeafID + 1)).Children, ∀ v ∈ PreOrder (fun v => [v]) c,
      v.Index < (renumber n (n.MaxLeafID + 1)).Index := by
  intro c' hc' v hv
  cases n with
  | mk cs i t h =>
    cases hcs : cs.isEmpty with
    | true =>
      have hnil : cs = [] := List.isEmpty_iff.mp hcs
      subst hnil
      simp [renumber, Children] at hc'
    | false =>
      have hvt : v ∈ PreOrder (fun v => [v]) (renumber (mk cs i t h) ((mk cs i t h).MaxLeafID + 1)) := by
        simp only [renumber, hcs, Bool.false_eq_true, if_false] at hc' ⊢
        exact (mem_PreOrder _ _ _ _ _).mpr (Or.inr ⟨c', hc', hv⟩)
      have hroot := renumber_Index_internal (mk cs i t h) ((mk cs i t h).MaxLeafID + 1) hcs
      cases hvl : v.IsLeaf with
      | true =>
        have := (renumber_leaf _ hc _ v hvt hvl).2.2
        have hpos : 0 < (mk cs i t h).numInternal := by
          simp [numInternal, hcs]
        omega
      | false =>
        simp only [renumber, hcs, Bool.false_eq_true, if_false, Children] at hc'
        obtain ⟨c, hcm, nx', h1, h2, h3⟩ := mem_renumberChildren cs _ c' hc'
        subst h3
        have := ((renumber_indices c nx' v hv).2 hvl).2
        simp only [renumber, hcs, Bool.false_eq_true, if_false, Index_mk]
        omega

end Node

namespace Tree

variable {D : Type} [Zero D]

end Tree

namespace Node

end Node

namespace Tree

/-- C8, at the failing input `(0, 4294967295)` with an empty map: the sum
`1 + MaxLeafID()` is formed in 32 bits and wraps to 0, so `Reindex` succeeds and gives the
root the index 0; the vector gets the length 1, the entry of the leaf 4294967295 lies outside
it, and the tag-map constructor builds no tree, where C8 asks for a tree in which every
branch length is 0. -/
theorem ofTagMap_aborts_on_wrap :
    ((Node.Join [Node.Leaf 0, Node.Leaf 4294967295] 0).bind Node.Reindex).map
        (fun r => (r.1.Index, r.2))
      = some (0, [(1, 0), (18446744069414584321, 4294967295), (18446744069414584322, 0)]) ∧
    ((Node.Join [Node.Leaf 0, Node.Leaf 4294967295] 0).bind
        (fun t => ofTagMap t (fun _ => (none : Option Int)))) = none := by
  constructor <;> decide

/-- The tag-map constructor at the example topology `(0,1,(2,3))` and a map that holds a
length for the tag of the leaf 0 only. -/
theorem ofTagMap_lengths_witness :
    ∃ tree : Tree Int, ofTagMap Node.exampleTopology0 (fun tag => if tag = 1 then some 7 else none)
        = some tree ∧
      tree.topology = Node.exampleTopology0 ∧
      tree.branch_lengths.length = Node.exampleTopology0.Index + 1 ∧
      ∀ v ∈ Node.PreOrder (fun v => [v]) Node.exampleTopology0,
        tree.BranchLength v = some ((if v.Tag = 1 then some 7 else none : Option Int).getD 0) :=
  ofTagMap_lengths Node.exampleTopology0 (fun tag => if tag = 1 then some (7 : Int) else none)
    Node.exampleTopology0_Built Node.exampleTopology0
    [(1, 0), (4294967297, 1), (8589934593, 2), (12884901889, 3), (12884901890, 4),
      (12884901892, 5)] (by decide) (Or.inr (by decide))

end Tree

namespace Node

/-! ## Positions -/

theorem nodeAt_nil (n : Node) : nodeAt n [] = some n := by
  cases n; rfl

theorem nodeAt_cons (n : Node) (k : Nat) (p : List Nat) :
    nodeAt n (k :: p) = (n.Children[k]?).bind (fun c => nodeAt c p) := by
  cases n with
  | mk cs i t h =>
    cases hk : (mk cs i t h).Children[k]? <;> simp [nodeAt, hk]

/-- Membership in an enumeration of the positions below a list of children that is built
block by block. -/
theorem mem_blocks (E : Node → List (List Nat)) (EC : List Node → Nat → List (List Nat))
    (h0 : ∀ k, EC [] k = [])
    (h1 : ∀ c cs k, EC (c :: cs) k = (E c).map (List.cons k) ++ EC cs (k + 1)) :
    ∀ cs k r, r ∈ EC cs k ↔ ∃ j q c, r = (k + j) :: q ∧ cs[j]? = some c ∧ q ∈ E c := by
  intro cs
  induction cs with
  | nil =>
    intro k r
    rw [h0]
    simp
  | cons c cs ih =>
    intro k r
    rw [h1, List.mem_append, ih]
    constructor
    · rintro (h | ⟨j, q, d, e, hd, hq⟩)
      · obtain ⟨q, hq, e⟩ := List.mem_map.mp h
        exact ⟨0, q, c, by rw [← e]; rfl, List.getElem?_cons_zero, hq⟩
      · exact ⟨j + 1, q, d, by rw [e]; congr 1; omega, by simpa using hd, hq⟩
    · rintro ⟨j, q, d, e, hd, hq⟩
      cases j with
      | zero =>
        left
        simp only [List.getElem?_cons_zero, Option.some.injEq] at hd
        rw [hd]
        exact List.mem_map.mpr ⟨q, hq, by rw [e]; rfl⟩
      | succ j =>
        right
        exact ⟨j, q, d, by rw [e]; congr 1; omega, by simpa using hd, hq⟩

theorem nodup_blocks (E : Node → List (List Nat)) (EC : List Node → Nat → List (List Nat))
    (h0 : ∀ k, EC [] k = [])
    (h1 : ∀ c cs k, EC (c :: cs) k = (E c).map (List.cons k) ++ EC cs (k + 1)) :
    ∀ cs, (∀ c ∈ cs, (E c).Nodup) → ∀ k, (EC cs k).Nodup := by
  intro cs
  induction cs with
  | nil =>
    intro _ k
    rw [h0]
    exact List.nodup_nil
  | cons c cs ih =>
    intro hn k
    rw [h1, List.nodup_append]
    refine ⟨(hn c (List.mem_cons_self _ _)).map (fun a b e => List.cons_injective e),
      ih (fun d hd => hn d (List.mem_cons_of_mem _ hd)) (k + 1), ?_⟩
    intro r hr1 hr2
    obtain ⟨q, _, e⟩ := List.mem_map.mp hr1
    obtain ⟨j, q', d, e', _, _⟩ := (mem_blocks E EC h0 h1 cs (k + 1) r).mp hr2
    rw [← e] at e'
    have := (List.cons.inj e').1
    omega

theorem block_sublist (E : Node → List (List Nat)) (EC : List Node → Nat → List (List Nat))
    (h1 : ∀ c cs k, EC (c :: cs) k = (E c).map (List.cons k) ++ EC cs (k + 1)) :
    ∀ cs k j c, cs[j]? = some c → ((E c).map (List.cons (k + j))).Sublist (EC cs k) := by
  intro cs
  induction cs with
  | nil => intro k j c h; simp at h
  | cons d cs ih =>
    intro k j c h
    rw [h1]
    cases j with
    | zero =>
      simp only [List.getElem?_cons_zero, Option.some.injEq] at h
      rw [h]
      exact List.sublist_append_left _ _
    | succ j =>
      have h' : cs[j]? = some c := by simpa using h
      have := ih (k + 1) j c h'
      have e : k + 1 + j = k + (j + 1) := by omega
      rw [e] at this
      exact this.trans (List.sublist_append_right _ _)

/-- The nodes at the positions of a block enumeration are the nodes of the matching visit
sequence. -/
theorem map_nodeAt_blocks (E : Node → List (List Nat)) (EC : List Node → Nat → List (List Nat))
    (V : Node → List Node) (VC : List Node → List Node)
    (h0 : ∀ k, EC [] k = [])
    (h1 : ∀ c cs k, EC (c :: cs) k = (E c).map (List.cons k) ++ EC cs (k + 1))
    (v0 : VC [] = []) (v1 : ∀ c cs, VC (c :: cs) = V c ++ VC cs) (i t h : Nat) :
    ∀ cs, (∀ c ∈ cs, (E c).map (nodeAt c) = (V c).map some) →
      ∀ done, (EC cs done.length).map (nodeAt (mk (done ++ cs) i t h)) = (VC cs).map some := by
  intro cs
  induction cs with
  | nil =>
    intro _ done
    rw [h0, v0]
    rfl
  | cons c cs ih =>
    intro hE done
    rw [h1, v1, List.map_append, List.map_append, List.map_map]
    have e1 : (nodeAt (mk (done ++ c :: cs) i t h) ∘ List.cons done.length) = nodeAt c := by
      funext p
      have hget : (done ++ c :: cs)[done.length]? = some c := by
        rw [List.getElem?_append_right (Nat.le_refl _), Nat.sub_self]
        exact List.getElem?_cons_zero
      simp only [Function.comp, nodeAt_cons, Children_mk, hget, Option.some_bind]
    rw [e1, hE c (List.mem_cons_self _ _)]
    have := ih (fun d hd => hE d (List.mem_cons_of_mem _ hd)) (done ++ [c])
    simp only [List.length_append, List.length_singleton, List.append_assoc, List.singleton_append]
      at this
    rw [this]

/-! ## Preorder positions -/

theorem prePathsChildren_nil (k : Nat) : prePathsChildren [] k = [] := rfl

theorem prePathsChildren_cons (c : Node) (cs : List Node) (k : Nat) :
    prePathsChildren (c :: cs) k = (prePaths c).map (List.cons k) ++ prePathsChildren cs (k + 1) :=
  rfl

theorem prePaths_mk (cs : List Node) (i t h : Nat) :
    prePaths (mk cs i t h) = [] :: prePathsChildren cs 0 := rfl

theorem postPathsChildren_nil (k : Nat) : postPathsChildren [] k = [] := rfl

theorem postPathsChildren_cons (c : Node) (cs : List Node) (k : Nat) :
    postPathsChildren (c :: cs) k
      = (postPaths c).map (List.cons k) ++ postPathsChildren cs (k + 1) := rfl

theorem postPaths_mk (cs : List Node) (i t h : Nat) :
    postPaths (mk cs i t h) = postPathsChildren cs 0 ++ [[]] := rfl

theorem mem_prePathsChildren (cs : List Node) (k : Nat) (r : List Nat) :
    r ∈ prePathsChildren cs k ↔
      ∃ j q c, r = (k + j) :: q ∧ cs[j]? = some c ∧ q ∈ prePaths c :=
  mem_blocks prePaths prePathsChildren prePathsChildren_nil prePathsChildren_cons cs k r

/-- The preorder positions are exactly the positions at which the topology has a node. -/
theorem mem_prePaths (n : Node) : ∀ p, p ∈ prePaths n ↔ (nodeAt n p).isSome = true := by
  induction n using Node.induct with
  | step cs i t h ih =>
    intro p
    cases p with
    | nil => simp [prePaths_mk, nodeAt_nil]
    | cons j q =>
      rw [prePaths_mk, List.mem_cons, mem_prePathsChildren, nodeAt_cons, Children_mk]
      constructor
      · rintro (h | ⟨j', q', c, e, hc, hq⟩)
        · cases h
        · obtain ⟨e1, e2⟩ := List.cons.inj e
          have e3 : j = j' := by omega
          rw [e3, hc, e2]
          exact (ih c (List.getElem?_mem hc) q').mp hq
      · intro hs
        right
        cases hc : cs[j]? with
        | none => rw [hc] at hs; cases hs
        | some c =>
          rw [hc] at hs
          exact ⟨j, q, c, by simp, hc, (ih c (List.getElem?_mem hc) q).mpr hs⟩

theorem prePaths_nodup (n : Node) : (prePaths n).Nodup := by
  induction n using Node.induct with
  | step cs i t h ih =>
    rw [prePaths_mk, List.nodup_cons]
    refine ⟨?_, nodup_blocks prePaths prePathsChildren prePathsChildren_nil prePathsChildren_cons
      cs ih 0⟩
    intro hm
    obtain ⟨j, q, c, e, _, _⟩ := (mem_prePathsChildren cs 0 []).mp hm
    cases e

theorem PreOrderChildren_nil {β : Type} (f : Node → List β) : PreOrderChildren f [] = [] := rfl

theorem PreOrderChildren_cons {β : Type} (f : Node → List β) (c : Node) (cs : List Node) :
    PreOrderChildren f (c :: cs) = PreOrder f c ++ PreOrderChildren f cs := rfl

theorem PostOrderChildren_nil {β : Type} (f : Node → List β) : PostOrderChildren f [] = [] := rfl

theorem PostOrderChildren_cons {β : Type} (f : Node → List β) (c : Node) (cs : List Node) :
    PostOrderChildren f (c :: cs) = PostOrder f c ++ PostOrderChildren f cs := rfl

/-- The preorder visit sequence holds the nodes at the preorder positions. -/
theorem map_nodeAt_prePaths (n : Node) :
    (prePaths n).map (nodeAt n) = (PreOrder (fun v => [v]) n).map some := by
  induction n using Node.induct with
  | step cs i t h ih =>
    have := map_nodeAt_blocks prePaths prePathsChildren (PreOrder (fun v => [v]))
      (PreOrderChildren (fun v => [v])) prePathsChildren_nil prePathsChildren_cons
      (PreOrderChildren_nil _) (PreOrderChildren_cons _) i t h cs ih []
    simp only [List.length_nil, List.nil_append] at this
    simp only [prePaths_mk, List.map_cons, nodeAt_nil, this, PreOrder, List.singleton_append]

/-- In the preorder positions every position comes before the positions below it. -/
theorem prePaths_order (n : Node) :
    ∀ p q, q ≠ [] → (p ++ q) ∈ prePaths n → [p, p ++ q].Sublist (prePaths n) := by
  induction n using Node.induct with
  | step cs i t h ih =>
    intro p q hq hm
    rw [prePaths_mk] at hm ⊢
    cases p with
    | nil =>
      simp only [List.nil_append] at hm ⊢
      rcases List.mem_cons.mp hm with e | hm'
      · exact absurd e hq
      · exact List.Sublist.cons₂ _ (List.singleton_sublist.mpr hm')
    | cons j p' =>
      rcases List.mem_cons.mp hm with e | hm'
      · cases e
      · obtain ⟨j', q', c, e, hc, hq'⟩ := (mem_prePathsChildren cs 0 _).mp hm'
        simp only [List.cons_append, List.cons.injEq] at e
        obtain ⟨e1, e2⟩ := e
        have ej : j' = j := by omega
        subst ej
        rw [← e2] at hq'
        have h1 := ih c (List.getElem?_mem hc) p' q hq hq'
        have h2 := h1.map (List.cons j')
        have h3 := block_sublist prePaths prePathsChildren prePathsChildren_cons cs 0 j' c hc
        rw [Nat.zero_add] at h3
        exact (h2.trans h3).trans (List.sublist_cons_self _ _)

/-! ## Postorder positions -/

theorem mem_postPathsChildren (cs : List Node) (k : Nat) (r : List Nat) :
    r ∈ postPathsChildren cs k ↔
      ∃ j q c, r = (k + j) :: q ∧ cs[j]? = some c ∧ q ∈ postPaths c :=
  mem_blocks postPaths postPathsChildren postPathsChildren_nil postPathsChildren_cons cs k r

theorem postPathsChildren_perm (cs : List Node)
    (ih : ∀ c ∈ cs, (postPaths c).Perm (prePaths c)) :
    ∀ k, (postPathsChildren cs k).Perm (prePathsChildren cs k) := by
  induction cs with
  | nil => intro k; exact List.Perm.refl _
  | cons c cs ihl =>
    intro k
    rw [postPathsChildren_cons, prePathsChildren_cons]
    exact ((ih c (List.mem_cons_self _ _)).map _).append
      (ihl (fun d hd => ih d (List.mem_cons_of_mem _ hd)) (k + 1))

/-- The postorder positions are the preorder positions in another order. -/
theorem postPaths_perm (n : Node) : (postPaths n).Perm (prePaths n) := by
  induction n using Node.induct with
  | step cs i t h ih =>
    rw [postPaths_mk, prePaths_mk]
    exact List.perm_append_comm.trans ((postPathsChildren_perm cs ih 0).cons _)

/-- The postorder visit sequence holds the nodes at the postorder positions. -/
theorem map_nodeAt_postPaths (n : Node) :
    (postPaths n).map (nodeAt n) = (PostOrder (fun v => [v]) n).map some := by
  induction n using Node.induct with
  | step cs i t h ih =>
    have := map_nodeAt_blocks postPaths postPathsChildren (PostOrder (fun v => [v]))
      (PostOrderChildren (fun v => [v])) postPathsChildren_nil postPathsChildren_cons
      (PostOrderChildren_nil _) (PostOrderChildren_cons _) i t h cs ih []
    simp only [List.length_nil, List.nil_append] at this
    simp only [postPaths_mk, List.map_append, List.map_cons, List.map_nil, nodeAt_nil, this,
      PostOrder]

/-- In the postorder positions every position comes after the positions below it. -/
theorem postPaths_order (n : Node) :
    ∀ p q, q ≠ [] → (p ++ q) ∈ postPaths n → [p ++ q, p].Sublist (postPaths n) := by
  induction n using Node.induct with
  | step cs i t h ih =>
    intro p q hq hm
    rw [postPaths_mk] at hm ⊢
    cases p with
    | nil =>
      simp only [List.nil_append] at hm ⊢
      rcases List.mem_append.mp hm with hm' | e
      · exact (List.singleton_sublist.mpr hm').append (List.Sublist.refl [[]])
      · exact absurd (List.mem_singleton.mp e) hq
    | cons j p' =>
      rcases List.mem_append.mp hm with hm' | e
      · obtain ⟨j', q', c, e, hc, hq'⟩ := (mem_postPathsChildren cs 0 _).mp hm'
        simp only [List.cons_append, List.cons.injEq] at e
        obtain ⟨e1, e2⟩ := e
        have ej : j' = j := by omega
        subst ej
        rw [← e2] at hq'
        have h1 := ih c (List.getElem?_mem hc) p' q hq hq'
        have h2 := h1.map (List.cons j')
        have h3 := block_sublist postPaths postPathsChildren postPathsChildren_cons cs 0 j' c hc
        rw [Nat.zero_add] at h3
        exact (h2.trans h3).trans (List.sublist_append_left _ _)
      · cases List.mem_singleton.mp e

/-! ## The work queue of `LevelOrder` -/

theorem LevelOrderLoop_nil {β : Type} (f : Node → List β) : LevelOrderLoop f [] = [] := by
  rw [LevelOrderLoop]

theorem LevelOrderLoop_cons {β : Type} (f : Node → List β) (n : Node) (rest : List Node) :
    LevelOrderLoop f (n :: rest) = f n ++ LevelOrderLoop f (rest ++ n.Children) := by
  rw [LevelOrderLoop]

theorem levelPathsLoop_nil : levelPathsLoop [] = [] := by
  rw [levelPathsLoop]

theorem levelPathsLoop_cons (p : List Nat) (n : Node) (rest : List (List Nat × Node)) :
    levelPathsLoop ((p, n) :: rest) = p :: levelPathsLoop (rest ++ childEntries p n) := by
  rw [levelPathsLoop]

theorem childEntries_snd (p : List Nat) (n : Node) :
    (childEntries p n).map Prod.snd = n.Children := by
  simp only [childEntries, List.map_map]
  have : (Prod.snd ∘ fun jc : Nat × Node => (p ++ [jc.1], jc.2)) = Prod.snd := rfl
  rw [this, List.enum_map_snd]

theorem childEntries_fst (p : List Nat) (n : Node) :
    (childEntries p n).map Prod.fst = (List.range n.Children.length).map (fun j => p ++ [j]) := by
  simp only [childEntries, List.map_map]
  have : (Prod.fst ∘ fun jc : Nat × Node => (p ++ [jc.1], jc.2))
      = (fun j => p ++ [j]) ∘ Prod.fst := rfl
  rw [this, ← List.map_map, List.enum_map_fst]

theorem mem_childEntries (p : List Nat) (n : Node) (e : List Nat × Node) :
    e ∈ childEntries p n ↔ ∃ j c, n.Children[j]? = some c ∧ e = (p ++ [j], c) := by
  simp only [childEntries, List.mem_map]
  constructor
  · rintro ⟨⟨j, c⟩, hjc, e1⟩
    exact ⟨j, c, List.mk_mem_enum_iff_getElem?.mp hjc, e1.symm⟩
  · rintro ⟨j, c, hjc, e1⟩
    exact ⟨(j, c), List.mk_mem_enum_iff_getElem?.mpr hjc, e1.symm⟩

theorem nodeAt_append (t : Node) (p s : List Nat) :
    nodeAt t (p ++ s) = (nodeAt t p).bind (fun n => nodeAt n s) := by
  induction p generalizing t with
  | nil => simp [nodeAt_nil]
  | cons k p ih =>
    rw [List.cons_append, nodeAt_cons, nodeAt_cons]
    cases t.Children[k]? with
    | none => rfl
    | some c => exact ih c

/-- The queue visits the nodes at the positions of `levelPathsLoop`. -/
theorem map_nodeAt_levelPathsLoop (t : Node) (q : List (List Nat × Node)) :
    (∀ e ∈ q, nodeAt t e.1 = some e.2) →
      (levelPathsLoop q).map (nodeAt t) = (LevelOrderLoop (fun v => [v]) (q.map Prod.snd)).map some := by
  induction q using levelPathsLoop.induct with
  | case1 => intro _; rw [levelPathsLoop_nil, List.map_nil, List.map_nil, LevelOrderLoop_nil]; rfl
  | case2 p n rest ih =>
    intro h
    rw [levelPathsLoop_cons, List.map_cons, List.map_cons, LevelOrderLoop_cons]
    have hp : nodeAt t p = some n := h (p, n) (List.mem_cons_self _ _)
    have hnew : ∀ e ∈ rest ++ childEntries p n, nodeAt t e.1 = some e.2 := by
      intro e he
      rcases List.mem_append.mp he with h1 | h1
      · exact h e (List.mem_cons_of_mem _ h1)
      · obtain ⟨j, c, hjc, e1⟩ := (mem_childEntries p n e).mp h1
        rw [e1]
        simp only
        rw [nodeAt_append, hp, Option.some_bind, nodeAt_cons, hjc, Option.some_bind, nodeAt_nil]
    have := ih hnew
    rw [List.map_append, childEntries_snd] at this
    rw [this, hp]
    rfl

/-- The positions the queue visits are the positions at and below the entries of the
queue. -/
theorem mem_levelPathsLoop (q : List (List Nat × Node)) :
    ∀ r, r ∈ levelPathsLoop q ↔
      ∃ e ∈ q, ∃ s, r = e.1 ++ s ∧ (nodeAt e.2 s).isSome = true := by
  induction q using levelPathsLoop.induct with
  | case1 => intro r; simp [levelPathsLoop_nil]
  | case2 p n rest ih =>
    intro r
    rw [levelPathsLoop_cons, List.mem_cons, ih]
    constructor
    · rintro (e | ⟨e, he, s, e1, hs⟩)
      · exact ⟨(p, n), List.mem_cons_self _ _, [], by simp [e], by simp [nodeAt_nil]⟩
      · rcases List.mem_append.mp he with h1 | h1
        · exact ⟨e, List.mem_cons_of_mem _ h1, s, e1, hs⟩
        · obtain ⟨j, c, hjc, e2⟩ := (mem_childEntries p n e).mp h1
          refine ⟨(p, n), List.mem_cons_self _ _, j :: s, ?_, ?_⟩
          · rw [e1, e2]
            simp
          · rw [nodeAt_cons, hjc, Option.some_bind]
            rw [e2] at hs
            exact hs
    · rintro ⟨e, he, s, e1, hs⟩
      rcases List.mem_cons.mp he with h1 | h1
      · rw [h1] at e1 hs
        simp only at e1 hs
        cases s with
        | nil => left; simpa using e1
        | cons j s' =>
          right
          rw [nodeAt_cons] at hs
          cases hjc : n.Children[j]? with
          | none => rw [hjc] at hs; cases hs
          | some c =>
            rw [hjc, Option.some_bind] at hs
            refine ⟨(p ++ [j], c), List.mem_append_right _
              ((mem_childEntries p n _).mpr ⟨j, c, hjc, rfl⟩), s', ?_, hs⟩
            rw [e1]
            simp
      · exact Or.inr ⟨e, List.mem_append_left _ h1, s, e1, hs⟩

theorem apart_child_of_apart (p x : List Nat) (j : Nat) (h : Apart p x) : Apart x (p ++ [j]) := by
  constructor
  · intro s e
    rcases List.eq_nil_or_concat s with hs | ⟨s', l, hs⟩
    · rw [hs, List.append_nil] at e
      exact h.1 [j] e.symm
    · rw [hs, List.concat_eq_append, ← List.append_assoc] at e
      have := List.append_inj_left' e rfl
      exact h.2 s' this
  · intro s e
    rw [List.append_assoc] at e
    exact h.1 _ e

theorem apart_children (p : List Nat) (a b : Nat) (h : a ≠ b) :
    Apart (p ++ [a]) (p ++ [b]) := by
  constructor
  · intro s e
    rw [List.append_assoc] at e
    have := List.append_cancel_left e
    simp only [List.singleton_append, List.cons.injEq] at this
    exact h this.1.symm
  · intro s e
    rw [List.append_assoc] at e
    have := List.append_cancel_left e
    simp only [List.singleton_append, List.cons.injEq] at this
    exact h this.1

/-- The queue visits no position twice when the positions of its entries lie apart. -/
theorem levelPathsLoop_nodup (q : List (List Nat × Node)) :
    (q.map Prod.fst).Pairwise Apart → (levelPathsLoop q).Nodup := by
  induction q using levelPathsLoop.induct with
  | case1 => intro _; rw [levelPathsLoop_nil]; exact List.nodup_nil
  | case2 p n rest ih =>
    intro h
    rw [List.map_cons, List.pairwise_cons] at h
    obtain ⟨hp, hrest⟩ := h
    rw [levelPathsLoop_cons, List.nodup_cons]
    constructor
    · intro hm
      obtain ⟨e, he, s, e1, _⟩ := (mem_levelPathsLoop _ p).mp hm
      rcases List.mem_append.mp he with h1 | h1
      · exact (hp e.1 (List.mem_map_of_mem _ h1)).2 s e1
      · obtain ⟨j, c, _, e2⟩ := (mem_childEntries p n e).mp h1
        rw [e2] at e1
        have := congrArg List.length e1
        simp only [List.length_append, List.length_singleton] at this
        omega
    · apply ih
      rw [List.map_append, List.pairwise_append]
      refine ⟨hrest, ?_, ?_⟩
      · rw [childEntries_fst]
        exact List.Pairwise.map _ (fun a b hab => apart_children p a b hab) (List.nodup_range _)
      · intro x hx y hy
        rw [childEntries_fst] at hy
        obtain ⟨j, _, e⟩ := List.mem_map.mp hy
        rw [← e]
        exact apart_child_of_apart p x j (hp x hx)

/-! ## The visitor is applied along the visit sequence -/

theorem PreOrder_flatMap {β : Type} (f : Node → List β) (n : Node) :
    PreOrder f n = (PreOrder (fun v => [v]) n).flatMap f := by
  induction n using Node.induct with
  | step cs i t h ih =>
    have key : PreOrderChildren f cs = (PreOrderChildren (fun v => [v]) cs).flatMap f := by
      induction cs with
      | nil => rfl
      | cons c cs ihl =>
        rw [PreOrderChildren_cons, PreOrderChildren_cons, List.flatMap_append,
          ih c (List.mem_cons_self _ _), ihl (fun d hd => ih d (List.mem_cons_of_mem _ hd))]
    simp only [PreOrder, key, List.singleton_append, List.flatMap_cons]

theorem PostOrder_flatMap {β : Type} (f : Node → List β) (n : Node) :
    PostOrder f n = (PostOrder (fun v => [v]) n).flatMap f := by
  induction n using Node.induct with
  | step cs i t h ih =>
    have key : PostOrderChildren f cs = (PostOrderChildren (fun v => [v]) cs).flatMap f := by
      induction cs with
      | nil => rfl
      | cons c cs ihl =>
        rw [PostOrderChildren_cons, PostOrderChildren_cons, List.flatMap_append,
          ih c (List.mem_cons_self _ _), ihl (fun d hd => ih d (List.mem_cons_of_mem _ hd))]
    simp only [PostOrder, key, List.flatMap_append, List.flatMap_cons, List.flatMap_nil,
      List.append_nil]

theorem LevelOrderLoop_flatMap {β : Type} (f : Node → List β) (q : List Node) :
    LevelOrderLoop f q = (LevelOrderLoop (fun v => [v]) q).flatMap f := by
  induction q using LevelOrderLoop.induct f with
  | case1 => rw [LevelOrderLoop_nil, LevelOrderLoop_nil]; rfl
  | case2 n rest ih =>
    rw [LevelOrderLoop_cons, LevelOrderLoop_cons, ih, List.singleton_append, List.flatMap_cons]

theorem PreOrder_length (n : Node) : (PreOrder (fun v => [v]) n).length = n.size := by
  induction n using Node.induct with
  | step cs i t h ih =>
    have key : (PreOrderChildren (fun v => [v]) cs).length = sizeChildren cs := by
      induction cs with
      | nil => rfl
      | cons c cs ihl =>
        rw [PreOrderChildren_cons, List.length_append, ih c (List.mem_cons_self _ _),
          ihl (fun d hd => ih d (List.mem_cons_of_mem _ hd))]
        rfl
    simp only [PreOrder, List.singleton_append, List.length_cons, key, size]
    omega

theorem filterMap_id_map_some {α : Type} (l : List α) : (l.map some).filterMap id = l := by
  induction l with
  | nil => rfl
  | cons a l ih => simp [ih]

/-- C9: `PreOrder`, `PostOrder` and `LevelOrder` each apply the visitor to every node of
the topology exactly once. There are three enumerations of the positions of the topology,
each without repetition and each holding exactly the positions at which the topology has a
node, such that the three visit sequences are the nodes at these positions, in order; the
sequences have as many entries as the topology has nodes and are permutations of one
another; the preorder enumeration starts at the root and holds every position before the
positions below it, the postorder enumeration ends at the root and holds every position
after the positions below it; and an arbitrary visitor is applied along the visit
sequence. -/
theorem traversals_visit_once (t : Node) :
    ∃ pre post level : List (List Nat),
      (PreOrder (fun v => [v]) t).map some = pre.map (nodeAt t) ∧
      (PostOrder (fun v => [v]) t).map some = post.map (nodeAt t) ∧
      (LevelOrder (fun v => [v]) t).map some = level.map (nodeAt t) ∧
      (pre.Nodup ∧ ∀ p, p ∈ pre ↔ (nodeAt t p).isSome = true) ∧
      (post.Nodup ∧ ∀ p, p ∈ post ↔ (nodeAt t p).isSome = true) ∧
      (level.Nodup ∧ ∀ p, p ∈ level ↔ (nodeAt t p).isSome = true) ∧
      (PreOrder (fun v => [v]) t).length = t.size ∧
      (PostOrder (fun v => [v]) t).length = t.size ∧
      (LevelOrder (fun v => [v]) t).length = t.size ∧
      (PostOrder (fun v => [v]) t).Perm (PreOrder (fun v => [v]) t) ∧
      (LevelOrder (fun v => [v]) t).Perm (PreOrder (fun v => [v]) t) ∧
      (∀ p q, q ≠ [] → (nodeAt t (p ++ q)).isSome = true →
        [p, p ++ q].Sublist pre ∧ [p ++ q, p].Sublist post) ∧
      pre.head? = some [] ∧ post.getLast? = some [] ∧
      (∀ (β : Type) (f : Node → List β),
        PreOrder f t = (PreOrder (fun v => [v]) t).flatMap f ∧
        PostOrder f t = (PostOrder (fun v => [v]) t).flatMap f ∧
        LevelOrder f t = (LevelOrder (fun v => [v]) t).flatMap f) := by
  have hlevel_map := map_nodeAt_levelPathsLoop t [([], t)]
    (fun e he => by rw [List.mem_singleton.mp he]; exact nodeAt_nil t)
  have hlevel_mem : ∀ p, p ∈ levelPathsLoop [([], t)] ↔ (nodeAt t p).isSome = true := by
    intro p
    rw [mem_levelPathsLoop]
    constructor
    · rintro ⟨e, he, s, e1, hs⟩
      rw [List.mem_singleton.mp he] at e1 hs
      rw [e1]
      exact hs
    · intro hs
      exact ⟨([], t), List.mem_singleton.mpr rfl, p, rfl, hs⟩
  have hlevel_nodup : (levelPathsLoop [([], t)]).Nodup :=
    levelPathsLoop_nodup _ (List.pairwise_singleton _ _)
  have hpost_nodup : (postPaths t).Nodup := (postPaths_perm t).nodup_iff.mpr (prePaths_nodup t)
  have hpost_mem : ∀ p, p ∈ postPaths t ↔ (nodeAt t p).isSome = true :=
    fun p => ((postPaths_perm t).mem_iff).trans (mem_prePaths t p)
  have hperm_paths : (levelPathsLoop [([], t)]).Perm (prePaths t) :=
    (List.perm_ext_iff_of_nodup hlevel_nodup (prePaths_nodup t)).mpr
      (fun p => (hlevel_mem p).trans (mem_prePaths t p).symm)
  have hlevel_perm : (LevelOrder (fun v => [v]) t).Perm (PreOrder (fun v => [v]) t) := by
    have h1 := (hperm_paths.map (nodeAt t)).filterMap id
    rw [hlevel_map, map_nodeAt_prePaths, filterMap_id_map_some, filterMap_id_map_some] at h1
    exact h1
  refine ⟨prePaths t, postPaths t, levelPathsLoop [([], t)], (map_nodeAt_prePaths t).symm,
    (map_nodeAt_postPaths t).symm, hlevel_map.symm, ⟨prePaths_nodup t, mem_prePaths t⟩,
    ⟨hpost_nodup, hpost_mem⟩, ⟨hlevel_nodup, hlevel_mem⟩, PreOrder_length t, ?_, ?_,
    PostOrder_perm_PreOrder t, hlevel_perm, ?_, ?_, ?_, ?_⟩
  · rw [(PostOrder_perm_PreOrder t).length_eq, PreOrder_length]
  · rw [hlevel_perm.length_eq, PreOrder_length]
  · intro p q hq hs
    exact ⟨prePaths_order t p q hq ((mem_prePaths t _).mpr hs),
      postPaths_order t p q hq ((hpost_mem _).mpr hs)⟩
  · cases t with
    | mk cs i tg h => rfl
  · cases t with
    | mk cs i tg h =>
      rw [postPaths_mk]
      simp
  · intro β f
    exact ⟨PreOrder_flatMap f t, PostOrder_flatMap f t, LevelOrderLoop_flatMap f [t]⟩

/-! ## The calls of `TriplePreOrderInternal` -/

theorem TriplePreOrderInternal_leaf {β : Type} (f : Node → Node → Node → Option (List β))
    (i t h : Nat) : TriplePreOrderInternal f (mk [] i t h) = some [] := by
  rw [TriplePreOrderInternal]

theorem TriplePreOrderInternal_two {β : Type} (f : Node → Node → Node → Option (List β))
    (c0 c1 : Node) (i t h : Nat) (r0 r1 r2 r3 : List β)
    (h0 : f (mk [c0, c1] i t h) c1 c0 = some r0)
    (h1 : TriplePreOrderInternal f c0 = some r1)
    (h2 : f (mk [c0, c1] i t h) c0 c1 = some r2)
    (h3 : TriplePreOrderInternal f c1 = some r3) :
    TriplePreOrderInternal f (mk [c0, c1] i t h) = some (r0 ++ r1 ++ r2 ++ r3) := by
  rw [TriplePreOrderInternal, h0, h1, h2, h3]

/-- On a binary subtree the traversal with the logging visitor does not abort. -/
theorem triples_some (n : Node) (hb : Binary n) :
    TriplePreOrderInternal (fun p s v => some [(p, s, v)]) n = some (triples n) := by
  induction hb with
  | leaf i t h => rw [triples, TriplePreOrderInternal_leaf]; rfl
  | internal c0 c1 i t h _ _ ih0 ih1 =>
    rw [triples, TriplePreOrderInternal_two _ c0 c1 i t h _ _ _ _ rfl ih0 rfl ih1]
    rfl

theorem triples_leaf (i t h : Nat) : triples (mk [] i t h) = [] := by
  rw [triples, TriplePreOrderInternal_leaf]; rfl

theorem triples_two (c0 c1 : Node) (i t h : Nat) (h0 : Binary c0) (h1 : Binary c1) :
    triples (mk [c0, c1] i t h)
      = (mk [c0, c1] i t h, c1, c0) :: triples c0 ++ (mk [c0, c1] i t h, c0, c1) :: triples c1 := by
  rw [triples, TriplePreOrderInternal_two _ c0 c1 i t h _ _ _ _ rfl (triples_some c0 h0) rfl
    (triples_some c1 h1)]
  simp

/-- With an arbitrary visitor that succeeds on every call, the traversal returns the
outputs of the visitor along the calls. -/
theorem TriplePreOrderInternal_flatMap {β : Type} (f : Node → Node → Node → Option (List β))
    (g : Node × Node × Node → List β) (n : Node) (hb : Binary n)
    (hf : ∀ c ∈ triples n, f c.1 c.2.1 c.2.2 = some (g c)) :
    TriplePreOrderInternal f n = some ((triples n).flatMap g) := by
  induction hb with
  | leaf i t h => rw [TriplePreOrderInternal_leaf, triples_leaf]; rfl
  | internal c0 c1 i t h h0 h1 ih0 ih1 =>
    rw [triples_two c0 c1 i t h h0 h1] at hf ⊢
    have e0 := hf (mk [c0, c1] i t h, c1, c0) (by simp)
    have e2 := hf (mk [c0, c1] i t h, c0, c1) (by simp)
    have e1 := ih0 (fun c hc => hf c (by simp [hc]))
    have e3 := ih1 (fun c hc => hf c (by simp [hc]))
    rw [TriplePreOrderInternal_two f c0 c1 i t h _ _ _ _ e0 e1 e2 e3]
    simp [List.flatMap_append, List.flatMap_cons]

/-! ## The positions of the calls -/

theorem prePaths_eq_cons_tail (n : Node) : prePaths n = [] :: (prePaths n).tail := by
  cases n with
  | mk cs i t h => rfl

theorem mem_tail_prePaths (n : Node) (r : List Nat) :
    r ∈ (prePaths n).tail ↔ r ≠ [] ∧ (nodeAt n r).isSome = true := by
  have hn := prePaths_nodup n
  rw [prePaths_eq_cons_tail, List.nodup_cons] at hn
  rw [← mem_prePaths]
  constructor
  · intro hr
    refine ⟨fun e => hn.1 (e ▸ hr), ?_⟩
    rw [prePaths_eq_cons_tail]
    exact List.mem_cons_of_mem _ hr
  · rintro ⟨hne, hr⟩
    rw [prePaths_eq_cons_tail] at hr
    rcases List.mem_cons.mp hr with e | h
    · exact absurd e hne
    · exact h

theorem dropLast_cons_of_ne_nil (k : Nat) (r : List Nat) (hr : r ≠ []) :
    (k :: r).dropLast = k :: r.dropLast := by
  cases r with
  | nil => exact absurd rfl hr
  | cons a r => rfl

theorem sisterPath_cons_of_ne_nil (k : Nat) (r : List Nat) (hr : r ≠ []) :
    sisterPath (k :: r) = k :: sisterPath r := by
  cases r with
  | nil => exact absurd rfl hr
  | cons a r =>
    simp only [sisterPath, List.getLast?_cons_cons]
    cases hl : (a :: r).getLast? with
    | none => exact absurd (List.getLast?_eq_none_iff.mp hl) (List.cons_ne_nil _ _)
    | some l => rfl

/-- The parent, the sister and the node at a position. -/
theorem tripleAt_cons (c0 c1 : Node) (i t h : Nat) (k : Nat) (c : Node)
    (hk : [c0, c1][k]? = some c) (r : List Nat) (hr : r ≠ []) :
    (nodeAt (mk [c0, c1] i t h) (k :: r).dropLast, nodeAt (mk [c0, c1] i t h) (sisterPath (k :: r)),
      nodeAt (mk [c0, c1] i t h) (k :: r))
      = (nodeAt c r.dropLast, nodeAt c (sisterPath r), nodeAt c r) := by
  rw [dropLast_cons_of_ne_nil k r hr, sisterPath_cons_of_ne_nil k r hr, nodeAt_cons, nodeAt_cons,
    nodeAt_cons, Children_mk, hk]
  rfl

/-- The calls of `TriplePreOrderInternal` on a binary subtree are the triples of parent,
sister and node at the positions below the root, in preorder. -/
theorem map_triples (n : Node) (hb : Binary n) :
    (triples n).map (fun c => (some c.1, some c.2.1, some c.2.2))
      = (prePaths n).tail.map
        (fun r => (nodeAt n r.dropLast, nodeAt n (sisterPath r), nodeAt n r)) := by
  induction hb with
  | leaf i t h => rw [triples_leaf]; rfl
  | internal c0 c1 i t h h0 h1 ih0 ih1 =>
    rw [triples_two c0 c1 i t h h0 h1]
    have hp : (prePaths (mk [c0, c1] i t h)).tail
        = ([] :: (prePaths c0).tail).map (List.cons 0)
          ++ ([] :: (prePaths c1).tail).map (List.cons 1) := by
      rw [← prePaths_eq_cons_tail, ← prePaths_eq_cons_tail]
      simp [prePaths_mk, prePathsChildren_cons, prePathsChildren_nil]
    rw [hp]
    simp only [List.map_append, List.map_cons, List.map_map]
    have hblock : ∀ (k : Nat) (c : Node), [c0, c1][k]? = some c →
        (prePaths c).tail.map ((fun r => (nodeAt (mk [c0, c1] i t h) r.dropLast,
          nodeAt (mk [c0, c1] i t h) (sisterPath r), nodeAt (mk [c0, c1] i t h) r)) ∘ List.cons k)
        = (prePaths c).tail.map (fun r => (nodeAt c r.dropLast, nodeAt c (sisterPath r),
          nodeAt c r)) := by
      intro k c hk
      apply List.map_congr_left
      intro r hr
      exact tripleAt_cons c0 c1 i t h k c hk r ((mem_tail_prePaths c r).mp hr).1
    rw [hblock 0 c0 rfl, hblock 1 c1 rfl, ← ih0, ← ih1]
    simp [sisterPath, nodeAt_nil, nodeAt_cons, Children_mk]

/-- C5: `TriplePreOrderInternal` enumerates every edge below its receiver exactly once as
a (parent, sister, node) triple. On a subtree whose internal nodes have two children the
traversal returns; its calls are, in order, the triples of the node at the parent
position, the node at the position of the other child of the parent, and the node itself,
taken at an enumeration without repetition of exactly the positions below the root; a
position comes before the positions below it; the number of calls is the node count minus
one; and a leaf receiver makes no call. -/
theorem TriplePreOrderInternal_spec (n : Node) (hb : Binary n) :
    ∃ (calls : List (Node × Node × Node)) (paths : List (List Nat)),
      TriplePreOrderInternal (fun p s v => some [(p, s, v)]) n = some calls ∧
      calls.map (fun c => (some c.1, some c.2.1, some c.2.2))
        = paths.map (fun r => (nodeAt n r.dropLast, nodeAt n (sisterPath r), nodeAt n r)) ∧
      paths.Nodup ∧
      (∀ r, r ∈ paths ↔ r ≠ [] ∧ (nodeAt n r).isSome = true) ∧
      (∀ r q, r ≠ [] → q ≠ [] → (nodeAt n (r ++ q)).isSome = true →
        [r, r ++ q].Sublist paths) ∧
      calls.length = n.size - 1 ∧
      (n.IsLeaf = true → calls = []) := by
  refine ⟨triples n, (prePaths n).tail, triples_some n hb, map_triples n hb, ?_,
    mem_tail_prePaths n, ?_, ?_, ?_⟩
  · exact (prePaths_nodup n).sublist (List.tail_sublist _)
  · intro r q hr hq hs
    have h1 := prePaths_order n r q hq ((mem_prePaths n _).mpr hs)
    rw [prePaths_eq_cons_tail] at h1
    cases h1 with
    | cons _ h2 => exact h2
    | cons₂ _ h2 => exact absurd rfl hr
  · have h1 := congrArg List.length (map_triples n hb)
    have h2 := congrArg List.length (map_nodeAt_prePaths n)
    simp only [List.length_map, List.length_tail] at h1 h2
    rw [h1, h2, PreOrder_length]
  · intro hl
    cases n with
    | mk cs i t h =>
      have hnil : cs = [] := List.isEmpty_iff.mp hl
      subst hnil
      exact triples_leaf i t h

/-- C5, at the cherry `(0,1)`. -/
theorem TriplePreOrderInternal_spec_witness :
    ∃ (calls : List (Node × Node × Node)) (paths : List (List Nat)),
      TriplePreOrderInternal (fun p s v => some [(p, s, v)]) exampleCherry = some calls ∧
      calls.map (fun c => (some c.1, some c.2.1, some c.2.2))
        = paths.map (fun r => (nodeAt exampleCherry r.dropLast,
          nodeAt exampleCherry (sisterPath r), nodeAt exampleCherry r)) ∧
      paths.Nodup ∧
      (∀ r, r ∈ paths ↔ r ≠ [] ∧ (nodeAt exampleCherry r).isSome = true) ∧
      (∀ r q, r ≠ [] → q ≠ [] → (nodeAt exampleCherry (r ++ q)).isSome = true →
        [r, r ++ q].Sublist paths) ∧
      calls.length = exampleCherry.size - 1 ∧
      (exampleCherry.IsLeaf = true → calls = []) :=
  TriplePreOrderInternal_spec exampleCherry
    (Binary.internal _ _ _ _ _ (Binary.leaf _ _ _) (Binary.leaf _ _ _))

/-! ## The two lambdas of `PCSSPreOrder` -/

theorem Binary.cases_children {v : Node} (hb : Binary v) :
    (v.IsLeaf = true ∧ v.Children = []) ∨
      (v.IsLeaf = false ∧ ∃ a b, v.Children = [a, b] ∧ Binary a ∧ Binary b) := by
  cases hb with
  | leaf i t h => exact Or.inl ⟨rfl, rfl⟩
  | internal c0 c1 i t h h0 h1 => exact Or.inr ⟨rfl, c0, c1, rfl, h0, h1⟩

/-- On a node that is a leaf or has two children the first lambda emits 1 record for a
leaf and 6 for an internal node, each with the node as `s1`. -/
theorem pcssRoot_spec (a b v : Node) (hb : Binary v) :
    pcssRoot a b v = some (rootRecords (a, b, v)) ∧
      (rootRecords (a, b, v)).length = recordCount v ∧
      ∀ r ∈ rootRecords (a, b, v), r.s1 = v := by
  rcases hb.cases_children with ⟨hl, _⟩ | ⟨hl, x, y, hxy, _, _⟩
  · simp [rootRecords, pcssRoot, hl, recordCount]
  · simp [rootRecords, pcssRoot, hl, hxy, recordCount]

/-- On a node that is a leaf or has two children the second lambda emits 1 record for a
leaf and 6 for an internal node, each with the node as `s1`. -/
theorem pcssInternal_spec (p s v : Node) (hb : Binary v) :
    pcssInternal p s v = some (internalRecords (p, s, v)) ∧
      (internalRecords (p, s, v)).length = recordCount v ∧
      ∀ r ∈ internalRecords (p, s, v), r.s1 = v := by
  rcases hb.cases_children with ⟨hl, _⟩ | ⟨hl, x, y, hxy, _, _⟩
  · simp [internalRecords, pcssInternal, hl, recordCount]
  · simp [internalRecords, pcssInternal, hl, hxy, recordCount]

/-! ## The calls on a binary subtree -/

/-- The nodes in the calls of `TriplePreOrderInternal` on a binary subtree: the third
component is binary, the first is a node of the subtree whose two children are the other
two components. -/
theorem triples_inv (n : Node) (hb : Binary n) :
    ∀ c ∈ triples n, Binary c.2.2 ∧ Binary c.2.1 ∧
      (c.1.Children = [c.2.2, c.2.1] ∨ c.1.Children = [c.2.1, c.2.2]) ∧
      (PreOrder (fun v => [v]) c.1).Sublist (PreOrder (fun v => [v]) n) := by
  induction hb with
  | leaf i t h => intro c hc; rw [triples_leaf] at hc; cases hc
  | internal c0 c1 i t h h0 h1 ih0 ih1 =>
    intro c hc
    rw [triples_two c0 c1 i t h h0 h1] at hc
    have hsub0 : (PreOrder (fun v => [v]) c0).Sublist (PreOrder (fun v => [v]) (mk [c0, c1] i t h)) := by
      simp only [PreOrder, PreOrderChildren, List.singleton_append, List.append_nil]
      exact (List.sublist_append_left _ _).trans (List.sublist_cons_self _ _)
    have hsub1 : (PreOrder (fun v => [v]) c1).Sublist (PreOrder (fun v => [v]) (mk [c0, c1] i t h)) := by
      simp only [PreOrder, PreOrderChildren, List.singleton_append, List.append_nil]
      exact (List.sublist_append_right _ _).trans (List.sublist_cons_self _ _)
    rcases List.mem_cons.mp hc with e | hc1
    · rw [e]
      exact ⟨h0, h1, Or.inl rfl, List.Sublist.refl _⟩
    · rcases List.mem_append.mp hc1 with hc2 | hc2
      · obtain ⟨k1, k2, k3, k4⟩ := ih0 c hc2
        exact ⟨k1, k2, k3, k4.trans hsub0⟩
      · rcases List.mem_cons.mp hc2 with e | hc3
        · rw [e]
          exact ⟨h1, h0, Or.inr rfl, List.Sublist.refl _⟩
        · obtain ⟨k1, k2, k3, k4⟩ := ih1 c hc3
          exact ⟨k1, k2, k3, k4.trans hsub1⟩

/-- The nodes in the third component of the calls are the nodes below the root, in
preorder. -/
theorem triples_nodes (n : Node) (hb : Binary n) :
    (triples n).map (fun c => c.2.2) = (PreOrder (fun v => [v]) n).tail := by
  induction hb with
  | leaf i t h => rw [triples_leaf]; rfl
  | internal c0 c1 i t h h0 h1 ih0 ih1 =>
    rw [triples_two c0 c1 i t h h0 h1]
    have e : ∀ c : Node, PreOrder (fun v => [v]) c = c :: (PreOrder (fun v => [v]) c).tail := by
      intro c
      cases c with
      | mk cs i t h => rfl
    have hP : PreOrder (fun v => [v]) (mk [c0, c1] i t h)
        = mk [c0, c1] i t h :: (PreOrder (fun v => [v]) c0 ++ PreOrder (fun v => [v]) c1) := by
      simp [PreOrder, PreOrderChildren]
    rw [hP, List.tail_cons]
    conv_rhs => rw [e c0, e c1]
    simp only [List.map_append, List.map_cons, ih0, ih1, List.cons_append]

/-- The traversal with the second lambda on a binary subtree. -/
theorem TriplePreOrderInternal_pcss (n : Node) (hb : Binary n) :
    TriplePreOrderInternal pcssInternal n = some ((triples n).flatMap internalRecords) := by
  apply TriplePreOrderInternal_flatMap pcssInternal internalRecords n hb
  intro c hc
  exact (pcssInternal_spec c.1 c.2.1 c.2.2 (triples_inv n hb c hc).1).1

theorem binary_leaves (n : Node) (hb : Binary n) : n.numLeaves = n.numInternal + 1 := by
  induction hb with
  | leaf i t h => simp [numLeaves, leafIds, numInternal, numInternalChildren]
  | internal c0 c1 i t h h0 h1 ih0 ih1 =>
    simp only [numLeaves, leafIds, List.isEmpty_cons, Bool.false_eq_true, if_false,
      leafIdsChildren, List.append_nil, List.length_append, numInternal, numInternalChildren,
      Nat.add_zero] at ih0 ih1 ⊢
    omega

/-- The number of records below a binary subtree. -/
theorem internalRecords_length (n : Node) (hb : Binary n) :
    ((triples n).flatMap internalRecords).length + recordCount n
      = n.numLeaves + 6 * n.numInternal := by
  induction hb with
  | leaf i t h =>
    rw [triples_leaf]
    simp [recordCount, IsLeaf, Children, numLeaves, leafIds, numInternal, numInternalChildren]
  | internal c0 c1 i t h h0 h1 ih0 ih1 =>
    rw [triples_two c0 c1 i t h h0 h1]
    have e0 := (pcssInternal_spec (mk [c0, c1] i t h) c1 c0 h0).2.1
    have e1 := (pcssInternal_spec (mk [c0, c1] i t h) c0 c1 h1).2.1
    simp only [List.flatMap_append, List.flatMap_cons, List.length_append, e0, e1]
    simp only [recordCount, IsLeaf, Children, List.isEmpty_cons, Bool.false_eq_true, if_false,
      numLeaves, leafIds, leafIdsChildren, List.append_nil, List.length_append, numInternal,
      numInternalChildren, Nat.add_zero] at ih0 ih1 ⊢
    omega

/-- The records of `PCSSPreOrder` on a topology with three binary subtrees at the root. -/
theorem PCSSPreOrder_eq (t c0 c1 c2 : Node) (hch : t.Children = [c0, c1, c2])
    (h0 : Binary c0) (h1 : Binary c1) (h2 : Binary c2) :
    PCSSPreOrder t = some (rootRecords (c0, c1, c2) ++ rootRecords (c1, c2, c0)
      ++ rootRecords (c2, c0, c1)
      ++ (triples c0 ++ triples c1 ++ triples c2).flatMap internalRecords) := by
  simp only [PCSSPreOrder, TriplePreOrder, hch, (pcssRoot_spec c0 c1 c2 h2).1,
    (pcssRoot_spec c1 c2 c0 h0).1, (pcssRoot_spec c2 c0 c1 h1).1, TriplePreOrderChildren,
    TriplePreOrderInternal_pcss c0 h0, TriplePreOrderInternal_pcss c1 h1,
    TriplePreOrderInternal_pcss c2 h2, List.flatMap_append, List.append_nil, List.append_assoc]

/-- C3: `PCSSPreOrder` emits `L + 6 * I` records, where `L` is the number of leaves and `I`
the number of internal nodes other than the root, on every topology whose root has three
children and whose other internal nodes have two; this number is `7 * L - 18`. The records
are those of the three root rotations followed by those of the (parent, sister, node)
triples, and each rotation and each triple contributes 1 record when its node is a leaf and
6 when it is internal. -/
theorem PCSSPreOrder_count (t c0 c1 c2 : Node) (hch : t.Children = [c0, c1, c2])
    (h0 : Binary c0) (h1 : Binary c1) (h2 : Binary c2) :
    ∃ records r0 r1 r2, PCSSPreOrder t = some records ∧
      records.length = t.numLeaves + 6 * (t.numInternal - 1) ∧
      records.length = 7 * t.numLeaves - 18 ∧
      pcssRoot c0 c1 c2 = some r0 ∧ pcssRoot c1 c2 c0 = some r1 ∧ pcssRoot c2 c0 c1 = some r2 ∧
      r0.length = (if c2.IsLeaf then 1 else 6) ∧ r1.length = (if c0.IsLeaf then 1 else 6) ∧
      r2.length = (if c1.IsLeaf then 1 else 6) ∧
      records = r0 ++ r1 ++ r2
        ++ (triples c0 ++ triples c1 ++ triples c2).flatMap internalRecords ∧
      (∀ c ∈ triples c0 ++ triples c1 ++ triples c2,
        pcssInternal c.1 c.2.1 c.2.2 = some (internalRecords c) ∧
          (internalRecords c).length = (if c.2.2.IsLeaf then 1 else 6)) := by
  obtain ⟨a0, a1, _⟩ := pcssRoot_spec c0 c1 c2 h2
  obtain ⟨b0, b1, _⟩ := pcssRoot_spec c1 c2 c0 h0
  obtain ⟨d0, d1, _⟩ := pcssRoot_spec c2 c0 c1 h1
  have hlen : (rootRecords (c0, c1, c2) ++ rootRecords (c1, c2, c0) ++ rootRecords (c2, c0, c1)
      ++ (triples c0 ++ triples c1 ++ triples c2).flatMap internalRecords).length
      = t.numLeaves + 6 * (t.numInternal - 1) := by
    have k0 := internalRecords_length c0 h0
    have k1 := internalRecords_length c1 h1
    have k2 := internalRecords_length c2 h2
    cases t with
    | mk cs i tg h =>
      simp only [Children_mk] at hch
      subst hch
      simp only [List.length_append, List.flatMap_append, a1, b1, d1, numLeaves, leafIds,
        List.isEmpty_cons, Bool.false_eq_true, if_false, leafIdsChildren, List.append_nil,
        numInternal, numInternalChildren, Nat.add_zero] at k0 k1 k2 ⊢
      omega
  have hL : t.numLeaves = (t.numInternal - 1) + 3 := by
    have k0 := binary_leaves c0 h0
    have k1 := binary_leaves c1 h1
    have k2 := binary_leaves c2 h2
    cases t with
    | mk cs i tg h =>
      simp only [Children_mk] at hch
      subst hch
      simp only [numLeaves, leafIds, List.isEmpty_cons, Bool.false_eq_true, if_false,
        leafIdsChildren, List.append_nil, List.length_append, numInternal, numInternalChildren,
        Nat.add_zero] at k0 k1 k2 ⊢
      omega
  refine ⟨_, _, _, _, PCSSPreOrder_eq t c0 c1 c2 hch h0 h1 h2, hlen, ?_, a0, b0, d0, a1, b1, d1,
    rfl, ?_⟩
  · rw [hlen]
    omega
  · intro c hc
    have hbin : Binary c.2.2 := by
      simp only [List.mem_append] at hc
      rcases hc with (hc | hc) | hc
      · exact (triples_inv c0 h0 c hc).1
      · exact (triples_inv c1 h1 c hc).1
      · exact (triples_inv c2 h2 c hc).1
    exact ⟨(pcssInternal_spec c.1 c.2.1 c.2.2 hbin).1, (pcssInternal_spec c.1 c.2.1 c.2.2 hbin).2.1⟩

/-- C3, at the example topology `(0,1,(2,3))`, which emits 10 records. -/
theorem PCSSPreOrder_count_witness :
    (PCSSPreOrder exampleTopology0).map List.length = some 10 ∧
    ∃ records r0 r1 r2, PCSSPreOrder exampleTopology0 = some records ∧
      records.length = exampleTopology0.numLeaves + 6 * (exampleTopology0.numInternal - 1) ∧
      records.length = 7 * exampleTopology0.numLeaves - 18 ∧
      pcssRoot (Leaf 0) (Leaf 1) (mk [Leaf 2, Leaf 3] 4 12884901890 6209831354) = some r0 ∧
      pcssRoot (Leaf 1) (mk [Leaf 2, Leaf 3] 4 12884901890 6209831354) (Leaf 0) = some r1 ∧
      pcssRoot (mk [Leaf 2, Leaf 3] 4 12884901890 6209831354) (Leaf 0) (Leaf 1) = some r2 ∧
      r0.length = (if (mk [Leaf 2, Leaf 3] 4 12884901890 6209831354).IsLeaf then 1 else 6) ∧
      r1.length = (if (Leaf 0).IsLeaf then 1 else 6) ∧
      r2.length = (if (Leaf 1).IsLeaf then 1 else 6) ∧
      records = r0 ++ r1 ++ r2
        ++ (triples (Leaf 0) ++ triples (Leaf 1)
          ++ triples (mk [Leaf 2, Leaf 3] 4 12884901890 6209831354)).flatMap internalRecords ∧
      (∀ c ∈ triples (Leaf 0) ++ triples (Leaf 1)
          ++ triples (mk [Leaf 2, Leaf 3] 4 12884901890 6209831354),
        pcssInternal c.1 c.2.1 c.2.2 = some (internalRecords c) ∧
          (internalRecords c).length = (if c.2.2.IsLeaf then 1 else 6)) :=
  ⟨by decide, PCSSPreOrder_count exampleTopology0 (Leaf 0) (Leaf 1)
    (mk [Leaf 2, Leaf 3] 4 12884901890 6209831354) rfl (Binary.leaf _ _ _) (Binary.leaf _ _ _)
    (Binary.internal _ _ _ _ _ (Binary.leaf _ _ _) (Binary.leaf _ _ _))⟩

/-! ## Distinct leaves give distinct nodes -/

theorem size_le_of_mem (n : Node) : ∀ v ∈ PreOrder (fun v => [v]) n, v.size ≤ n.size := by
  induction n using Node.induct with
  | step cs i t h ih =>
    intro v hv
    rcases (mem_PreOrder _ _ _ _ _).mp hv with e | ⟨c, hc, hvc⟩
    · rw [e]
    · have h1 := ih c hc v hvc
      have h2 : c.size ≤ sizeChildren cs := by
        rw [sizeChildren_eq]
        exact List.single_le_sum (fun _ _ => Nat.zero_le _) _ (List.mem_map_of_mem _ hc)
      simp only [size]
      omega

theorem leafIds_subset_of_mem (n : Node) :
    ∀ v ∈ PreOrder (fun v => [v]) n, leafIds v ⊆ leafIds n := by
  induction n using Node.induct with
  | step cs i t h ih =>
    intro v hv
    rcases (mem_PreOrder _ _ _ _ _).mp hv with e | ⟨c, hc, hvc⟩
    · rw [e]
      exact List.Subset.refl _
    · intro x hx
      have he : cs.isEmpty = false := by
        cases cs with
        | nil => cases hc
        | cons _ _ => rfl
      simp only [leafIds, he, Bool.false_eq_true, if_false]
      exact (mem_leafIdsChildren x cs).mpr ⟨c, hc, ih c hc v hvc hx⟩

theorem PreOrderChildren_nodup (cs : List Node)
    (ih : ∀ c ∈ cs, (leafIds c).Nodup → (PreOrder (fun v => [v]) c).Nodup)
    (hd : (leafIdsChildren cs).Nodup) : (PreOrderChildren (fun v => [v]) cs).Nodup := by
  induction cs with
  | nil => exact List.nodup_nil
  | cons c cs ihl =>
    simp only [leafIdsChildren, List.nodup_append] at hd
    obtain ⟨hd1, hd2, hdis⟩ := hd
    rw [PreOrderChildren_cons, List.nodup_append]
    refine ⟨ih c (List.mem_cons_self _ _) hd1,
      ihl (fun d hd => ih d (List.mem_cons_of_mem _ hd)) hd2, ?_⟩
    intro v hv1 hv2
    obtain ⟨d, hdm, hvd⟩ := (mem_PreOrderChildren v cs).mp hv2
    obtain ⟨x, hx⟩ := List.exists_mem_of_ne_nil _ (leafIds_ne_nil v)
    exact hdis (leafIds_subset_of_mem c v hv1 hx)
      ((mem_leafIdsChildren x cs).mpr ⟨d, hdm, leafIds_subset_of_mem d v hvd hx⟩)

/-- In a topology whose leaves carry pairwise distinct taxon ids the nodes at different
positions are different. -/
theorem PreOrder_nodup (n : Node) : (leafIds n).Nodup → (PreOrder (fun v => [v]) n).Nodup := by
  induction n using Node.induct with
  | step cs i t h ih =>
    intro hd
    simp only [PreOrder, List.singleton_append, List.nodup_cons]
    constructor
    · intro hm
      obtain ⟨c, hc, hvc⟩ := (mem_PreOrderChildren _ cs).mp hm
      have h1 := size_le_of_mem c _ hvc
      have h2 : c.size ≤ sizeChildren cs := by
        rw [sizeChildren_eq]
        exact List.single_le_sum (fun _ _ => Nat.zero_le _) _ (List.mem_map_of_mem _ hc)
      simp only [size] at h1
      omega
    · cases cs with
      | nil => exact List.nodup_nil
      | cons c cs =>
        simp only [leafIds, List.isEmpty_cons, Bool.false_eq_true, if_false] at hd
        exact PreOrderChildren_nodup (c :: cs) ih hd

/-! ## The records of one call are pairwise different -/

theorem distinct5 {a b v x y : Node} (h : [a, b, v, x, y].Nodup) :
    a ≠ b ∧ a ≠ v ∧ a ≠ x ∧ a ≠ y ∧ b ≠ v ∧ b ≠ x ∧ b ≠ y ∧ v ≠ x ∧ v ≠ y ∧ x ≠ y := by
  simp only [List.nodup_cons, List.mem_cons, List.mem_singleton, List.not_mem_nil, not_or,
    or_false, List.nodup_nil, and_true, not_false_eq_true] at h
  obtain ⟨⟨h1, h2, h3, h4⟩, ⟨h5, h6, h7⟩, ⟨h8, h9⟩, h10⟩ := h
  exact ⟨h1, h2, h3, h4, h5, h6, h7, h8, h9, h10⟩

theorem rootRecords_nodup (a b v : Node)
    (h : v.Children = [] ∨ ∃ x y, v.Children = [x, y] ∧ [a, b, v, x, y].Nodup) :
    ((rootRecords (a, b, v)).map quadruple).Nodup := by
  rcases h with hl | ⟨x, y, hxy, hd⟩
  · have : v.IsLeaf = true := by simp [IsLeaf, hl]
    simp [rootRecords, pcssRoot, this]
  · have hl : v.IsLeaf = false := by simp [IsLeaf, hxy]
    obtain ⟨h1, h2, h3, h4, h5, h6, h7, h8, h9, h10⟩ := distinct5 hd
    simp [rootRecords, pcssRoot, hl, hxy, quadruple, h1, h2, h3, h4, h5, h6, h7, h8, h9, h10,
      Ne.symm h1, Ne.symm h2, Ne.symm h3, Ne.symm h4, Ne.symm h5, Ne.symm h6, Ne.symm h7,
      Ne.symm h8, Ne.symm h9, Ne.symm h10]

theorem internalRecords_nodup (p s v : Node)
    (h : v.Children = [] ∨ ∃ x y, v.Children = [x, y] ∧ [p, s, v, x, y].Nodup) :
    ((internalRecords (p, s, v)).map quadruple).Nodup := by
  rcases h with hl | ⟨x, y, hxy, hd⟩
  · have : v.IsLeaf = true := by simp [IsLeaf, hl]
    simp [internalRecords, pcssInternal, this]
  · have hl : v.IsLeaf = false := by simp [IsLeaf, hxy]
    obtain ⟨h1, h2, h3, h4, h5, h6, h7, h8, h9, h10⟩ := distinct5 hd
    simp [internalRecords, pcssInternal, hl, hxy, quadruple, h1, h2, h3, h4, h5, h6, h7, h8, h9,
      h10, Ne.symm h1, Ne.symm h2, Ne.symm h3, Ne.symm h4, Ne.symm h5, Ne.symm h6, Ne.symm h7,
      Ne.symm h8, Ne.symm h9, Ne.symm h10]

/-! ## Records of different calls are different -/

/-- The quadruples of the records of a list of calls are pairwise different when the
records of every call carry the node of the call as `s1`, the records of one call are
pairwise different, and no node belongs to two calls. -/
theorem groups_nodup (cx : List (Node × Node × Node)) (G : Node × Node × Node → List PCSSRecord)
    (hs1 : ∀ c ∈ cx, ∀ r ∈ G c, r.s1 = c.2.2)
    (hgroup : ∀ c ∈ cx, ((G c).map quadruple).Nodup)
    (hnodes : (cx.map (fun c => c.2.2)).Nodup) :
    ((cx.flatMap G).map quadruple).Nodup := by
  rw [List.map_flatMap, List.nodup_flatMap]
  refine ⟨hgroup, ?_⟩
  have hp : cx.Pairwise (fun a b => a.2.2 ≠ b.2.2) := List.pairwise_map.mp hnodes
  refine hp.imp_of_mem ?_
  intro a b ha hb hab q hqa hqb
  obtain ⟨r, hr, e⟩ := List.mem_map.mp hqa
  obtain ⟨r', hr', e'⟩ := List.mem_map.mp hqb
  have h1 := hs1 a ha r hr
  have h2 := hs1 b hb r' hr'
  have h3 : r.s1 = r'.s1 := by
    have := congrArg (fun q : Node × Node × Node × Node => q.2.1) (e.trans e'.symm)
    exact this
  exact hab (h1.symm.trans (h3.trans h2))

theorem groups_s1 (cx : List (Node × Node × Node)) (G : Node × Node × Node → List PCSSRecord)
    (hs1 : ∀ c ∈ cx, ∀ r ∈ G c, r.s1 = c.2.2)
    (hlen : ∀ c ∈ cx, (G c).length = recordCount c.2.2) :
    (cx.flatMap G).map PCSSRecord.s1
      = (cx.map (fun c => c.2.2)).flatMap (fun v => List.replicate (recordCount v) v) := by
  induction cx with
  | nil => rfl
  | cons c cx ih =>
    simp only [List.flatMap_cons, List.map_append, List.map_cons]
    rw [ih (fun d hd => hs1 d (List.mem_cons_of_mem _ hd))
      (fun d hd => hlen d (List.mem_cons_of_mem _ hd))]
    congr 1
    rw [List.eq_replicate_iff]
    refine ⟨by rw [List.length_map]; exact hlen c (List.mem_cons_self _ _), ?_⟩
    intro b hb
    obtain ⟨r, hr, e⟩ := List.mem_map.mp hb
    rw [← e]
    exact hs1 c (List.mem_cons_self _ _) r hr

theorem count_flatMap_replicate (l : List Node) (k : Node → Nat) (v : Node) :
    (l.flatMap (fun u => List.replicate (k u) u)).count v = l.count v * k v := by
  induction l with
  | nil => simp
  | cons u l ih =>
    simp only [List.flatMap_cons, List.count_append, ih, List.count_replicate, List.count_cons]
    by_cases h : u = v
    · subst h
      simp [Nat.add_mul, Nat.add_comm]
    · simp [h]

/-! ## The nodes of the calls -/

theorem PreOrder_head (c : Node) : [c].Sublist (PreOrder (fun v => [v]) c) := by
  cases c with
  | mk cs i t h =>
    simp only [PreOrder, List.singleton_append]
    exact List.Sublist.cons₂ _ (List.nil_sublist _)

theorem PreOrder_two (p a b : Node) (h : p.Children = [a, b]) :
    PreOrder (fun v => [v]) p
      = p :: (PreOrder (fun v => [v]) a ++ PreOrder (fun v => [v]) b) := by
  cases p with
  | mk cs i t h0 =>
    simp only [Children_mk] at h
    subst h
    simp [PreOrder, PreOrderChildren]

theorem PreOrder_three (p a b c : Node) (h : p.Children = [a, b, c]) :
    PreOrder (fun v => [v]) p
      = p :: (PreOrder (fun v => [v]) a ++ (PreOrder (fun v => [v]) b
        ++ PreOrder (fun v => [v]) c)) := by
  cases p with
  | mk cs i t h0 =>
    simp only [Children_mk] at h
    subst h
    simp [PreOrder, PreOrderChildren]

theorem PreOrder_sub3 (v x y : Node) (h : v.Children = [x, y]) :
    [v, x, y].Sublist (PreOrder (fun v => [v]) v) := by
  rw [PreOrder_two v x y h]
  exact List.Sublist.cons₂ _ ((PreOrder_head x).append (PreOrder_head y))

/-- The five nodes around an internal call are pairwise different when the nodes of the
parent are. -/
theorem triple_distinct (p s v x y : Node)
    (hp : (PreOrder (fun v => [v]) p).Nodup)
    (hch : p.Children = [v, s] ∨ p.Children = [s, v]) (hv : v.Children = [x, y]) :
    [p, s, v, x, y].Nodup := by
  rcases hch with h | h
  · have h1 : [p, v, x, y, s].Sublist (PreOrder (fun v => [v]) p) := by
      rw [PreOrder_two p v s h]
      exact List.Sublist.cons₂ _ ((PreOrder_sub3 v x y hv).append (PreOrder_head s))
    have h2 := hp.sublist h1
    have hperm : [p, v, x, y, s].Perm [p, s, v, x, y] :=
      List.Perm.cons _ (List.perm_append_comm : ([v, x, y] ++ [s]).Perm ([s] ++ [v, x, y]))
    exact hperm.nodup_iff.mp h2
  · have h1 : [p, s, v, x, y].Sublist (PreOrder (fun v => [v]) p) := by
      rw [PreOrder_two p s v h]
      exact List.Sublist.cons₂ _ ((PreOrder_head s).append (PreOrder_sub3 v x y hv))
    exact hp.sublist h1

theorem binary_children (v : Node) (hb : Binary v) :
    v.Children = [] ∨ ∃ x y, v.Children = [x, y] := by
  rcases hb.cases_children with ⟨_, h⟩ | ⟨_, x, y, h, _, _⟩
  · exact Or.inl h
  · exact Or.inr ⟨x, y, h⟩

/-- The records below a binary subtree whose nodes are pairwise different: every call
emits pairwise different records. -/
theorem triples_groups_nodup (n : Node) (hb : Binary n)
    (hn : (PreOrder (fun v => [v]) n).Nodup) :
    ∀ c ∈ triples n, ((internalRecords c).map quadruple).Nodup := by
  intro c hc
  obtain ⟨hbv, _, hch, hsub⟩ := triples_inv n hb c hc
  apply internalRecords_nodup
  rcases binary_children c.2.2 hbv with h | ⟨x, y, h⟩
  · exact Or.inl h
  · exact Or.inr ⟨x, y, h, triple_distinct c.1 c.2.1 c.2.2 x y (hn.sublist hsub) hch h⟩

theorem triples_s1 (n : Node) (hb : Binary n) :
    ∀ c ∈ triples n, (∀ r ∈ internalRecords c, r.s1 = c.2.2) ∧
      (internalRecords c).length = recordCount c.2.2 := by
  intro c hc
  have h := pcssInternal_spec c.1 c.2.1 c.2.2 (triples_inv n hb c hc).1
  exact ⟨h.2.2, h.2.1⟩

theorem groups_mem (cx : List (Node × Node × Node)) (G : Node × Node × Node → List PCSSRecord)
    (hs1 : ∀ c ∈ cx, ∀ r ∈ G c, r.s1 = c.2.2) :
    ∀ r ∈ cx.flatMap G, r.s1 ∈ cx.map (fun c => c.2.2) := by
  intro r hr
  obtain ⟨c, hc, hrc⟩ := List.mem_flatMap.mp hr
  rw [hs1 c hc r hrc]
  exact List.mem_map_of_mem _ hc

/-- C4: `PCSSPreOrder` never emits the same record twice. On a topology with pairwise
distinct leaf ids whose root has three children and whose other internal nodes have two,
the nodes are pairwise different, the node quadruples `(s0, s1, t0, t1)` of the emitted
records are pairwise different, every node other than the root is the `s1` of exactly 1
record when it is a leaf and of exactly 6 records when it is internal, and the root is
never `s1`. -/
theorem PCSSPreOrder_distinct (t c0 c1 c2 : Node) (hch : t.Children = [c0, c1, c2])
    (h0 : Binary c0) (h1 : Binary c1) (h2 : Binary c2) (hd : (leafIds t).Nodup) :
    ∃ records, PCSSPreOrder t = some records ∧
      (PreOrder (fun v => [v]) t).Nodup ∧
      (records.map quadruple).Nodup ∧
      (∀ v ∈ (PreOrder (fun v => [v]) t).tail,
        (records.map PCSSRecord.s1).count v = if v.IsLeaf then 1 else 6) ∧
      (∀ r ∈ records, r.s1 ≠ t) ∧
      (records.map PCSSRecord.s1).count t = 0 := by
  have hn := PreOrder_nodup t hd
  have hP := PreOrder_three t c0 c1 c2 hch
  have e0 : PreOrder (fun v => [v]) c0 = c0 :: (triples c0).map (fun c => c.2.2) := by
    rw [triples_nodes c0 h0]
    cases c0 with
    | mk cs i tg h => rfl
  have e1 : PreOrder (fun v => [v]) c1 = c1 :: (triples c1).map (fun c => c.2.2) := by
    rw [triples_nodes c1 h1]
    cases c1 with
    | mk cs i tg h => rfl
  have e2 : PreOrder (fun v => [v]) c2 = c2 :: (triples c2).map (fun c => c.2.2) := by
    rw [triples_nodes c2 h2]
    cases c2 with
    | mk cs i tg h => rfl
  -- the nodes of the three subtrees are pairwise different
  have hn0 : (PreOrder (fun v => [v]) c0).Nodup := by
    rw [hP] at hn
    exact ((List.nodup_cons.mp hn).2).sublist (List.sublist_append_left _ _)
  have hn1 : (PreOrder (fun v => [v]) c1).Nodup := by
    rw [hP] at hn
    exact ((List.nodup_cons.mp hn).2).sublist
      ((List.sublist_append_left _ _).trans (List.sublist_append_right _ _))
  have hn2 : (PreOrder (fun v => [v]) c2).Nodup := by
    rw [hP] at hn
    exact ((List.nodup_cons.mp hn).2).sublist
      ((List.sublist_append_right _ _).trans (List.sublist_append_right _ _))
  -- the nodes of the calls
  have htail : (PreOrder (fun v => [v]) t).tail
      = c0 :: (triples c0).map (fun c => c.2.2) ++ (c1 :: (triples c1).map (fun c => c.2.2)
        ++ c2 :: (triples c2).map (fun c => c.2.2)) := by
    rw [hP, List.tail_cons, e0, e1, e2]
  have hvs : ([c2, c0, c1] ++ ((triples c0 ++ triples c1 ++ triples c2).map
      (fun c => c.2.2))).Perm (PreOrder (fun v => [v]) t).tail := by
    rw [htail, List.perm_iff_count]
    intro a
    simp only [List.count_append, List.count_cons, List.map_append, List.count_nil]
    omega
  have htailnd : (PreOrder (fun v => [v]) t).tail.Nodup := hn.sublist (List.tail_sublist _)
  have hvsnd := hvs.nodup_iff.mpr htailnd
  have hroots_nd : ([(c0, c1, c2), (c1, c2, c0), (c2, c0, c1)].map
      (fun c : Node × Node × Node => c.2.2)).Nodup :=
    hvsnd.sublist (List.sublist_append_left _ _)
  have htrs_nd : ((triples c0 ++ triples c1 ++ triples c2).map (fun c => c.2.2)).Nodup :=
    hvsnd.sublist (List.sublist_append_right _ _)
  -- the five nodes around a root call
  have hroot5 : [c0, c1, c2].Nodup := by
    have hsub : [c0, c1, c2].Sublist (PreOrder (fun v => [v]) t) := by
      rw [hP]
      exact List.Sublist.cons _ ((PreOrder_head c0).append
        ((PreOrder_head c1).append (PreOrder_head c2)))
    exact hn.sublist hsub
  have hg2 : (c2.Children = [] ∨ ∃ x y, c2.Children = [x, y] ∧ [c0, c1, c2, x, y].Nodup) := by
    rcases binary_children c2 h2 with h | ⟨x, y, h⟩
    · exact Or.inl h
    · refine Or.inr ⟨x, y, h, hn.sublist ?_⟩
      rw [hP]
      exact List.Sublist.cons _ ((PreOrder_head c0).append
        ((PreOrder_head c1).append (PreOrder_sub3 c2 x y h)))
  have hg0 : (c0.Children = [] ∨ ∃ x y, c0.Children = [x, y] ∧ [c1, c2, c0, x, y].Nodup) := by
    rcases binary_children c0 h0 with h | ⟨x, y, h⟩
    · exact Or.inl h
    · have hsub : ([c0, x, y] ++ [c1, c2]).Sublist (PreOrder (fun v => [v]) t) := by
        rw [hP]
        exact List.Sublist.cons _ ((PreOrder_sub3 c0 x y h).append
          ((PreOrder_head c1).append (PreOrder_head c2)))
      exact Or.inr ⟨x, y, h, (List.perm_append_comm.nodup_iff).mp (hn.sublist hsub)⟩
  have hg1 : (c1.Children = [] ∨ ∃ x y, c1.Children = [x, y] ∧ [c2, c0, c1, x, y].Nodup) := by
    rcases binary_children c1 h1 with h | ⟨x, y, h⟩
    · exact Or.inl h
    · have hsub : ([c0, c1, x, y] ++ [c2]).Sublist (PreOrder (fun v => [v]) t) := by
        rw [hP]
        exact List.Sublist.cons _ ((PreOrder_head c0).append
          ((PreOrder_sub3 c1 x y h).append (PreOrder_head c2)))
      exact Or.inr ⟨x, y, h, (List.perm_append_comm.nodup_iff).mp (hn.sublist hsub)⟩
  -- the records of the root calls and of the internal calls
  have hroot_s1 : ∀ c ∈ [(c0, c1, c2), (c1, c2, c0), (c2, c0, c1)],
      (∀ r ∈ rootRecords c, r.s1 = c.2.2) ∧ (rootRecords c).length = recordCount c.2.2 ∧
        ((rootRecords c).map quadruple).Nodup := by
    intro c hc
    simp only [List.mem_cons, List.mem_singleton, List.not_mem_nil, or_false] at hc
    rcases hc with e | e | e
    · rw [e]
      exact ⟨(pcssRoot_spec c0 c1 c2 h2).2.2, (pcssRoot_spec c0 c1 c2 h2).2.1,
        rootRecords_nodup c0 c1 c2 hg2⟩
    · rw [e]
      exact ⟨(pcssRoot_spec c1 c2 c0 h0).2.2, (pcssRoot_spec c1 c2 c0 h0).2.1,
        rootRecords_nodup c1 c2 c0 hg0⟩
    · rw [e]
      exact ⟨(pcssRoot_spec c2 c0 c1 h1).2.2, (pcssRoot_spec c2 c0 c1 h1).2.1,
        rootRecords_nodup c2 c0 c1 hg1⟩
  have htrs : ∀ c ∈ triples c0 ++ triples c1 ++ triples c2,
      (∀ r ∈ internalRecords c, r.s1 = c.2.2) ∧ (internalRecords c).length = recordCount c.2.2 ∧
        ((internalRecords c).map quadruple).Nodup := by
    intro c hc
    simp only [List.mem_append] at hc
    rcases hc with (hc | hc) | hc
    · exact ⟨(triples_s1 c0 h0 c hc).1, (triples_s1 c0 h0 c hc).2,
        triples_groups_nodup c0 h0 hn0 c hc⟩
    · exact ⟨(triples_s1 c1 h1 c hc).1, (triples_s1 c1 h1 c hc).2,
        triples_groups_nodup c1 h1 hn1 c hc⟩
    · exact ⟨(triples_s1 c2 h2 c hc).1, (triples_s1 c2 h2 c hc).2,
        triples_groups_nodup c2 h2 hn2 c hc⟩
  have hrec : rootRecords (c0, c1, c2) ++ rootRecords (c1, c2, c0) ++ rootRecords (c2, c0, c1)
      ++ (triples c0 ++ triples c1 ++ triples c2).flatMap internalRecords
      = [(c0, c1, c2), (c1, c2, c0), (c2, c0, c1)].flatMap rootRecords
        ++ (triples c0 ++ triples c1 ++ triples c2).flatMap internalRecords := by
    simp [List.flatMap_cons]
  have hs1map : (([(c0, c1, c2), (c1, c2, c0), (c2, c0, c1)].flatMap rootRecords
      ++ (triples c0 ++ triples c1 ++ triples c2).flatMap internalRecords).map PCSSRecord.s1)
      = ([c2, c0, c1] ++ ((triples c0 ++ triples c1 ++ triples c2).map
          (fun c => c.2.2))).flatMap (fun v => List.replicate (recordCount v) v) := by
    rw [List.map_append, groups_s1 _ rootRecords (fun c hc => (hroot_s1 c hc).1)
      (fun c hc => (hroot_s1 c hc).2.1), groups_s1 _ internalRecords (fun c hc => (htrs c hc).1)
      (fun c hc => (htrs c hc).2.1), List.flatMap_append]
    rfl
  refine ⟨_, PCSSPreOrder_eq t c0 c1 c2 hch h0 h1 h2, hn, ?_, ?_, ?_, ?_⟩
  · rw [hrec, List.map_append, List.nodup_append]
    refine ⟨groups_nodup _ rootRecords (fun c hc => (hroot_s1 c hc).1)
      (fun c hc => (hroot_s1 c hc).2.2) hroots_nd,
      groups_nodup _ internalRecords (fun c hc => (htrs c hc).1) (fun c hc => (htrs c hc).2.2)
        htrs_nd, ?_⟩
    intro q hq1 hq2
    obtain ⟨r, hr, e⟩ := List.mem_map.mp hq1
    obtain ⟨r', hr', e'⟩ := List.mem_map.mp hq2
    have k1 := groups_mem _ rootRecords (fun c hc => (hroot_s1 c hc).1) r hr
    have k2 := groups_mem _ internalRecords (fun c hc => (htrs c hc).1) r' hr'
    have k3 : r.s1 = r'.s1 := by
      have := congrArg (fun q : Node × Node × Node × Node => q.2.1) (e.trans e'.symm)
      exact this
    rw [k3] at k1
    exact (List.nodup_append.mp hvsnd).2.2 k1 k2
  · intro v hv
    rw [hrec, hs1map, count_flatMap_replicate,
      List.count_eq_one_of_mem hvsnd (hvs.symm.subset hv), Nat.one_mul]
    rfl
  · intro r hr e
    rw [hrec] at hr
    have hmem : r.s1 ∈ [c2, c0, c1] ++ ((triples c0 ++ triples c1 ++ triples c2).map
        (fun c => c.2.2)) := by
      rcases List.mem_append.mp hr with h | h
      · exact List.mem_append_left _ (groups_mem _ rootRecords (fun c hc => (hroot_s1 c hc).1) r h)
      · exact List.mem_append_right _
          (groups_mem _ internalRecords (fun c hc => (htrs c hc).1) r h)
    have htl := hvs.subset hmem
    rw [e] at htl
    have hcons : PreOrder (fun v => [v]) t = t :: (PreOrder (fun v => [v]) t).tail := by
      rw [hP]
      rfl
    rw [hcons] at hn
    exact (List.nodup_cons.mp hn).1 htl
  · rw [hrec, hs1map, count_flatMap_replicate]
    have hnot : t ∉ [c2, c0, c1] ++ ((triples c0 ++ triples c1 ++ triples c2).map
        (fun c => c.2.2)) := by
      intro hmem
      have htl := hvs.subset hmem
      have hcons : PreOrder (fun v => [v]) t = t :: (PreOrder (fun v => [v]) t).tail := by
        rw [hP]
        rfl
      rw [hcons] at hn
      exact (List.nodup_cons.mp hn).1 htl
    rw [List.count_eq_zero_of_not_mem hnot, Nat.zero_mul]

/-- C4, at the example topology `(0,1,(2,3))`. -/
theorem PCSSPreOrder_distinct_witness :
    (leafIds exampleTopology0).Nodup ∧
    ∃ records, PCSSPreOrder exampleTopology0 = some records ∧
      (PreOrder (fun v => [v]) exampleTopology0).Nodup ∧
      (records.map quadruple).Nodup ∧
      (∀ v ∈ (PreOrder (fun v => [v]) exampleTopology0).tail,
        (records.map PCSSRecord.s1).count v = if v.IsLeaf then 1 else 6) ∧
      (∀ r ∈ records, r.s1 ≠ exampleTopology0) ∧
      (records.map PCSSRecord.s1).count exampleTopology0 = 0 :=
  ⟨by decide, PCSSPreOrder_distinct exampleTopology0 (Leaf 0) (Leaf 1)
    (mk [Leaf 2, Leaf 3] 4 12884901890 6209831354) rfl (Binary.leaf _ _ _) (Binary.leaf _ _ _)
    (Binary.internal _ _ _ _ _ (Binary.leaf _ _ _) (Binary.leaf _ _ _)) (by decide)⟩

/-! ## `Reindex` run twice -/

theorem eraseIndexChildren_isEmpty (cs : List Node) :
    (eraseIndexChildren cs).isEmpty = cs.isEmpty := by
  cases cs <;> rfl

theorem eraseIndex_Tag (n : Node) : (eraseIndex n).Tag = n.Tag := by
  cases n with
  | mk cs i t h => rfl

theorem eraseIndex_MaxLeafID (n : Node) : (eraseIndex n).MaxLeafID = n.MaxLeafID := by
  unfold MaxLeafID
  rw [eraseIndex_Tag]

/-- What `Reindex` reads of a topology is left in place when the indices are put aside:
the numbers of internal nodes, the tags in postorder, and the assigned indices. -/
theorem eraseIndex_invariants (n : Node) :
    numInternal (eraseIndex n) = numInternal n ∧
      PostOrder (fun v => [v.Tag]) (eraseIndex n) = PostOrder (fun v => [v.Tag]) n ∧
      ∀ nx, renumber (eraseIndex n) nx = renumber n nx := by
  induction n using Node.induct with
  | step cs i t h ih =>
    have key : numInternalChildren (eraseIndexChildren cs) = numInternalChildren cs ∧
        PostOrderChildren (fun v => [v.Tag]) (eraseIndexChildren cs)
          = PostOrderChildren (fun v => [v.Tag]) cs ∧
        ∀ nx, renumberChildren (eraseIndexChildren cs) nx = renumberChildren cs nx := by
      induction cs with
      | nil => exact ⟨rfl, rfl, fun _ => rfl⟩
      | cons c cs ihl =>
        obtain ⟨a1, a2, a3⟩ := ih c (List.mem_cons_self _ _)
        obtain ⟨b1, b2, b3⟩ := ihl (fun d hd => ih d (List.mem_cons_of_mem _ hd))
        refine ⟨?_, ?_, ?_⟩
        · simp only [eraseIndexChildren, numInternalChildren, a1, b1]
        · simp only [eraseIndexChildren, PostOrderChildren, a2, b2]
        · intro nx
          simp only [eraseIndexChildren, renumberChildren, a1, a3, b3]
    obtain ⟨k1, k2, k3⟩ := key
    refine ⟨?_, ?_, ?_⟩
    · simp only [eraseIndex, numInternal, eraseIndexChildren_isEmpty, k1]
    · simp only [eraseIndex, PostOrder, k2]
      rfl
    · intro nx
      simp only [eraseIndex, renumber, eraseIndexChildren_isEmpty, k1, k3]

/-- The indices that `Reindex` assigns do not change the topology apart from its indices. -/
theorem eraseIndex_renumber (n : Node) : ∀ nx, eraseIndex (renumber n nx) = eraseIndex n := by
  induction n using Node.induct with
  | step cs i t h ih =>
    intro nx
    have key : ∀ nx, eraseIndexChildren (renumberChildren cs nx) = eraseIndexChildren cs := by
      induction cs with
      | nil => intro _; rfl
      | cons c cs ihl =>
        intro nx
        simp only [renumberChildren, eraseIndexChildren]
        rw [ih c (List.mem_cons_self _ _), ihl (fun d hd => ih d (List.mem_cons_of_mem _ hd))]
    unfold renumber
    cases hcs : cs.isEmpty with
    | true =>
      have : cs = [] := List.isEmpty_iff.mp hcs
      subst this
      rfl
    | false =>
      simp only [Bool.false_eq_true, if_false, eraseIndex, key]

/-- The outcome of `Reindex` is decided by the topology apart from its indices. -/
theorem Reindex_eraseIndex (n : Node) : Reindex (eraseIndex n) = Reindex n := by
  obtain ⟨_, h2, h3⟩ := eraseIndex_invariants n
  rw [Reindex_eq, Reindex_eq n, h2, eraseIndex_MaxLeafID, h3]

/-- C11: `Reindex` is idempotent. When `Reindex` succeeds on a topology, a second run on
the reindexed topology succeeds, returns the same tag-to-index map and gives back the
reindexed topology itself, so that no node changes its index; the map lists every node's tag
with that index; and the first run gives the same topology and the same map whatever
indices the nodes held before it. -/
theorem Reindex_idempotent (t t1 : Node) (m : TagSizeMap) (hr : Reindex t = some (t1, m)) :
    Reindex t1 = some (t1, m) ∧
      m = PostOrder (fun v => [(v.Tag, v.Index)]) t1 ∧
      ∀ s, eraseIndex s = eraseIndex t → Reindex s = some (t1, m) := by
  have hind : ∀ s, eraseIndex s = eraseIndex t → Reindex s = some (t1, m) := by
    intro s hs
    rw [← Reindex_eraseIndex s, hs, Reindex_eraseIndex t, hr]
  obtain ⟨e1, e2, _⟩ := Reindex_some t t1 m hr
  have h1 : Reindex t1 = some (t1, m) := by
    apply hind
    rw [e1, eraseIndex_renumber]
  exact ⟨h1, e2, hind⟩

/-- C11, at the topology `(0,1,(2,3))` whose nodes hold the indices 7, 8, 9 before the
first run. -/
theorem Reindex_idempotent_witness :
    Reindex (mk [mk [] 7 1 (SOHash 0), mk [] 7 4294967297 (SOHash 1),
        mk [mk [] 8 8589934593 (SOHash 2), mk [] 8 12884901889 (SOHash 3)] 9 12884901890
          6209831354] 7 12884901892 10839077946)
      = some (exampleTopology0, [(1, 0), (4294967297, 1), (8589934593, 2), (12884901889, 3),
          (12884901890, 4), (12884901892, 5)]) ∧
    (Reindex exampleTopology0 = some (exampleTopology0, [(1, 0), (4294967297, 1),
        (8589934593, 2), (12884901889, 3), (12884901890, 4), (12884901892, 5)]) ∧
      [(1, 0), (4294967297, 1), (8589934593, 2), (12884901889, 3), (12884901890, 4),
          (12884901892, 5)] = PostOrder (fun v => [(v.Tag, v.Index)]) exampleTopology0 ∧
      ∀ s, eraseIndex s = eraseIndex (mk [mk [] 7 1 (SOHash 0), mk [] 7 4294967297 (SOHash 1),
            mk [mk [] 8 8589934593 (SOHash 2), mk [] 8 12884901889 (SOHash 3)] 9 12884901890
              6209831354] 7 12884901892 10839077946) →
        Reindex s = some (exampleTopology0, [(1, 0), (4294967297, 1), (8589934593, 2),
          (12884901889, 3), (12884901890, 4), (12884901892, 5)])) :=
  ⟨by decide, Reindex_idempotent _ _ _ (by decide)⟩

end Node

namespace Tree

variable {D : Type} [Zero D]

/-! ## The layout of the indices and the bounds assertions -/

/-- The tag-map constructor succeeds, and `BranchLength` is defined on every node, once no
index lies above the index of the root and no two nodes share an index. -/
theorem ofTagMap_in_bounds (t t' : Node) (m : Node.TagSizeMap) (lengths : Nat → Option D)
    (hr : Node.Reindex t = some (t', m))
    (hle : ∀ v ∈ Node.PreOrder (fun v => [v]) t', v.Index ≤ t'.Index)
    (hnd : ((Node.PostOrder (fun v => [v]) t').map Node.Index).Nodup) :
    ∃ tree : Tree D, ofTagMap t lengths = some tree ∧ tree.topology = t' ∧
      tree.branch_lengths.length = t'.Index + 1 ∧
      ∀ v ∈ Node.PreOrder (fun v => [v]) t',
        v.Index < tree.branch_lengths.length ∧ (tree.BranchLength v).isSome = true := by
  obtain ⟨_, hm, _⟩ := Node.Reindex_some t t' m hr
  have hmmap : m = (Node.PostOrder (fun v => [v]) t').map (fun v => (v.Tag, v.Index)) := by
    rw [hm, Node.PostOrder_map]
  have hsnd : m.map Prod.snd = (Node.PostOrder (fun v => [v]) t').map Node.Index := by
    rw [hmmap, List.map_map]
    rfl
  have hbound : ∀ e ∈ m, e.2 < (List.replicate (t'.Index + 1) (0 : D)).length := by
    intro e he
    rw [hmmap] at he
    obtain ⟨v, hv, e1⟩ := List.mem_map.mp he
    rw [← e1, List.length_replicate]
    exact Nat.lt_succ_of_le (hle v ((Node.PostOrder_perm_PreOrder t').subset hv))
  obtain ⟨r, hfill, hlen, hset, _⟩ := fillBranchLengths_spec lengths m
    (List.replicate (t'.Index + 1) 0) hbound (by rw [hsnd]; exact hnd)
  rw [List.length_replicate] at hlen
  refine ⟨⟨t', r⟩, ?_, rfl, hlen, ?_⟩
  · simp only [ofTagMap, hr, hfill]
  · intro v hv
    have hvm : (v.Tag, v.Index) ∈ m := by
      rw [hmmap]
      exact List.mem_map.mpr ⟨v, (Node.PostOrder_perm_PreOrder t').symm.subset hv, rfl⟩
    have h1 := hset _ hvm
    have h2 : v.Index < r.length := by
      rw [hlen]
      exact Nat.lt_succ_of_le (hle v hv)
    refine ⟨h2, ?_⟩
    simp only [BranchLength, h2, if_true]
    rw [h1]
    rfl

end Tree

namespace Node

theorem numInternal_pos (n : Node) (h : n.IsLeaf = false) : 1 ≤ n.numInternal := by
  cases n with
  | mk cs i t h0 =>
    have : cs.isEmpty = false := h
    simp only [numInternal, this, Bool.false_eq_true, if_false]
    omega

theorem numInternal_leaf (n : Node) (h : n.IsLeaf = true) : n.numInternal = 0 := by
  cases n with
  | mk cs i t h0 =>
    have hnil : cs = [] := List.isEmpty_iff.mp h
    subst hnil
    rfl

/-- For a root max leaf id `M` below `2 ^ 32 - 1`: after `Reindex` has succeeded on a
built topology with `k` internal nodes, the internal nodes taken in postorder have the
indices `M + 1, ..., M + k`, the root has the index `M + k` (for `k ≥ 1`; a lone leaf has
`k = 0` and index `M`), every other node has a smaller index, every leaf has its taxon id
as index, which is at most `M`, and the tag-map constructor and `BranchLength` pass their bounds
assertions on every node of the topology. -/
theorem Reindex_layout (t : Node) (hb : Built t) (hM : t.MaxLeafID + 1 < 2 ^ 32)
    (t' : Node) (m : TagSizeMap) (hr : Reindex t = some (t', m)) :
    ((PostOrder (fun v => [v]) t').filter (fun v => !v.IsLeaf)).map Index
        = List.range' (t.MaxLeafID + 1) t.numInternal ∧
      t'.Index = t.MaxLeafID + t.numInternal ∧
      (∀ v ∈ PreOrder (fun v => [v]) t', v.Index ≤ t'.Index) ∧
      (∀ c ∈ t'.Children, ∀ v ∈ PreOrder (fun v => [v]) c, v.Index < t'.Index) ∧
      (∀ v ∈ PreOrder (fun v => [v]) t', v.IsLeaf = true →
        leafIds v = [v.Index] ∧ v.Index ≤ t.MaxLeafID) ∧
      ∀ (D : Type) [Zero D] (lengths : Nat → Option D),
        ∃ tree : Tree D, Tree.ofTagMap t lengths = some tree ∧ tree.topology = t' ∧
          tree.branch_lengths.length = t'.Index + 1 ∧
          ∀ v ∈ PreOrder (fun v => [v]) t',
            v.Index < tree.branch_lengths.length ∧ (tree.BranchLength v).isSome = true := by
  obtain ⟨ht', _, htags⟩ := Reindex_some t t' m hr
  have hc := hb.canon
  have hnx : (1 + t.MaxLeafID) % 2 ^ 32 = t.MaxLeafID + 1 := by
    rw [Nat.add_comm]
    exact Nat.mod_eq_of_lt hM
  rw [hnx] at ht'
  have hle : ∀ v ∈ PreOrder (fun v => [v]) t', v.Index ≤ t'.Index := by
    rw [ht']
    exact renumber_index_le_root t hc
  have hnd : ((PostOrder (fun v => [v]) t').map Index).Nodup := by
    rw [ht']
    exact renumber_index_nodup t hc _ (Nat.lt_succ_self _) htags
  refine ⟨?_, ?_, hle, ?_, ?_, ?_⟩
  · rw [ht']
    exact internal_indices t _
  · cases hl : t.IsLeaf with
    | true =>
      rw [ht', renumber_Index_leaf t _ hl, numInternal_leaf t hl]
      rfl
    | false =>
      have h1 := renumber_Index_internal t (t.MaxLeafID + 1) hl
      rw [← ht'] at h1
      omega
  · rw [ht']
    exact renumber_index_lt_root t hc
  · intro v hv hl
    rw [ht'] at hv
    obtain ⟨h1, _, h3⟩ := renumber_leaf t hc _ v hv hl
    refine ⟨?_, h3⟩
    cases v with
    | mk cs i tg h0 =>
      have hnil : cs = [] := List.isEmpty_iff.mp hl
      subst hnil
      rw [Index_mk] at h1
      rw [Index_mk, h1]
      rfl
  · intro D _ lengths
    exact Tree.ofTagMap_in_bounds t t' m lengths hr hle hnd

/-- C12, at the failing input `(0, (1, 4294967295))`, with `M = 4294967295` and two
internal nodes: the sum `1 + MaxLeafID()` is formed in 32 bits and wraps to 0, `Reindex`
succeeds and the internal nodes taken in postorder have the indices 0 and 1, where C12 asks
for `M + 1` and `M + 2`; the root has the index 1, which is smaller than the index of the
leaf 4294967295; and the tag-map constructor does not get past its out-of-range entry. -/
theorem Reindex_layout_wraps :
    (((Join2 (Leaf 1) (Leaf 4294967295) 0).bind (fun c => Join [Leaf 0, c] 0)).bind
        Reindex).map (fun r => (r.1.MaxLeafID, r.1.numInternal,
          ((PostOrder (fun v => [v]) r.1).filter (fun v => !v.IsLeaf)).map Index,
          r.1.Index, PreOrder (fun v => [v.Index]) r.1))
      = some (4294967295, 2, [0, 1], 1, [1, 0, 0, 1, 4294967295]) ∧
    ((Join2 (Leaf 1) (Leaf 4294967295) 0).bind (fun c => Join [Leaf 0, c] 0)).bind
        (fun t => Tree.ofTagMap t (fun _ => (none : Option Int))) = none := by
  constructor <;> decide

/-- The layout at the example topology `(0,1,(2,3))`: `M = 3`, two internal nodes with the
indices 4 and 5. -/
theorem Reindex_layout_witness :
    (exampleTopology0.MaxLeafID = 3 ∧ exampleTopology0.numInternal = 2 ∧
      ((PostOrder (fun v => [v]) exampleTopology0).filter (fun v => !v.IsLeaf)).map Index
        = [4, 5]) ∧
    (((PostOrder (fun v => [v]) exampleTopology0).filter (fun v => !v.IsLeaf)).map Index
        = List.range' (exampleTopology0.MaxLeafID + 1) exampleTopology0.numInternal ∧
      exampleTopology0.Index = exampleTopology0.MaxLeafID + exampleTopology0.numInternal ∧
      (∀ v ∈ PreOrder (fun v => [v]) exampleTopology0, v.Index ≤ exampleTopology0.Index) ∧
      (∀ c ∈ exampleTopology0.Children, ∀ v ∈ PreOrder (fun v => [v]) c,
        v.Index < exampleTopology0.Index) ∧
      (∀ v ∈ PreOrder (fun v => [v]) exampleTopology0, v.IsLeaf = true →
        leafIds v = [v.Index] ∧ v.Index ≤ exampleTopology0.MaxLeafID) ∧
      ∀ (D : Type) [Zero D] (lengths : Nat → Option D),
        ∃ tree : Tree D, Tree.ofTagMap exampleTopology0 lengths = some tree ∧
          tree.topology = exampleTopology0 ∧
          tree.branch_lengths.length = exampleTopology0.Index + 1 ∧
          ∀ v ∈ PreOrder (fun v => [v]) exampleTopology0,
            v.Index < tree.branch_lengths.length ∧ (tree.BranchLength v).isSome = true) :=
  ⟨by decide, Reindex_layout exampleTopology0 exampleTopology0_Built (by decide)
    exampleTopology0 [(1, 0), (4294967297, 1), (8589934593, 2), (12884901889, 3),
      (12884901890, 4), (12884901892, 5)] (by decide)⟩

/-! ## When the internal constructor aborts -/

/-- C13: the internal constructor fails exactly on the two usage errors. `Join` aborts if
and only if the list of children is empty or two children at different places of the list
have the same max leaf id; otherwise it returns a node, which stores a permutation of the
given children; in particular it returns a node for a list with a single child. -/
theorem Join_aborts_iff (children : List Node) (index : Nat) :
    (Join children index = none ↔
      children = [] ∨ ¬ children.Pairwise (fun a b => a.MaxLeafID ≠ b.MaxLeafID)) ∧
    (children ≠ [] → children.Pairwise (fun a b => a.MaxLeafID ≠ b.MaxLeafID) →
      ∃ n, Join children index = some n ∧ n.Children.Perm children ∧ n.Index = index) ∧
    (∀ c, ∃ n, Join [c] index = some n ∧ n.Children = [c]) := by
  have hiff : (children.map MaxLeafID).Nodup
      ↔ children.Pairwise (fun a b => a.MaxLeafID ≠ b.MaxLeafID) := by
    rw [List.Nodup, List.pairwise_map]
  have hsome : children ≠ [] → children.Pairwise (fun a b => a.MaxLeafID ≠ b.MaxLeafID) →
      ∃ n, Join children index = some n ∧ n.Children.Perm children ∧ n.Index = index := by
    intro hne hp
    obtain ⟨back, _, hj⟩ := Join_of_nodup children index hne (hiff.mpr hp)
    exact ⟨_, hj, List.perm_insertionSort _ _, rfl⟩
  refine ⟨⟨?_, ?_⟩, hsome, ?_⟩
  · intro hnone
    by_cases hne : children = []
    · exact Or.inl hne
    · refine Or.inr (fun hp => ?_)
      obtain ⟨n, hn, _⟩ := hsome hne hp
      rw [hn] at hnone
      cases hnone
  · rintro (he | ht)
    · rw [he]
      rfl
    · have hs := sortChildren_of_tie children (fun h => ht (hiff.mp h))
      unfold Join
      rw [hs]
      split <;> rfl
  · intro c
    exact ⟨_, rfl, rfl⟩

/-- C13, at concrete lists: the empty list and a list with a tie abort, a single child
and three children with distinct max leaf ids give a node. -/
theorem Join_aborts_iff_witness :
    (Join [] 0 = none ∧ Join [Leaf 1, Leaf 0, Leaf 1] 0 = none ∧
      (Join [Leaf 5] 0).map Children = some [Leaf 5] ∧
      (Join [Leaf 2, Leaf 0, Leaf 1] 0).map Children = some [Leaf 0, Leaf 1, Leaf 2]) ∧
    ((Join [Leaf 1, Leaf 0, Leaf 1] 0 = none ↔
      [Leaf 1, Leaf 0, Leaf 1] = [] ∨
        ¬ [Leaf 1, Leaf 0, Leaf 1].Pairwise (fun a b => a.MaxLeafID ≠ b.MaxLeafID)) ∧
    ([Leaf 1, Leaf 0, Leaf 1] ≠ [] →
      [Leaf 1, Leaf 0, Leaf 1].Pairwise (fun a b => a.MaxLeafID ≠ b.MaxLeafID) →
      ∃ n, Join [Leaf 1, Leaf 0, Leaf 1] 0 = some n ∧
        n.Children.Perm [Leaf 1, Leaf 0, Leaf 1] ∧ n.Index = 0) ∧
    (∀ c, ∃ n, Join [c] 0 = some n ∧ n.Children = [c])) :=
  ⟨⟨by decide, by decide, by decide, by decide⟩, Join_aborts_iff [Leaf 1, Leaf 0, Leaf 1] 0⟩

/-! ## The leaf sets of the children of one node -/

theorem exampleOverlap_Built : Built exampleOverlap := by
  have h01 : Built (mk [Leaf 0, Leaf 1] 0 4294967298 1649030990) := by
    refine Built.join [Leaf 0, Leaf 1] 0 _ ?_ (by decide)
    intro c hc
    simp only [List.mem_cons, List.mem_singleton, List.not_mem_nil, or_false] at hc
    rcases hc with e | e <;> rw [e] <;> exact Built.leaf _ (by decide)
  have h02 : Built (mk [Leaf 0, Leaf 2] 0 8589934594 3444516144) := by
    refine Built.join [Leaf 0, Leaf 2] 0 _ ?_ (by decide)
    intro c hc
    simp only [List.mem_cons, List.mem_singleton, List.not_mem_nil, or_false] at hc
    rcases hc with e | e <;> rw [e] <;> exact Built.leaf _ (by decide)
  refine Built.join [mk [Leaf 0, Leaf 1] 0 4294967298 1649030990,
    mk [Leaf 0, Leaf 2] 0 8589934594 3444516144] 0 _ ?_ (by decide)
  intro c hc
  simp only [List.mem_cons, List.mem_singleton, List.not_mem_nil, or_false] at hc
  rcases hc with e | e
  · rw [e]; exact h01
  · rw [e]; exact h02

/-- C14 as stated fails: `Join` compares the max leaf ids of the children and nothing
else. The cherries `(0,1)` and `(0,2)` have the max leaf ids 1 and 2, so `Join` builds the
node `((0,1),(0,2))`, under which the taxon id 0 occurs in both children. -/
theorem Join_accepts_overlapping_children :
    (Join2 (Leaf 0) (Leaf 1) 0).bind (fun a => (Join2 (Leaf 0) (Leaf 2) 0).bind
        (fun b => Join2 a b 0)) = some exampleOverlap ∧
    exampleOverlap.Children.map leafIds = [[0, 1], [0, 2]] ∧
    ¬ (exampleOverlap.Children.map leafIds).Pairwise List.Disjoint := by
  refine ⟨by decide, by decide, ?_⟩
  have e : exampleOverlap.Children.map leafIds = [[0, 1], [0, 2]] := by decide
  rw [e, List.pairwise_pair]
  intro h
  exact h (List.mem_cons_self 0 [1]) (List.mem_cons_self 0 [2])

/-- C14, for the largest taxon ids: in a node built from `Leaf` and `Join`, the children of
every internal node are stored with strictly increasing max leaf ids, the max leaf id of a
child is the largest taxon id of the subtree of that child, and so no two different children
have the same largest taxon id and the largest taxon id of a child occurs under no child
stored before it. -/
theorem Built_children_max_distinct (n : Node) (hb : Built n) :
    ∀ v ∈ PreOrder (fun v => [v]) n,
      v.Children.Pairwise (fun a b => a.MaxLeafID < b.MaxLeafID ∧ b.MaxLeafID ∉ leafIds a) ∧
      ∀ c ∈ v.Children, c.MaxLeafID ∈ leafIds c ∧ ∀ x ∈ leafIds c, x ≤ c.MaxLeafID := by
  intro v hv
  have hcv : Canon v := (hb.canon.of_mem v hv).1
  cases v with
  | mk cs i t h =>
    rw [Children_mk]
    have hch : ∀ c ∈ cs, Canon c := hcv.children
    refine ⟨?_, fun c hc => (hch c hc).maxLeafID⟩
    by_cases hne : cs = []
    · rw [hne]
      exact List.Pairwise.nil
    · obtain ⟨_, hs, _, _⟩ := hcv.internal_inv hne
      have hs2 : cs.Pairwise (fun a b => Canon a ∧ a.MaxLeafID < b.MaxLeafID) := by
        rw [List.pairwise_iff_forall_sublist] at hs ⊢
        intro a b hab
        exact ⟨hch a (hab.subset (List.mem_cons_self _ _)), hs hab⟩
      refine hs2.imp ?_
      rintro a b ⟨hca, hlt⟩
      refine ⟨hlt, fun hmem => ?_⟩
      have := hca.maxLeafID.2 _ hmem
      omega

/-- C14, at the node `((0,1),(0,2))`, built although the taxon id 0 occurs under both
children. -/
theorem Built_children_max_distinct_witness :
    Built exampleOverlap ∧
    ∀ v ∈ PreOrder (fun v => [v]) exampleOverlap,
      v.Children.Pairwise (fun a b => a.MaxLeafID < b.MaxLeafID ∧ b.MaxLeafID ∉ leafIds a) ∧
      ∀ c ∈ v.Children, c.MaxLeafID ∈ leafIds c ∧ ∀ x ∈ leafIds c, x ≤ c.MaxLeafID :=
  ⟨exampleOverlap_Built, Built_children_max_distinct exampleOverlap exampleOverlap_Built⟩

/-! ## What the tag holds -/

theorem numLeaves_mk (cs : List Node) (i t h : Nat) (hne : cs ≠ []) :
    (mk cs i t h).numLeaves = (cs.map numLeaves).sum := by
  have he : cs.isEmpty = false := by
    cases cs with
    | nil => exact absurd rfl hne
    | cons _ _ => rfl
  simp only [numLeaves, leafIds, he, Bool.false_eq_true, if_false, leafIdsChildren_eq,
    List.length_flatten, List.map_map]
  rfl

theorem numLeaves_leaf (i t h : Nat) : (mk [] i t h).numLeaves = 1 := rfl

theorem sum_mod_congr (cs : List Node) (f g : Node → Nat)
    (h : ∀ c ∈ cs, f c = g c % 2 ^ 32) :
    (cs.map f).sum % 2 ^ 32 = (cs.map g).sum % 2 ^ 32 := by
  induction cs with
  | nil => rfl
  | cons c cs ih =>
    simp only [List.map_cons, List.sum_cons]
    have h1 := h c (List.mem_cons_self _ _)
    have h2 := ih (fun d hd => h d (List.mem_cons_of_mem _ hd))
    omega

/-- The second component of the tag of a canonical node is the number of leaves of its
subtree, reduced modulo `2 ^ 32`. -/
theorem Canon.leafCount (n : Node) : Canon n → n.LeafCount = n.numLeaves % 2 ^ 32 := by
  induction n using Node.induct with
  | step cs i t h ih =>
    intro hc
    by_cases hne : cs = []
    · subst hne
      obtain ⟨leaf_id, _, ht, _⟩ := hc.leaf_inv
      rw [numLeaves_leaf, ht]
      simp only [LeafCount, Tag_mk, UnpackSecondInt_PackInts]
    · obtain ⟨hch, _, ⟨back, _, ht⟩, _⟩ := hc.internal_inv hne
      rw [numLeaves_mk cs i t h hne, ht]
      simp only [LeafCount, Tag_mk, UnpackSecondInt_PackInts]
      rw [sumLeafCount_eq, Nat.mod_mod]
      exact sum_mod_congr cs LeafCount numLeaves (fun c hc' => ih c hc' (hch c hc'))

theorem Canon.children_sorted {n : Node} (hc : Canon n) :
    n.Children.Pairwise (fun a b => a.MaxLeafID < b.MaxLeafID) := by
  cases n with
  | mk cs i t h =>
    rw [Children_mk]
    by_cases hne : cs = []
    · rw [hne]
      exact List.Pairwise.nil
    · exact (hc.internal_inv hne).2.1

/-- C15, with the leaf count taken modulo `2 ^ 32`: for every node of a topology built
with `Leaf` and `Join`, the first component of the tag is the largest taxon id among the
leaves of the subtree of the node, the second component is the number of leaves of that
subtree modulo `2 ^ 32` (the number itself when it is below `2 ^ 32`, and 1 for a leaf), and
the stored children are in strictly increasing order of max leaf id. -/
theorem Built_tag (n : Node) (hb : Built n) :
    ∀ v ∈ PreOrder (fun v => [v]) n,
      (v.MaxLeafID ∈ leafIds v ∧ ∀ x ∈ leafIds v, x ≤ v.MaxLeafID) ∧
      v.LeafCount = v.numLeaves % 2 ^ 32 ∧
      (v.numLeaves < 2 ^ 32 → v.LeafCount = v.numLeaves) ∧
      (v.IsLeaf = true → v.LeafCount = 1 ∧ v.numLeaves = 1) ∧
      v.Children.Pairwise (fun a b => a.MaxLeafID < b.MaxLeafID) := by
  intro v hv
  have hcv : Canon v := (hb.canon.of_mem v hv).1
  have hlc := Canon.leafCount v hcv
  refine ⟨hcv.maxLeafID, hlc, ?_, ?_, hcv.children_sorted⟩
  · intro hlt
    rw [hlc, Nat.mod_eq_of_lt hlt]
  · intro hl
    cases v with
    | mk cs i t h =>
      have hnil : cs = [] := List.isEmpty_iff.mp hl
      subst hnil
      rw [hlc, numLeaves_leaf]
      exact ⟨rfl, rfl⟩

/-- C15 as stated fails for a subtree with `2 ^ 32` leaves: the star topology whose children
are the leaves `0 .. 2 ^ 32 - 1` is built by `Join`, and the second component of its tag is
0, the 32-bit sum of the leaf counts of its children, not the number `2 ^ 32` of its
leaves. -/
theorem tag_leaf_count_wraps :
    ∃ t, Join ((List.range (2 ^ 32)).map Leaf) 0 = some t ∧ Built t ∧
      (leafIds t).Nodup ∧ t.numLeaves = 2 ^ 32 ∧ t.LeafCount = 0 ∧
      t.LeafCount ≠ t.numLeaves := by
  obtain ⟨t, _, _, h1, h2, h3, _⟩ := star_reindex (2 ^ 32) (by norm_num) (Nat.le_refl _)
  have h4 : t.numLeaves = 2 ^ 32 := by
    unfold numLeaves
    rw [h3.length_eq, List.length_range]
  have h5 : t.LeafCount = 0 := by
    rw [Canon.leafCount t h2.canon, h4]
    exact Nat.mod_self _
  refine ⟨t, h1, h2, h3.nodup_iff.mpr (List.nodup_range _), h4, h5, ?_⟩
  rw [h4, h5]
  norm_num

/-- C15, at the example topology `(0,1,(2,3))`. -/
theorem Built_tag_witness :
    (Built exampleTopology0 ∧ exampleTopology0.MaxLeafID = 3 ∧ exampleTopology0.LeafCount = 4 ∧
      leafIds exampleTopology0 = [0, 1, 2, 3]) ∧
    ∀ v ∈ PreOrder (fun v => [v]) exampleTopology0,
      (v.MaxLeafID ∈ leafIds v ∧ ∀ x ∈ leafIds v, x ≤ v.MaxLeafID) ∧
      v.LeafCount = v.numLeaves % 2 ^ 32 ∧
      (v.numLeaves < 2 ^ 32 → v.LeafCount = v.numLeaves) ∧
      (v.IsLeaf = true → v.LeafCount = 1 ∧ v.numLeaves = 1) ∧
      v.Children.Pairwise (fun a b => a.MaxLeafID < b.MaxLeafID) :=
  ⟨⟨exampleTopology0_Built, by decide, by decide, by decide⟩,
    Built_tag exampleTopology0 exampleTopology0_Built⟩

/-! ## The calls of `TriplePreOrder` -/

/-- C16: `TriplePreOrder` applies `f_root` to the three cyclic rotations of the children of
the root and then walks each child. On a node with the stored children `c0, c1, c2` whose
subtrees have binary internal nodes, the traversal returns, and its calls are
`f_root(c0, c1, c2)`, `f_root(c1, c2, c0)`, `f_root(c2, c0, c1)`, then the calls that
`TriplePreOrderInternal` makes to `f_internal` on `c0`, on `c1` and on `c2`, and no other;
the first arguments of the three calls of `f_root` are the children in stored order, the
third arguments are a permutation of the children; and visitors with arbitrary outputs are
applied along this call sequence. In the log a call of `f_root` is tagged `inl`, a call of
`f_internal` is tagged `inr`. -/
theorem TriplePreOrder_calls (n c0 c1 c2 : Node) (hch : n.Children = [c0, c1, c2])
    (h0 : Binary c0) (h1 : Binary c1) (h2 : Binary c2) :
    TriplePreOrder (fun a b c => some [Sum.inl (a, b, c)])
        (fun p s v => some [(Sum.inr (p, s, v) : (Node × Node × Node) ⊕ (Node × Node × Node))]) n
      = some ([Sum.inl (c0, c1, c2), Sum.inl (c1, c2, c0), Sum.inl (c2, c0, c1)]
          ++ ((triples c0).map Sum.inr ++ (triples c1).map Sum.inr
            ++ (triples c2).map Sum.inr)) ∧
      TriplePreOrderInternal (fun p s v => some [(p, s, v)]) c0 = some (triples c0) ∧
      TriplePreOrderInternal (fun p s v => some [(p, s, v)]) c1 = some (triples c1) ∧
      TriplePreOrderInternal (fun p s v => some [(p, s, v)]) c2 = some (triples c2) ∧
      [(c0, c1, c2), (c1, c2, c0), (c2, c0, c1)].map (fun c => c.1) = n.Children ∧
      ([(c0, c1, c2), (c1, c2, c0), (c2, c0, c1)].map (fun c => c.2.2)).Perm n.Children ∧
      ∀ (β : Type) (f_root f_internal : Node → Node → Node → List β),
        TriplePreOrder (fun a b c => some (f_root a b c)) (fun p s v => some (f_internal p s v)) n
          = some (f_root c0 c1 c2 ++ f_root c1 c2 c0 ++ f_root c2 c0 c1
            ++ (triples c0 ++ triples c1 ++ triples c2).flatMap
              (fun c => f_internal c.1 c.2.1 c.2.2)) := by
  have hgen : ∀ (β : Type) (f_root f_internal : Node → Node → Node → List β),
      TriplePreOrder (fun a b c => some (f_root a b c)) (fun p s v => some (f_internal p s v)) n
        = some (f_root c0 c1 c2 ++ f_root c1 c2 c0 ++ f_root c2 c0 c1
          ++ (triples c0 ++ triples c1 ++ triples c2).flatMap
            (fun c => f_internal c.1 c.2.1 c.2.2)) := by
    intro β f_root f_internal
    have e0 := TriplePreOrderInternal_flatMap (fun p s v => some (f_internal p s v))
      (fun c => f_internal c.1 c.2.1 c.2.2) c0 h0 (fun _ _ => rfl)
    have e1 := TriplePreOrderInternal_flatMap (fun p s v => some (f_internal p s v))
      (fun c => f_internal c.1 c.2.1 c.2.2) c1 h1 (fun _ _ => rfl)
    have e2 := TriplePreOrderInternal_flatMap (fun p s v => some (f_internal p s v))
      (fun c => f_internal c.1 c.2.1 c.2.2) c2 h2 (fun _ _ => rfl)
    simp only [TriplePreOrder, hch, TriplePreOrderChildren, e0, e1, e2, List.flatMap_append,
      List.append_nil, List.append_assoc]
  refine ⟨?_, triples_some c0 h0, triples_some c1 h1, triples_some c2 h2, ?_, ?_, hgen⟩
  · have h := hgen _ (fun a b c => [Sum.inl (a, b, c)])
      (fun p s v => [(Sum.inr (p, s, v) : (Node × Node × Node) ⊕ (Node × Node × Node))])
    rw [h]
    have hm : ∀ l : List (Node × Node × Node),
        l.flatMap (fun c => [(Sum.inr (c.1, c.2.1, c.2.2) :
          (Node × Node × Node) ⊕ (Node × Node × Node))]) = l.map Sum.inr := by
      intro l
      induction l with
      | nil => rfl
      | cons a l ih =>
        rw [List.flatMap_cons, ih]
        rfl
    simp only [List.flatMap_append, hm, List.append_assoc, List.cons_append, List.nil_append,
      List.map_append]
  · rw [hch]
    rfl
  · rw [hch]
    exact (List.perm_append_comm : ([c2] ++ [c0, c1]).Perm ([c0, c1] ++ [c2]))

/-- C16, at the example topology `(0,1,(2,3))`: three calls of `f_root`, then the two
calls of `f_internal` below the cherry `(2,3)`. -/
theorem TriplePreOrder_calls_witness :
    TriplePreOrder (fun a b c => some [Sum.inl (a.Index, b.Index, c.Index)])
        (fun p s v => some [(Sum.inr (p.Index, s.Index, v.Index) :
          (Nat × Nat × Nat) ⊕ (Nat × Nat × Nat))]) exampleTopology0
      = some [Sum.inl (0, 1, 4), Sum.inl (1, 4, 0), Sum.inl (4, 0, 1), Sum.inr (4, 3, 2),
          Sum.inr (4, 2, 3)] ∧
    (TriplePreOrder (fun a b c => some [Sum.inl (a, b, c)])
        (fun p s v => some [(Sum.inr (p, s, v) : (Node × Node × Node) ⊕ (Node × Node × Node))])
        exampleTopology0
      = some ([Sum.inl (Leaf 0, Leaf 1, mk [Leaf 2, Leaf 3] 4 12884901890 6209831354),
          Sum.inl (Leaf 1, mk [Leaf 2, Leaf 3] 4 12884901890 6209831354, Leaf 0),
          Sum.inl (mk [Leaf 2, Leaf 3] 4 12884901890 6209831354, Leaf 0, Leaf 1)]
          ++ ((triples (Leaf 0)).map Sum.inr ++ (triples (Leaf 1)).map Sum.inr
            ++ (triples (mk [Leaf 2, Leaf 3] 4 12884901890 6209831354)).map Sum.inr)) ∧
      TriplePreOrderInternal (fun p s v => some [(p, s, v)]) (Leaf 0) = some (triples (Leaf 0)) ∧
      TriplePreOrderInternal (fun p s v => some [(p, s, v)]) (Leaf 1) = some (triples (Leaf 1)) ∧
      TriplePreOrderInternal (fun p s v => some [(p, s, v)])
          (mk [Leaf 2, Leaf 3] 4 12884901890 6209831354)
        = some (triples (mk [Leaf 2, Leaf 3] 4 12884901890 6209831354)) ∧
      [(Leaf 0, Leaf 1, mk [Leaf 2, Leaf 3] 4 12884901890 6209831354),
          (Leaf 1, mk [Leaf 2, Leaf 3] 4 12884901890 6209831354, Leaf 0),
          (mk [Leaf 2, Leaf 3] 4 12884901890 6209831354, Leaf 0, Leaf 1)].map (fun c => c.1)
        = exampleTopology0.Children ∧
      ([(Leaf 0, Leaf 1, mk [Leaf 2, Leaf 3] 4 12884901890 6209831354),
          (Leaf 1, mk [Leaf 2, Leaf 3] 4 12884901890 6209831354, Leaf 0),
          (mk [Leaf 2, Leaf 3] 4 12884901890 6209831354, Leaf 0, Leaf 1)].map
            (fun c => c.2.2)).Perm exampleTopology0.Children ∧
      ∀ (β : Type) (f_root f_internal : Node → Node → Node → List β),
        TriplePreOrder (fun a b c => some (f_root a b c)) (fun p s v => some (f_internal p s v))
            exampleTopology0
          = some (f_root (Leaf 0) (Leaf 1) (mk [Leaf 2, Leaf 3] 4 12884901890 6209831354)
            ++ f_root (Leaf 1) (mk [Leaf 2, Leaf 3] 4 12884901890 6209831354) (Leaf 0)
            ++ f_root (mk [Leaf 2, Leaf 3] 4 12884901890 6209831354) (Leaf 0) (Leaf 1)
            ++ (triples (Leaf 0) ++ triples (Leaf 1)
              ++ triples (mk [Leaf 2, Leaf 3] 4 12884901890 6209831354)).flatMap
              (fun c => f_internal c.1 c.2.1 c.2.2))) :=
  ⟨by decide, TriplePreOrder_calls exampleTopology0 (Leaf 0) (Leaf 1)
    (mk [Leaf 2, Leaf 3] 4 12884901890 6209831354) rfl (Binary.leaf _ _ _) (Binary.leaf _ _ _)
    (Binary.internal _ _ _ _ _ (Binary.leaf _ _ _) (Binary.leaf _ _ _))⟩

end Node

namespace Bitset

/-! ## Minorization of a bitset -/

theorem Minorize_cons (first : Bool) (rest : List Bool) :
    Minorize ⟨first :: rest⟩ = ⟨false :: rest.map (fun b => Bool.xor first b)⟩ := by
  cases first with
  | true =>
    simp only [Minorize, List.head?_cons, if_true, flip, List.map_cons, Bool.not_true,
      Bool.true_xor]
  | false =>
    have h : ¬ (some false = some true) := by decide
    simp only [Minorize, List.head?_cons, h, if_false, Bool.false_xor, List.map_id']

/-- C17: `Minorize` gives a split and its complement the same representative. For a
non-empty bitset `a`, minorizing `a` and minorizing `~a` give equal bitsets, of the length
of `a`, whose first bit is false; minorizing a second time changes nothing; and a bitset
whose first bit is false is left as it is. -/
theorem Minorize_canonical (a : Bitset) (hne : a.value ≠ []) :
    a.Minorize.eq a.compl.Minorize = true ∧ a.Minorize = a.compl.Minorize ∧
      a.Minorize.get 0 = some false ∧ a.Minorize.size = a.size ∧
      a.Minorize.Minorize = a.Minorize ∧
      (a.get 0 = some false → a.Minorize = a) ∧
      (a.get 0 = some true → a.Minorize = a.compl) := by
  obtain ⟨v⟩ := a
  cases v with
  | nil => exact absurd rfl hne
  | cons first rest =>
    have hc : compl ⟨first :: rest⟩ = ⟨(!first) :: rest.map (fun b => !b)⟩ := rfl
    have heq : Minorize ⟨first :: rest⟩ = Minorize (compl ⟨first :: rest⟩) := by
      rw [hc, Minorize_cons, Minorize_cons, List.map_map]
      congr 2
      apply List.map_congr_left
      intro b _
      cases first <;> cases b <;> rfl
    refine ⟨?_, heq, ?_, ?_, ?_, ?_, ?_⟩
    · rw [← heq]
      simp [eq]
    · rw [Minorize_cons]
      simp [get]
    · rw [Minorize_cons]
      simp [size]
    · rw [Minorize_cons, Minorize_cons]
      simp
    · intro h
      have hf : first = false := by
        simpa [get] using h
      subst hf
      rw [Minorize_cons]
      simp
    · intro h
      have hf : first = true := by
        simpa [get] using h
      subst hf
      rw [Minorize_cons, hc]
      simp

/-- C17, at the bitset `1011` of the test: it minorizes to `0100`, and `0100` minorizes to
`0100`. -/
theorem Minorize_canonical_witness :
    ((ofString "1011").Minorize = ofString "0100" ∧
      (ofString "0100").Minorize = ofString "0100" ∧
      (ofString "1011").compl = ofString "0100" ∧ (ofString "1011").value ≠ []) ∧
    ((ofString "1011").Minorize.eq (ofString "1011").compl.Minorize = true ∧
      (ofString "1011").Minorize = (ofString "1011").compl.Minorize ∧
      (ofString "1011").Minorize.get 0 = some false ∧
      (ofString "1011").Minorize.size = (ofString "1011").size ∧
      (ofString "1011").Minorize.Minorize = (ofString "1011").Minorize ∧
      ((ofString "1011").get 0 = some false → (ofString "1011").Minorize = ofString "1011") ∧
      ((ofString "1011").get 0 = some true →
        (ofString "1011").Minorize = (ofString "1011").compl)) :=
  ⟨⟨by decide, by decide, by decide, by decide⟩,
    Minorize_canonical (ofString "1011") (by decide)⟩

end Bitset

namespace Node

/-! ## `LevelOrder` is a breadth-first walk -/

/-- Working off a front part of the queue visits its entries in order and appends their
children, entry by entry, behind the rest of the queue. -/
theorem levelPathsLoop_append (q1 : List (List Nat × Node)) :
    ∀ q2, levelPathsLoop (q1 ++ q2)
      = q1.map Prod.fst
        ++ levelPathsLoop (q2 ++ q1.flatMap (fun e => childEntries e.1 e.2)) := by
  induction q1 with
  | nil =>
    intro q2
    simp
  | cons e q1 ih =>
    intro q2
    obtain ⟨p, n⟩ := e
    rw [List.cons_append, levelPathsLoop_cons, List.append_assoc, ih]
    simp only [List.map_cons, List.cons_append, List.flatMap_cons, List.append_assoc]

/-- The children of a visited node are visited one after the other: the positions of
the children of every node at or below an entry of the queue form a block of consecutive
entries of the visit sequence. -/
theorem levelPathsLoop_children_block (q : List (List Nat × Node)) :
    ∀ p v, (∃ e ∈ q, ∃ s, p = e.1 ++ s ∧ nodeAt e.2 s = some v) →
      ∃ a b, levelPathsLoop q = a ++ (childEntries p v).map Prod.fst ++ b := by
  induction q using levelPathsLoop.induct with
  | case1 =>
    rintro p v ⟨e, he, _⟩
    cases he
  | case2 p0 n0 rest ih =>
    rintro p v ⟨e, he, s, e1, hs⟩
    rw [levelPathsLoop_cons]
    have hrec : (∃ e ∈ rest ++ childEntries p0 n0, ∃ s, p = e.1 ++ s ∧ nodeAt e.2 s = some v) →
        ∃ a b, p0 :: levelPathsLoop (rest ++ childEntries p0 n0)
          = a ++ (childEntries p v).map Prod.fst ++ b := by
      intro h
      obtain ⟨a, b, hab⟩ := ih p v h
      exact ⟨p0 :: a, b, by rw [hab]; rfl⟩
    rcases List.mem_cons.mp he with h1 | h1
    · rw [h1] at e1 hs
      simp only at e1 hs
      cases s with
      | nil =>
        rw [List.append_nil] at e1
        rw [nodeAt_nil] at hs
        have hv : n0 = v := Option.some.inj hs
        subst hv
        subst e1
        refine ⟨p :: rest.map Prod.fst,
          levelPathsLoop (rest.flatMap (fun e => childEntries e.1 e.2)
            ++ (childEntries p n0).flatMap (fun e => childEntries e.1 e.2)), ?_⟩
        rw [levelPathsLoop_append rest, levelPathsLoop_append (childEntries p n0)]
        simp only [List.cons_append, List.append_assoc]
      | cons j s' =>
        rw [nodeAt_cons] at hs
        cases hjc : n0.Children[j]? with
        | none => rw [hjc] at hs; cases hs
        | some c =>
          rw [hjc, Option.some_bind] at hs
          apply hrec
          refine ⟨(p0 ++ [j], c), List.mem_append_right _
            ((mem_childEntries p0 n0 _).mpr ⟨j, c, hjc, rfl⟩), s', ?_, hs⟩
          rw [e1]
          simp
    · exact hrec ⟨e, List.mem_append_left _ h1, s, e1, hs⟩

/-- The queue visits the positions in non-decreasing order of depth, when the depths of
its entries do not decrease from front to back and differ by at most one. -/
theorem levelPathsLoop_depths (q : List (List Nat × Node)) :
    q.Pairwise (fun e e' => e.1.length ≤ e'.1.length) →
      (∀ e ∈ q, ∀ e' ∈ q, e'.1.length ≤ e.1.length + 1) →
      (levelPathsLoop q).Pairwise (fun r r' => r.length ≤ r'.length) := by
  induction q using levelPathsLoop.induct with
  | case1 =>
    intro _ _
    rw [levelPathsLoop_nil]
    exact List.Pairwise.nil
  | case2 p n rest ih =>
    intro hs hw
    rw [List.pairwise_cons] at hs
    obtain ⟨hp, hrest⟩ := hs
    have hchild : ∀ c ∈ childEntries p n, c.1.length = p.length + 1 := by
      intro c hc
      obtain ⟨j, d, _, e⟩ := (mem_childEntries p n c).mp hc
      rw [e]
      simp
    rw [levelPathsLoop_cons, List.pairwise_cons]
    constructor
    · intro r hr
      obtain ⟨e, he, s, e1, _⟩ := (mem_levelPathsLoop _ r).mp hr
      have hle : p.length ≤ e.1.length := by
        rcases List.mem_append.mp he with h1 | h1
        · exact hp e h1
        · rw [hchild e h1]
          omega
      rw [e1, List.length_append]
      omega
    · apply ih
      · rw [List.pairwise_append]
        refine ⟨hrest, ?_, ?_⟩
        · rw [List.pairwise_iff_forall_sublist]
          intro a b hab
          have ha := hchild a (hab.subset (List.mem_cons_self _ _))
          have hb := hchild b (hab.subset (List.mem_cons_of_mem _ (List.mem_singleton_self _)))
          omega
        · intro e he c hc
          have h1 := hw (p, n) (List.mem_cons_self _ _) e (List.mem_cons_of_mem _ he)
          have h2 := hchild c hc
          simp only at h1
          omega
      · intro e he e' he'
        rcases List.mem_append.mp he with h1 | h1 <;> rcases List.mem_append.mp he' with h2 | h2
        · exact hw e (List.mem_cons_of_mem _ h1) e' (List.mem_cons_of_mem _ h2)
        · have h3 : p.length ≤ e.1.length := hp e h1
          have h4 := hchild e' h2
          omega
        · have := hw (p, n) (List.mem_cons_self _ _) e' (List.mem_cons_of_mem _ h2)
          have := hchild e h1
          simp only at *
          omega
        · have := hchild e h1
          have := hchild e' h2
          omega

theorem mem_PreOrder_of_nodeAt (t : Node) (p : List Nat) (v : Node)
    (h : nodeAt t p = some v) : v ∈ PreOrder (fun v => [v]) t := by
  have hp : p ∈ prePaths t := (mem_prePaths t p).mpr (by rw [h]; rfl)
  have h1 : some v ∈ (prePaths t).map (nodeAt t) := by
    rw [← h]
    exact List.mem_map_of_mem _ hp
  rw [map_nodeAt_prePaths] at h1
  obtain ⟨w, hw, e⟩ := List.mem_map.mp h1
  rw [← Option.some.inj e]
  exact hw

/-- C18: `LevelOrder` is a terminating breadth-first walk. The loop over the work queue
makes exactly as many rounds as the topology has nodes. There is an enumeration `level` of
the positions of the topology, without repetition, such that the visit sequence is the
nodes at these positions, in order; it starts at the root; the depths (the lengths of the
positions) do not decrease along it; and for every node `v`, at the position `p`, the
positions `p ++ [0], p ++ [1], ...` of its children are consecutive entries of the
enumeration, at which the children of `v` are visited in stored order. In a built topology
the stored order of the children is the strictly ascending order of max leaf id. -/
theorem LevelOrder_breadth_first (t : Node) :
    (LevelOrder (fun _ => [()]) t).length = t.size ∧
    ∃ level : List (List Nat),
      (LevelOrder (fun v => [v]) t).map some = level.map (nodeAt t) ∧
      level.Nodup ∧ (∀ p, p ∈ level ↔ (nodeAt t p).isSome = true) ∧
      level.head? = some [] ∧ (LevelOrder (fun v => [v]) t).head? = some t ∧
      level.Pairwise (fun r r' => r.length ≤ r'.length) ∧
      (∀ p v, nodeAt t p = some v →
        (∃ a b, level = a ++ (List.range v.Children.length).map (fun j => p ++ [j]) ++ b) ∧
        ((List.range v.Children.length).map (fun j => p ++ [j])).map (nodeAt t)
          = v.Children.map some) ∧
      (Built t → ∀ p v, nodeAt t p = some v →
        v.Children.Pairwise (fun a b => a.MaxLeafID < b.MaxLeafID)) := by
  have hlevel_map := map_nodeAt_levelPathsLoop t [([], t)]
    (fun e he => by rw [List.mem_singleton.mp he]; exact nodeAt_nil t)
  have hlevel_mem : ∀ p, p ∈ levelPathsLoop [([], t)] ↔ (nodeAt t p).isSome = true := by
    intro p
    rw [mem_levelPathsLoop]
    constructor
    · rintro ⟨e, he, s, e1, hs⟩
      rw [List.mem_singleton.mp he] at e1 hs
      rw [e1]
      exact hs
    · intro hs
      exact ⟨([], t), List.mem_singleton.mpr rfl, p, rfl, hs⟩
  have hlevel_nodup : (levelPathsLoop [([], t)]).Nodup :=
    levelPathsLoop_nodup _ (List.pairwise_singleton _ _)
  have hperm_paths : (levelPathsLoop [([], t)]).Perm (prePaths t) :=
    (List.perm_ext_iff_of_nodup hlevel_nodup (prePaths_nodup t)).mpr
      (fun p => (hlevel_mem p).trans (mem_prePaths t p).symm)
  have hlen : (LevelOrder (fun v => [v]) t).length = t.size := by
    have h1 := congrArg List.length hlevel_map
    have h2 := congrArg List.length (map_nodeAt_prePaths t)
    simp only [List.length_map, List.map_cons, List.map_nil] at h1 h2
    rw [LevelOrder, ← h1, hperm_paths.length_eq, h2, PreOrder_length]
  refine ⟨?_, levelPathsLoop [([], t)], hlevel_map.symm, hlevel_nodup, hlevel_mem, ?_, ?_, ?_,
    ?_, ?_⟩
  · rw [LevelOrder, LevelOrderLoop_flatMap, ← hlen, LevelOrder]
    generalize LevelOrderLoop (fun v => [v]) [t] = l
    induction l with
    | nil => rfl
    | cons a l ih =>
      rw [List.flatMap_cons, List.length_append, ih]
      simp only [List.length_cons, List.length_nil]
      omega
  · rw [levelPathsLoop_cons]
    rfl
  · rw [LevelOrder, LevelOrderLoop_cons]
    rfl
  · apply levelPathsLoop_depths
    · exact List.pairwise_singleton _ _
    · intro e he e' he'
      rw [List.mem_singleton.mp he, List.mem_singleton.mp he']
      exact Nat.le_succ _
  · intro p v hpv
    constructor
    · obtain ⟨a, b, hab⟩ := levelPathsLoop_children_block [([], t)] p v
        ⟨([], t), List.mem_singleton.mpr rfl, p, rfl, hpv⟩
      rw [childEntries_fst] at hab
      exact ⟨a, b, hab⟩
    · rw [List.map_map]
      have h1 : v.Children.map some
          = (List.range v.Children.length).map (fun j => v.Children[j]?) := by
        apply List.ext_getElem?
        intro j
        simp only [List.getElem?_map, List.getElem?_range]
        by_cases hj : j < v.Children.length
        · rw [List.getElem?_eq_getElem hj, List.getElem?_eq_getElem (by simpa using hj)]
          simp [hj]
        · rw [List.getElem?_eq_none (by omega), List.getElem?_eq_none (by simpa using hj)]
          rfl
      rw [h1]
      apply List.map_congr_left
      intro j _
      show nodeAt t (p ++ [j]) = v.Children[j]?
      rw [nodeAt_append, hpv, Option.some_bind, nodeAt_cons]
      cases v.Children[j]? with
      | none => rfl
      | some c => rfl
  · intro hb p v hpv
    exact ((hb.canon.of_mem v (mem_PreOrder_of_nodeAt t p v hpv)).1).children_sorted

/-- C18, at the example topology `(0,1,(2,3))`: the walk visits the root (index 5), its
children (indices 0, 1, 4), then the children (indices 2, 3) of the cherry. -/
theorem LevelOrder_breadth_first_witness :
    LevelOrder (fun v => [v.Index]) exampleTopology0 = [5, 0, 1, 4, 2, 3] ∧
    ((LevelOrder (fun _ => [()]) exampleTopology0).length = exampleTopology0.size ∧
    ∃ level : List (List Nat),
      (LevelOrder (fun v => [v]) exampleTopology0).map some
        = level.map (nodeAt exampleTopology0) ∧
      level.Nodup ∧ (∀ p, p ∈ level ↔ (nodeAt exampleTopology0 p).isSome = true) ∧
      level.head? = some [] ∧
      (LevelOrder (fun v => [v]) exampleTopology0).head? = some exampleTopology0 ∧
      level.Pairwise (fun r r' => r.length ≤ r'.length) ∧
      (∀ p v, nodeAt exampleTopology0 p = some v →
        (∃ a b, level = a ++ (List.range v.Children.length).map (fun j => p ++ [j]) ++ b) ∧
        ((List.range v.Children.length).map (fun j => p ++ [j])).map (nodeAt exampleTopology0)
          = v.Children.map some) ∧
      (Built exampleTopology0 → ∀ p v, nodeAt exampleTopology0 p = some v →
        v.Children.Pairwise (fun a b => a.MaxLeafID < b.MaxLeafID))) :=
  ⟨by simp [LevelOrder, LevelOrderLoop_cons, LevelOrderLoop_nil, exampleTopology0, Children,
      Leaf, Index],
    LevelOrder_breadth_first exampleTopology0⟩

/-! ## When the insertion into the tag map fails -/

theorem leafIds_sublist_of_mem (n : Node) :
    ∀ v ∈ PreOrder (fun v => [v]) n, (leafIds v).Sublist (leafIds n) := by
  induction n using Node.induct with
  | step cs i t h ih =>
    intro v hv
    rcases (mem_PreOrder _ _ _ _ _).mp hv with e | ⟨c, hc, hvc⟩
    · rw [e]
    · have he : cs.isEmpty = false := by
        cases cs with
        | nil => cases hc
        | cons _ _ => rfl
      simp only [leafIds, he, Bool.false_eq_true, if_false, leafIdsChildren_eq]
      exact (ih c hc v hvc).trans (List.sublist_flatten_of_mem (List.mem_map_of_mem _ hc))

theorem numLeaves_le_of_mem (n : Node) :
    ∀ v ∈ PreOrder (fun v => [v]) n, v.numLeaves ≤ n.numLeaves :=
  fun v hv => (leafIds_sublist_of_mem n v hv).length_le

theorem numLeaves_pos (n : Node) : 1 ≤ n.numLeaves := by
  have := leafIds_ne_nil n
  unfold numLeaves
  cases h : leafIds n with
  | nil => exact absurd h this
  | cons _ _ => simp

/-- A child of a node with at least two children has fewer leaves than the node. -/
theorem numLeaves_child_lt (cs : List Node) (i t h : Nat) (h2 : 2 ≤ cs.length) :
    ∀ c ∈ cs, c.numLeaves < (mk cs i t h).numLeaves := by
  intro c hc
  have hne : cs ≠ [] := by
    intro e
    rw [e] at hc
    cases hc
  rw [numLeaves_mk cs i t h hne]
  obtain ⟨l1, l2, e⟩ := List.append_of_mem hc
  rw [e, List.map_append, List.map_cons, List.sum_append, List.sum_cons]
  rw [e, List.length_append, List.length_cons] at h2
  cases l1 with
  | nil =>
    cases l2 with
    | nil => simp at h2
    | cons d l2 =>
      have := numLeaves_pos d
      simp only [List.map_nil, List.sum_nil, List.map_cons, List.sum_cons]
      omega
  | cons d l1 =>
    have := numLeaves_pos d
    simp only [List.map_cons, List.sum_cons]
    omega

/-- A canonical topology whose leaves carry pairwise distinct taxon ids has at most
`2 ^ 32` leaves. -/
theorem Canon.numLeaves_le {n : Node} (hc : Canon n) (hd : (leafIds n).Nodup) :
    n.numLeaves ≤ 2 ^ 32 := by
  have hsub : leafIds n ⊆ List.range (2 ^ 32) := by
    intro x hx
    exact List.mem_range.mpr (lt_of_le_of_lt (hc.maxLeafID.2 x hx) (MaxLeafID_lt n))
  have := (List.subperm_of_subset hd hsub).length_le
  rw [List.length_range] at this
  exact this

theorem PackInts_unpack (a b : Nat) :
    PackInts (UnpackFirstInt (PackInts a b)) (UnpackSecondInt (PackInts a b)) = PackInts a b := by
  rw [UnpackFirstInt_PackInts, UnpackSecondInt_PackInts]
  unfold PackInts
  rw [Nat.mod_mod, Nat.mod_mod]

theorem Canon.tag_eq {n : Node} (hc : Canon n) : n.Tag = PackInts n.MaxLeafID n.LeafCount := by
  cases n with
  | mk cs i t h =>
    have key : ∃ a b, t = PackInts a b := by
      by_cases hne : cs = []
      · subst hne
        obtain ⟨leaf_id, _, ht, _⟩ := hc.leaf_inv
        exact ⟨_, _, ht⟩
      · obtain ⟨_, _, ⟨back, _, ht⟩, _⟩ := hc.internal_inv hne
        exact ⟨_, _, ht⟩
    obtain ⟨a, b, ht⟩ := key
    simp only [MaxLeafID, LeafCount, Tag_mk]
    rw [ht, PackInts_unpack]

theorem tags_nodup_children (cs : List Node)
    (ih : ∀ c ∈ cs, Canon c → (leafIds c).Nodup →
      (∀ v ∈ PreOrder (fun v => [v]) c, v.Children.length ≠ 1) →
      ((PreOrder (fun v => [v]) c).map Tag).Nodup)
    (hcan : ∀ c ∈ cs, Canon c) (hd : (leafIdsChildren cs).Nodup)
    (hu : ∀ c ∈ cs, ∀ v ∈ PreOrder (fun v => [v]) c, v.Children.length ≠ 1) :
    ((PreOrderChildren (fun v => [v]) cs).map Tag).Nodup := by
  induction cs with
  | nil => exact List.nodup_nil
  | cons c cs ihl =>
    simp only [leafIdsChildren, List.nodup_append] at hd
    obtain ⟨hd1, hd2, hdis⟩ := hd
    rw [PreOrderChildren_cons, List.map_append, List.nodup_append]
    refine ⟨ih c (List.mem_cons_self _ _) (hcan c (List.mem_cons_self _ _)) hd1
        (hu c (List.mem_cons_self _ _)),
      ihl (fun d hd => ih d (List.mem_cons_of_mem _ hd))
        (fun d hd => hcan d (List.mem_cons_of_mem _ hd)) hd2
        (fun d hd => hu d (List.mem_cons_of_mem _ hd)), ?_⟩
    intro x hx1 hx2
    obtain ⟨u, hu1, eu⟩ := List.mem_map.mp hx1
    obtain ⟨w, hw1, ew⟩ := List.mem_map.mp hx2
    obtain ⟨d, hdm, hwd⟩ := (mem_PreOrderChildren w cs).mp hw1
    have hcu := (hcan c (List.mem_cons_self _ _)).of_mem u hu1
    have hcw := (hcan d (List.mem_cons_of_mem _ hdm)).of_mem w hwd
    have hm : u.MaxLeafID = w.MaxLeafID := by
      unfold MaxLeafID
      rw [eu, ew]
    have h1 : u.MaxLeafID ∈ leafIds c := hcu.2 hcu.1.maxLeafID.1
    have h2 : u.MaxLeafID ∈ leafIdsChildren cs := by
      rw [hm]
      exact (mem_leafIdsChildren _ cs).mpr ⟨d, hdm, hcw.2 hcw.1.maxLeafID.1⟩
    exact hdis h1 h2

/-- In a canonical topology with pairwise distinct taxon ids in which no node has exactly
one child, no two nodes have the same tag. -/
theorem tags_nodup (n : Node) :
    Canon n → (leafIds n).Nodup →
      (∀ v ∈ PreOrder (fun v => [v]) n, v.Children.length ≠ 1) →
      ((PreOrder (fun v => [v]) n).map Tag).Nodup := by
  induction n using Node.induct with
  | step cs i t h ih =>
    intro hc hd hu
    have hself := hu _ (self_mem_PreOrder _)
    rw [Children_mk] at hself
    have hsub : ∀ c ∈ cs, ∀ v ∈ PreOrder (fun v => [v]) c, v.Children.length ≠ 1 :=
      fun c hcm v hv => hu v ((mem_PreOrder _ _ _ _ _).mpr (Or.inr ⟨c, hcm, hv⟩))
    have hP : PreOrder (fun v => [v]) (mk cs i t h)
        = mk cs i t h :: PreOrderChildren (fun v => [v]) cs := rfl
    rw [hP, List.map_cons, List.nodup_cons]
    by_cases hne : cs = []
    · subst hne
      exact ⟨by simp [PreOrderChildren], List.nodup_nil⟩
    · have he : cs.isEmpty = false := by
        cases cs with
        | nil => exact absurd rfl hne
        | cons _ _ => rfl
      have hdc : (leafIdsChildren cs).Nodup := by
        simpa only [leafIds, he, Bool.false_eq_true, if_false] using hd
      have h2 : 2 ≤ cs.length := by
        have : cs.length ≠ 0 := fun e => hne (List.length_eq_zero.mp e)
        omega
      refine ⟨?_, tags_nodup_children cs ih hc.children hdc hsub⟩
      intro hmem
      obtain ⟨u, hu1, eu⟩ := List.mem_map.mp hmem
      obtain ⟨c, hcm, huc⟩ := (mem_PreOrderChildren u cs).mp hu1
      have hcu := (hc.children c hcm).of_mem u huc
      have e1 : u.LeafCount = (mk cs i t h).LeafCount := by
        unfold LeafCount
        rw [eu]
      rw [Canon.leafCount u hcu.1, Canon.leafCount _ hc] at e1
      have h3 := numLeaves_le_of_mem c u huc
      have h4 := numLeaves_child_lt cs i t h h2 c hcm
      have h5 := hc.numLeaves_le hd
      have h6 := numLeaves_pos u
      omega

theorem PostOrder_sublist_of_mem {β : Type} (f : Node → List β) (n : Node) :
    ∀ v ∈ PreOrder (fun v => [v]) n, (PostOrder f v).Sublist (PostOrder f n) := by
  induction n using Node.induct with
  | step cs i t h ih =>
    intro v hv
    rcases (mem_PreOrder _ _ _ _ _).mp hv with e | ⟨c, hc, hvc⟩
    · rw [e]
    · have h1 : (PostOrder f c).Sublist (PostOrderChildren f cs) := by
        rw [PostOrderChildren_eq]
        exact List.sublist_flatten_of_mem (List.mem_map_of_mem _ hc)
      have h2 : (PostOrderChildren f cs).Sublist (PostOrder f (mk cs i t h)) := by
        simp only [PostOrder]
        exact List.sublist_append_left _ _
      exact ((ih c hc v hvc).trans h1).trans h2

/-- A canonical node with exactly one child has the tag of that child. -/
theorem Canon.unary_tag {v c : Node} (hc : Canon v) (hch : v.Children = [c]) :
    v.Tag = c.Tag := by
  cases v with
  | mk cs i t h =>
    rw [Children_mk] at hch
    subst hch
    obtain ⟨hcc, _, ⟨back, hback, ht⟩, _⟩ := hc.internal_inv (by simp)
    have hb : back = c := by
      simp only [List.getLast?_singleton, Option.some.injEq] at hback
      exact hback.symm
    rw [Tag_mk, ht, hb, (hcc c (List.mem_singleton_self _)).tag_eq, sumLeafCount_eq]
    simp only [List.map_cons, List.map_nil, List.sum_cons, List.sum_nil, Nat.add_zero]
    rw [Nat.mod_eq_of_lt (LeafCount_lt c)]

/-- The tags in postorder hold a tag twice when some node has exactly one child and the
tag of that child. -/
theorem tags_not_nodup_of_unary (n v c : Node) (hv : v ∈ PreOrder (fun v => [v]) n)
    (hch : v.Children = [c]) (ht : v.Tag = c.Tag) :
    ¬ (PostOrder (fun v => [v.Tag]) n).Nodup := by
  intro hnd
  have h1 := hnd.sublist (PostOrder_sublist_of_mem (fun v => [v.Tag]) n v hv)
  cases v with
  | mk cs i t h =>
    rw [Children_mk] at hch
    subst hch
    cases c with
    | mk ds j u g =>
      simp only [PostOrder, PostOrderChildren, List.append_nil, Tag_mk] at h1 ht
      rw [ht, List.append_assoc] at h1
      have h2 := h1.sublist (List.sublist_append_right _ _)
      simp at h2

/-- C19: with pairwise distinct taxon ids the insertion into the tag map fails exactly on
unary internal nodes. For a topology built with `Leaf` and `Join` whose leaves carry
pairwise distinct taxon ids: when no node has exactly one child, the tags of the nodes are
pairwise distinct, `Reindex` succeeds, and the returned map has one entry per node, keyed
by the tags of the nodes in postorder; when a node has exactly one child, the node and the
child have the same tag and `Reindex` fails; so `Reindex` fails if and only if some node
has exactly one child. -/
theorem Reindex_fails_iff_unary (t : Node) (hb : Built t) (hd : (leafIds t).Nodup) :
    ((∀ v ∈ PreOrder (fun v => [v]) t, v.Children.length ≠ 1) →
      ((PreOrder (fun v => [v]) t).map Tag).Nodup ∧
      ∃ t' m, Reindex t = some (t', m) ∧ m.length = t.size ∧ (m.map Prod.fst).Nodup ∧
        m.map Prod.fst = (PostOrder (fun v => [v]) t).map Tag) ∧
    (∀ v ∈ PreOrder (fun v => [v]) t, ∀ c, v.Children = [c] →
      v.Tag = c.Tag ∧ Reindex t = none) ∧
    (Reindex t = none ↔ ∃ v ∈ PreOrder (fun v => [v]) t, v.Children.length = 1) := by
  have hc := hb.canon
  have hgood : (∀ v ∈ PreOrder (fun v => [v]) t, v.Children.length ≠ 1) →
      ((PreOrder (fun v => [v]) t).map Tag).Nodup ∧
      ∃ t' m, Reindex t = some (t', m) ∧ m.length = t.size ∧ (m.map Prod.fst).Nodup ∧
        m.map Prod.fst = (PostOrder (fun v => [v]) t).map Tag := by
    intro hu
    have h1 := tags_nodup t hc hd hu
    have h2 : (PostOrder (fun v => [v.Tag]) t).Nodup := by
      rw [PostOrder_map]
      exact ((PostOrder_perm_PreOrder t).map Tag).nodup_iff.mpr h1
    refine ⟨h1, _, _, by rw [Reindex_eq, if_pos h2], ?_, ?_, ?_⟩
    · rw [PostOrder_map, List.length_map, (PostOrder_perm_PreOrder _).length_eq,
        PreOrder_length, (renumber_counts t _).1]
    · rw [postEntries_keys, postTags_renumber]
      exact h2
    · rw [postEntries_keys, postTags_renumber, PostOrder_map]
  have hbad : ∀ v ∈ PreOrder (fun v => [v]) t, ∀ c, v.Children = [c] →
      v.Tag = c.Tag ∧ Reindex t = none := by
    intro v hv c hch
    have ht := (hc.of_mem v hv).1.unary_tag hch
    refine ⟨ht, ?_⟩
    rw [Reindex_eq, if_neg (tags_not_nodup_of_unary t v c hv hch ht)]
  refine ⟨hgood, hbad, ?_, ?_⟩
  · intro hnone
    by_contra hcon
    obtain ⟨_, t', m, hr, _⟩ := hgood (fun v hv hl => hcon ⟨v, hv, hl⟩)
    rw [hr] at hnone
    cases hnone
  · rintro ⟨v, hv, hl⟩
    obtain ⟨c, hch⟩ := List.length_eq_one.mp hl
    exact (hbad v hv c hch).2

/-- C19, at the example topology `(0,1,(2,3))`, without unary nodes, and at the unary chain
over the leaf 3, on which `Reindex` fails. -/
theorem Reindex_fails_iff_unary_witness :
    ((Join [Leaf 3] 0).map (fun n => (n.Tag, n.Children.map Tag, (Reindex n).isSome))
        = some (12884901889, [12884901889], false) ∧
      (leafIds exampleTopology0).Nodup ∧ (Reindex exampleTopology0).isSome = true) ∧
    (((∀ v ∈ PreOrder (fun v => [v]) exampleTopology0, v.Children.length ≠ 1) →
      ((PreOrder (fun v => [v]) exampleTopology0).map Tag).Nodup ∧
      ∃ t' m, Reindex exampleTopology0 = some (t', m) ∧ m.length = exampleTopology0.size ∧
        (m.map Prod.fst).Nodup ∧
        m.map Prod.fst = (PostOrder (fun v => [v]) exampleTopology0).map Tag) ∧
    (∀ v ∈ PreOrder (fun v => [v]) exampleTopology0, ∀ c, v.Children = [c] →
      v.Tag = c.Tag ∧ Reindex exampleTopology0 = none) ∧
    (Reindex exampleTopology0 = none ↔
      ∃ v ∈ PreOrder (fun v => [v]) exampleTopology0, v.Children.length = 1)) :=
  ⟨⟨by decide, by decide, by decide⟩,
    Reindex_fails_iff_unary exampleTopology0 exampleTopology0_Built (by decide)⟩

/-! ## The indices set by `Detrifurcate` -/

/-- Reindexing from the same counter a second time changes nothing. -/
theorem renumber_renumber (n : Node) (nx : Nat) :
    renumber (renumber n nx) nx = renumber n nx := by
  rw [← (eraseIndex_invariants (renumber n nx)).2.2 nx, eraseIndex_renumber,
    (eraseIndex_invariants n).2.2 nx]

theorem renumber_LeafCount (n : Node) (nx : Nat) : (renumber n nx).LeafCount = n.LeafCount := by
  unfold LeafCount
  rw [renumber_Tag]

theorem renumber_numLeaves (n : Node) (nx : Nat) : (renumber n nx).numLeaves = n.numLeaves := by
  unfold numLeaves
  rw [(renumber_counts n nx).2.2]

/-- A reindexed topology with three children under the root, taken apart. -/
theorem renumber_three (t0 : Node) (nx : Nat) (c0 c1 c2 : Node)
    (hch : (renumber t0 nx).Children = [c0, c1, c2]) :
    ∃ d0 d1 d2 i tg h, t0 = mk [d0, d1, d2] i tg h ∧ c0 = renumber d0 nx ∧
      c1 = renumber d1 (nx + numInternal d0) ∧
      c2 = renumber d2 (nx + numInternal d0 + numInternal d1) ∧
      renumber t0 nx
        = mk [c0, c1, c2] (nx + numInternal d0 + numInternal d1 + numInternal d2) tg h := by
  cases t0 with
  | mk cs i tg h =>
    cases cs with
    | nil => simp [renumber, Children] at hch
    | cons d0 cs =>
      cases cs with
      | nil => simp [renumber, renumberChildren, Children] at hch
      | cons d1 cs =>
        cases cs with
        | nil => simp [renumber, renumberChildren, Children] at hch
        | cons d2 cs =>
          cases cs with
          | cons d3 cs => simp [renumber, renumberChildren, Children] at hch
          | nil =>
            simp only [renumber, renumberChildren, Children, List.isEmpty_cons,
              Bool.false_eq_true, if_false, List.cons.injEq, and_true] at hch
            obtain ⟨e0, e1, e2⟩ := hch
            refine ⟨d0, d1, d2, i, tg, h, rfl, e0.symm, e1.symm, e2.symm, ?_⟩
            simp only [renumber, renumberChildren, List.isEmpty_cons, Bool.false_eq_true,
              if_false, numInternalChildren, e0, e1, e2]
            congr 1
            omega

theorem MaxLeafID_le_of_mem {n : Node} (hc : Canon n) :
    ∀ v ∈ PreOrder (fun v => [v]) n, v.MaxLeafID ≤ n.MaxLeafID := by
  intro v hv
  obtain ⟨hcv, hsub⟩ := hc.of_mem v hv
  exact hc.maxLeafID.2 _ (hsub hcv.maxLeafID.1)

/-- When no two nodes of a canonical topology have the same tag, no two leaves carry the
same taxon id. -/
theorem leafIds_nodup_of_tags (n : Node) (hc : Canon n)
    (htags : (PostOrder (fun v => [v.Tag]) n).Nodup) : (leafIds n).Nodup := by
  rw [PostOrder_map] at htags
  have h1 : ((PreOrder (fun v => [v]) n).map Tag).Nodup :=
    ((PostOrder_perm_PreOrder n).map Tag).nodup_iff.mp htags
  have h2 : (((PreOrder (fun v => [v]) n).filter IsLeaf).map Tag).Nodup :=
    h1.sublist ((List.filter_sublist _).map Tag)
  have h3 : ((PreOrder (fun v => [v]) n).filter IsLeaf).map Tag
      = (((PreOrder (fun v => [v]) n).filter IsLeaf).map MaxLeafID).map
        (fun i => PackInts i 1) := by
    rw [List.map_map]
    apply List.map_congr_left
    intro v hv
    obtain ⟨hv1, hv2⟩ := List.mem_filter.mp hv
    exact (hc.of_mem v hv1).1.leaf_Tag hv2
  rw [h3, leafIds_eq_filter] at h2
  exact h2.of_map _

/-- The tags of the topology that `Detrifurcate` builds from a reindexed canonical
topology `(d0, d1, d2)` with pairwise distinct tags: the new root has the tag of the old
root, and the tags are again pairwise distinct. -/
theorem detrifurcate_tags (d0 d1 d2 : Node) (i tg h : Nat)
    (hc : Canon (mk [d0, d1, d2] i tg h))
    (htags : (PostOrder (fun v => [v.Tag]) (mk [d0, d1, d2] i tg h)).Nodup)
    (a0 a1 a2 i12 h12 inew hnew : Nat) :
    (mk [renumber d1 a1, renumber d2 a2] i12
        (PackInts (renumber d2 a2).MaxLeafID (sumLeafCount [renumber d1 a1, renumber d2 a2]))
        h12).MaxLeafID = (mk [d0, d1, d2] i tg h).MaxLeafID ∧
    PackInts (mk [renumber d1 a1, renumber d2 a2] i12
        (PackInts (renumber d2 a2).MaxLeafID (sumLeafCount [renumber d1 a1, renumber d2 a2]))
        h12).MaxLeafID
      (sumLeafCount [renumber d0 a0, mk [renumber d1 a1, renumber d2 a2] i12
        (PackInts (renumber d2 a2).MaxLeafID (sumLeafCount [renumber d1 a1, renumber d2 a2]))
        h12]) = tg ∧
    (PostOrder (fun v => [v.Tag]) (mk [renumber d0 a0, mk [renumber d1 a1, renumber d2 a2] i12
        (PackInts (renumber d2 a2).MaxLeafID (sumLeafCount [renumber d1 a1, renumber d2 a2]))
        h12] inew tg hnew)).Nodup := by
  obtain ⟨hch, hsorted, ⟨back, hback, htg⟩, _⟩ := hc.internal_inv (by simp)
  have hb : back = d2 := by
    simp only [List.getLast?_cons_cons, List.getLast?_singleton, Option.some.injEq] at hback
    exact hback.symm
  subst hb
  have hc0 := hch d0 (by simp)
  have hc1 := hch d1 (by simp)
  have hc2 := hch back (by simp)
  simp only [List.pairwise_cons, List.mem_cons, List.mem_singleton, forall_eq_or_imp, forall_eq,
    List.not_mem_nil, false_implies, implies_true, List.Pairwise.nil, and_true, keyLT]
    at hsorted
  obtain ⟨⟨s01, s02⟩, s12⟩ := hsorted
  -- the numbers of leaves
  have hd := leafIds_nodup_of_tags _ hc htags
  have hle := hc.numLeaves_le hd
  rw [numLeaves_mk _ _ _ _ (by simp)] at hle
  simp only [List.map_cons, List.map_nil, List.sum_cons, List.sum_nil, Nat.add_zero] at hle
  have p0 := numLeaves_pos d0
  have p1 := numLeaves_pos d1
  have p2 := numLeaves_pos back
  have l0 := Canon.leafCount d0 hc0
  have l1 := Canon.leafCount d1 hc1
  have l2 := Canon.leafCount back hc2
  have hs12 : sumLeafCount [renumber d1 a1, renumber back a2]
      = d1.numLeaves + back.numLeaves := by
    rw [sumLeafCount_eq]
    simp only [List.map_cons, List.map_nil, List.sum_cons, List.sum_nil, Nat.add_zero,
      renumber_LeafCount]
    omega
  have hs3 : sumLeafCount [d0, d1, back]
      = (d0.numLeaves + d1.numLeaves + back.numLeaves) % 2 ^ 32 := by
    rw [sumLeafCount_eq]
    simp only [List.map_cons, List.map_nil, List.sum_cons, List.sum_nil, Nat.add_zero]
    omega
  have hmax12 : (mk [renumber d1 a1, renumber back a2] i12
      (PackInts (renumber back a2).MaxLeafID (sumLeafCount [renumber d1 a1, renumber back a2]))
      h12).MaxLeafID = back.MaxLeafID := by
    simp only [MaxLeafID, Tag_mk, UnpackFirstInt_PackInts, renumber_Tag]
    exact Nat.mod_eq_of_lt (MaxLeafID_lt back)
  have hmax : (mk [d0, d1, back] i tg h).MaxLeafID = back.MaxLeafID := by
    simp only [MaxLeafID, Tag_mk, htg, UnpackFirstInt_PackInts]
    exact Nat.mod_eq_of_lt (MaxLeafID_lt back)
  have hlc12 : (mk [renumber d1 a1, renumber back a2] i12
      (PackInts (renumber back a2).MaxLeafID (sumLeafCount [renumber d1 a1, renumber back a2]))
      h12).LeafCount = d1.numLeaves + back.numLeaves := by
    simp only [LeafCount, Tag_mk, UnpackSecondInt_PackInts, hs12]
    omega
  have htag : PackInts (mk [renumber d1 a1, renumber back a2] i12
        (PackInts (renumber back a2).MaxLeafID (sumLeafCount [renumber d1 a1, renumber back a2]))
        h12).MaxLeafID
      (sumLeafCount [renumber d0 a0, mk [renumber d1 a1, renumber back a2] i12
        (PackInts (renumber back a2).MaxLeafID (sumLeafCount [renumber d1 a1, renumber back a2]))
        h12]) = tg := by
    rw [hmax12, htg, hs3, sumLeafCount_eq]
    simp only [List.map_cons, List.map_nil, List.sum_cons, List.sum_nil, Nat.add_zero,
      renumber_LeafCount, hlc12]
    congr 1
    omega
  refine ⟨by rw [hmax12, hmax], htag, ?_⟩
  -- the tags of the new topology are the old tags and the tag of the new internal node
  have hold : PostOrder (fun v => [v.Tag]) (mk [d0, d1, back] i tg h)
      = (PostOrder (fun v => [v.Tag]) d0 ++ (PostOrder (fun v => [v.Tag]) d1
        ++ PostOrder (fun v => [v.Tag]) back)) ++ [tg] := by
    simp only [PostOrder, PostOrderChildren, List.append_nil, List.append_assoc, Tag_mk]
  have hnewl : PostOrder (fun v => [v.Tag]) (mk [renumber d0 a0,
        mk [renumber d1 a1, renumber back a2] i12
          (PackInts (renumber back a2).MaxLeafID
            (sumLeafCount [renumber d1 a1, renumber back a2])) h12] inew tg hnew)
      = (PostOrder (fun v => [v.Tag]) d0 ++ (PostOrder (fun v => [v.Tag]) d1
        ++ PostOrder (fun v => [v.Tag]) back))
        ++ PackInts back.MaxLeafID (d1.numLeaves + back.numLeaves) :: [tg] := by
    simp only [PostOrder, PostOrderChildren, List.append_nil, List.append_assoc, Tag_mk,
      postTags_renumber, hs12, renumber_MaxLeafID]
    rfl
  rw [hold] at htags
  rw [hnewl]
  refine (List.perm_middle.nodup_iff).mpr (List.nodup_cons.mpr ⟨?_, htags⟩)
  have hlt : d1.numLeaves + back.numLeaves < 2 ^ 32 := by omega
  have hmemTag : ∀ (d : Node), Canon d →
      PackInts back.MaxLeafID (d1.numLeaves + back.numLeaves) ∈ PostOrder (fun v => [v.Tag]) d →
      ∃ u ∈ PreOrder (fun v => [v]) d, Canon u ∧ u.MaxLeafID = back.MaxLeafID ∧
        u.numLeaves % 2 ^ 32 = d1.numLeaves + back.numLeaves ∧ u.numLeaves ≤ d.numLeaves ∧
        u.MaxLeafID ≤ d.MaxLeafID := by
    intro d hcd hm
    rw [PostOrder_map] at hm
    obtain ⟨u, hu, eu⟩ := List.mem_map.mp hm
    have hu' := (PostOrder_perm_PreOrder d).subset hu
    have hcu := (hcd.of_mem u hu').1
    have e := PackInts_inj u.MaxLeafID u.LeafCount back.MaxLeafID
      (d1.numLeaves + back.numLeaves) (MaxLeafID_lt u) (LeafCount_lt u) (MaxLeafID_lt back) hlt
      (by rw [← hcu.tag_eq]; exact eu)
    refine ⟨u, hu', hcu, e.1, ?_, numLeaves_le_of_mem d u hu', MaxLeafID_le_of_mem hcd u hu'⟩
    rw [← Canon.leafCount u hcu]
    exact e.2
  intro hm
  rcases List.mem_append.mp hm with hm | hm
  · rcases List.mem_append.mp hm with hm | hm
    · obtain ⟨u, _, _, e1, _, _, e2⟩ := hmemTag d0 hc0 hm
      omega
    · rcases List.mem_append.mp hm with hm | hm
      · obtain ⟨u, _, _, e1, _, _, e2⟩ := hmemTag d1 hc1 hm
        omega
      · obtain ⟨u, _, _, _, e1, e2, _⟩ := hmemTag back hc2 hm
        omega
  · rw [List.mem_singleton, htg, hs3] at hm
    have e := PackInts_inj _ _ _ _ (MaxLeafID_lt back) hlt (MaxLeafID_lt back)
      (Nat.mod_lt _ (by norm_num)) hm
    omega

end Node

namespace Tree

variable {D : Type} [Zero D]

/-- C20: the indices that `Detrifurcate` sets by hand are the indices that `Reindex`
assigns. On a tree whose topology is a reindexed built topology with the three root children
`c0, c1, c2`, with root index `r` and a vector of length `r + 1`, `Detrifurcate` returns a
tree with the topology `(c0, (c1, c2))` in which the new internal node has the index `r`,
the new root has the index `r + 1` and `c0, c1, c2` are the subtrees of the original, indices
included; `Reindex` succeeds on this topology and returns the topology itself, so that no
node changes its index; the vector has the length `r + 2`, the index of the new root plus
one; and the vector stays correctly aligned with the nodes: when in the original tree every
index is a valid offset and no two nodes share an offset, the same holds in the new tree.
The original tree is so aligned when the max leaf id is below `2 ^ 32 - 1`. -/
theorem Detrifurcate_indices_agree (t0 : Node) (hb : Node.Built t0) (t : Node)
    (m : Node.TagSizeMap) (hr : Node.Reindex t0 = some (t, m))
    (c0 c1 c2 : Node) (hch : t.Children = [c0, c1, c2])
    (bl : List D) (hlen : bl.length = t.Index + 1) :
    ∃ root12 tree' m', Node.Join2 c1 c2 t.Index = some root12 ∧
      Detrifurcate ⟨t, bl⟩ = some tree' ∧
      tree'.topology.Children = [c0, root12] ∧ root12.Children = [c1, c2] ∧
      root12.Index = t.Index ∧ tree'.topology.Index = t.Index + 1 ∧
      Node.Reindex tree'.topology = some (tree'.topology, m') ∧
      tree'.branch_lengths.length = t.Index + 2 ∧
      tree'.branch_lengths.length = tree'.topology.Index + 1 ∧
      (Aligned ⟨t, bl⟩ → Aligned tree') ∧
      (t0.MaxLeafID + 1 < 2 ^ 32 → Aligned ⟨t, bl⟩) := by
  obtain ⟨ht, _, htags⟩ := Node.Reindex_some t0 t m hr
  have hc := hb.canon
  obtain ⟨nx, hnx⟩ : ∃ nx, nx = (1 + t0.MaxLeafID) % 2 ^ 32 := ⟨_, rfl⟩
  rw [← hnx] at ht
  have hch' := hch
  rw [ht] at hch'
  obtain ⟨d0, d1, d2, i, tg, h, e0, ec0, ec1, ec2, et⟩ := Node.renumber_three t0 nx c0 c1 c2 hch'
  rw [et] at ht
  subst e0
  obtain ⟨r, hr'⟩ : ∃ r, r = nx + Node.numInternal d0 + Node.numInternal d1
      + Node.numInternal d2 := ⟨_, rfl⟩
  rw [← hr'] at ht et
  subst ht
  rw [Node.Index_mk] at hlen
  simp only [Node.Index_mk]
  obtain ⟨_, hsorted, _, _⟩ := hc.internal_inv (by simp)
  simp only [List.pairwise_cons, List.mem_cons, List.mem_singleton, forall_eq_or_imp, forall_eq,
    List.not_mem_nil, false_implies, implies_true, List.Pairwise.nil, and_true, Node.keyLT]
    at hsorted
  obtain ⟨⟨s01, s02⟩, s12⟩ := hsorted
  have h12 : c1.MaxLeafID < c2.MaxLeafID := by
    rw [ec1, ec2, Node.renumber_MaxLeafID, Node.renumber_MaxLeafID]
    exact s12
  have h02 : c0.MaxLeafID < c2.MaxLeafID := by
    rw [ec0, ec2, Node.renumber_MaxLeafID, Node.renumber_MaxLeafID]
    exact s02
  have hj12 := Node.Join2_sorted c1 c2 r h12
  have hmax12 : (Node.mk [c1, c2] r (PackInts c2.MaxLeafID (Node.sumLeafCount [c1, c2]))
      (Node.SORotate (Node.xorHash [c1, c2]) 1)).MaxLeafID = c2.MaxLeafID := by
    simp only [Node.MaxLeafID, Node.Tag, Node.UnpackFirstInt_PackInts]
    exact Nat.mod_eq_of_lt (Node.MaxLeafID_lt c2)
  have hjtop := Node.Join2_sorted c0 _ (r + 1) (by rw [hmax12]; exact h02)
  obtain ⟨g1, g2, g3⟩ := Node.detrifurcate_tags d0 d1 d2 i tg h hc htags nx
    (nx + Node.numInternal d0) (nx + Node.numInternal d0 + Node.numInternal d1) r
    (Node.SORotate (Node.xorHash [c1, c2]) 1) (r + 1)
    (Node.SORotate (Node.xorHash [c0, Node.mk [c1, c2] r
        (PackInts c2.MaxLeafID (Node.sumLeafCount [c1, c2]))
        (Node.SORotate (Node.xorHash [c1, c2]) 1)]) 1)
  rw [← ec0, ← ec1, ← ec2] at g2 g3
  rw [← ec1, ← ec2] at g1
  rw [g2] at hjtop
  have hidx : r < bl.length := by omega
  have hdet : Detrifurcate ⟨Node.mk [c0, c1, c2] r tg h, bl⟩ = some ⟨Node.mk [c0, Node.mk [c1, c2] r
      (PackInts c2.MaxLeafID (Node.sumLeafCount [c1, c2]))
      (Node.SORotate (Node.xorHash [c1, c2]) 1)] (r + 1) tg
      (Node.SORotate (Node.xorHash [c0, Node.mk [c1, c2] r
        (PackInts c2.MaxLeafID (Node.sumLeafCount [c1, c2]))
        (Node.SORotate (Node.xorHash [c1, c2]) 1)]) 1),
      bl.set r 0 ++ [0]⟩ := by
    simp only [Detrifurcate, Node.Children_mk, hj12, hidx, if_true, hjtop, ofVector,
      Node.Index_mk, List.length_append, List.length_set, List.length_singleton, hlen,
      Nat.lt_add_one]
  -- a second pass of `Reindex` assigns the indices that the nodes hold
  have n0 : Node.numInternal c0 = Node.numInternal d0 := by
    rw [ec0]
    exact (Node.renumber_counts d0 nx).2.1
  have n1 : Node.numInternal c1 = Node.numInternal d1 := by
    rw [ec1]
    exact (Node.renumber_counts d1 _).2.1
  have n2 : Node.numInternal c2 = Node.numInternal d2 := by
    rw [ec2]
    exact (Node.renumber_counts d2 _).2.1
  have r0 : Node.renumber c0 nx = c0 := by
    rw [ec0, Node.renumber_renumber]
  have r1 : Node.renumber c1 (nx + Node.numInternal d0) = c1 := by
    rw [ec1, Node.renumber_renumber]
  have r2 : Node.renumber c2 (nx + Node.numInternal d0 + Node.numInternal d1) = c2 := by
    rw [ec2, Node.renumber_renumber]
  have hren : Node.renumber (Node.mk [c0, Node.mk [c1, c2] r
      (PackInts c2.MaxLeafID (Node.sumLeafCount [c1, c2]))
      (Node.SORotate (Node.xorHash [c1, c2]) 1)] (r + 1) tg
      (Node.SORotate (Node.xorHash [c0, Node.mk [c1, c2] r
        (PackInts c2.MaxLeafID (Node.sumLeafCount [c1, c2]))
        (Node.SORotate (Node.xorHash [c1, c2]) 1)]) 1)) nx
      = Node.mk [c0, Node.mk [c1, c2] r
      (PackInts c2.MaxLeafID (Node.sumLeafCount [c1, c2]))
      (Node.SORotate (Node.xorHash [c1, c2]) 1)] (r + 1) tg
      (Node.SORotate (Node.xorHash [c0, Node.mk [c1, c2] r
        (PackInts c2.MaxLeafID (Node.sumLeafCount [c1, c2]))
        (Node.SORotate (Node.xorHash [c1, c2]) 1)]) 1) := by
    simp only [Node.renumber, Node.renumberChildren, Node.numInternalChildren, Node.numInternal,
      List.isEmpty_cons, Bool.false_eq_true, if_false, n0, n1, n2, r0, r1, r2]
    have i1 : nx + Node.numInternal d0 + (Node.numInternal d1 + (Node.numInternal d2 + 0)) = r := by
      omega
    have i2 : nx + (Node.numInternal d0
        + (1 + (Node.numInternal d1 + (Node.numInternal d2 + 0)) + 0)) = r + 1 := by
      omega
    rw [i1, i2]
  have hre : Node.Reindex (Node.mk [c0, Node.mk [c1, c2] r
      (PackInts c2.MaxLeafID (Node.sumLeafCount [c1, c2]))
      (Node.SORotate (Node.xorHash [c1, c2]) 1)] (r + 1) tg
      (Node.SORotate (Node.xorHash [c0, Node.mk [c1, c2] r
        (PackInts c2.MaxLeafID (Node.sumLeafCount [c1, c2]))
        (Node.SORotate (Node.xorHash [c1, c2]) 1)]) 1))
      = some (Node.mk [c0, Node.mk [c1, c2] r
      (PackInts c2.MaxLeafID (Node.sumLeafCount [c1, c2]))
      (Node.SORotate (Node.xorHash [c1, c2]) 1)] (r + 1) tg
      (Node.SORotate (Node.xorHash [c0, Node.mk [c1, c2] r
        (PackInts c2.MaxLeafID (Node.sumLeafCount [c1, c2]))
        (Node.SORotate (Node.xorHash [c1, c2]) 1)]) 1),
        Node.PostOrder (fun v => [(v.Tag, v.Index)]) (Node.mk [c0, Node.mk [c1, c2] r
      (PackInts c2.MaxLeafID (Node.sumLeafCount [c1, c2]))
      (Node.SORotate (Node.xorHash [c1, c2]) 1)] (r + 1) tg
      (Node.SORotate (Node.xorHash [c0, Node.mk [c1, c2] r
        (PackInts c2.MaxLeafID (Node.sumLeafCount [c1, c2]))
        (Node.SORotate (Node.xorHash [c1, c2]) 1)]) 1))) := by
    rw [Node.Reindex_eq, if_pos g3]
    have hnx' : (1 + (Node.mk [c0, Node.mk [c1, c2] r
      (PackInts c2.MaxLeafID (Node.sumLeafCount [c1, c2]))
      (Node.SORotate (Node.xorHash [c1, c2]) 1)] (r + 1) tg
      (Node.SORotate (Node.xorHash [c0, Node.mk [c1, c2] r
        (PackInts c2.MaxLeafID (Node.sumLeafCount [c1, c2]))
        (Node.SORotate (Node.xorHash [c1, c2]) 1)]) 1)).MaxLeafID) % 2 ^ 32 = nx := hnx.symm
    rw [hnx', hren]
  refine ⟨_, _, _, hj12, hdet, rfl, rfl, rfl, rfl, hre, ?_, ?_, ?_, ?_⟩
  · simp only [List.length_append, List.length_set, List.length_singleton, hlen]
  · simp only [List.length_append, List.length_set, List.length_singleton, hlen, Node.Index_mk]
  · rintro ⟨_, a2, a3⟩
    have hPold : Node.PreOrder (fun v => [v]) (Node.mk [c0, c1, c2] r tg h)
        = Node.mk [c0, c1, c2] r tg h :: (Node.PreOrder (fun v => [v]) c0
          ++ (Node.PreOrder (fun v => [v]) c1 ++ Node.PreOrder (fun v => [v]) c2)) := by
      simp only [Node.PreOrder, Node.PreOrderChildren, List.append_nil, List.singleton_append]
    have hPnew : Node.PreOrder (fun v => [v]) (Node.mk [c0, Node.mk [c1, c2] r
          (PackInts c2.MaxLeafID (Node.sumLeafCount [c1, c2]))
          (Node.SORotate (Node.xorHash [c1, c2]) 1)] (r + 1) tg
          (Node.SORotate (Node.xorHash [c0, Node.mk [c1, c2] r
            (PackInts c2.MaxLeafID (Node.sumLeafCount [c1, c2]))
            (Node.SORotate (Node.xorHash [c1, c2]) 1)]) 1))
        = Node.mk [c0, Node.mk [c1, c2] r
          (PackInts c2.MaxLeafID (Node.sumLeafCount [c1, c2]))
          (Node.SORotate (Node.xorHash [c1, c2]) 1)] (r + 1) tg
          (Node.SORotate (Node.xorHash [c0, Node.mk [c1, c2] r
            (PackInts c2.MaxLeafID (Node.sumLeafCount [c1, c2]))
            (Node.SORotate (Node.xorHash [c1, c2]) 1)]) 1)
          :: (Node.PreOrder (fun v => [v]) c0 ++ Node.mk [c1, c2] r
            (PackInts c2.MaxLeafID (Node.sumLeafCount [c1, c2]))
            (Node.SORotate (Node.xorHash [c1, c2]) 1)
            :: (Node.PreOrder (fun v => [v]) c1 ++ Node.PreOrder (fun v => [v]) c2)) := by
      simp only [Node.PreOrder, Node.PreOrderChildren, List.append_nil, List.singleton_append,
        List.cons_append, List.nil_append]
    simp only at a2 a3
    rw [hPold] at a2 a3
    rw [List.map_cons, Node.Index_mk, List.map_append] at a3
    have a3' := (List.perm_middle.nodup_iff).mpr a3
    refine ⟨?_, ?_, ?_⟩
    · simp only [List.length_append, List.length_set, List.length_singleton, hlen, Node.Index_mk]
    · intro v hv
      simp only [List.length_append, List.length_set, List.length_singleton, hlen]
      simp only at hv
      rw [hPnew] at hv
      rcases List.mem_cons.mp hv with e | hv
      · rw [e, Node.Index_mk]
        omega
      · rcases List.mem_append.mp hv with hv | hv
        · have := a2 v (List.mem_cons_of_mem _ (List.mem_append_left _ hv))
          omega
        · rcases List.mem_cons.mp hv with e | hv
          · rw [e, Node.Index_mk]
            omega
          · have := a2 v (List.mem_cons_of_mem _ (List.mem_append_right _ hv))
            omega
    · simp only
      rw [hPnew, List.map_cons, Node.Index_mk, List.map_append, List.map_cons, Node.Index_mk,
        List.nodup_cons]
      refine ⟨?_, a3'⟩
      intro hmem
      obtain ⟨v, hv, e⟩ : ∃ v ∈ Node.mk [c0, c1, c2] r tg h :: (Node.PreOrder (fun v => [v]) c0
          ++ (Node.PreOrder (fun v => [v]) c1 ++ Node.PreOrder (fun v => [v]) c2)),
          v.Index = r + 1 := by
        rcases List.mem_append.mp hmem with hm | hm
        · obtain ⟨v, hv, e⟩ := List.mem_map.mp hm
          exact ⟨v, List.mem_cons_of_mem _ (List.mem_append_left _ hv), e⟩
        · rcases List.mem_cons.mp hm with e | hm
          · omega
          · obtain ⟨v, hv, e⟩ := List.mem_map.mp hm
            exact ⟨v, List.mem_cons_of_mem _ (List.mem_append_right _ hv), e⟩
      have := a2 v hv
      omega
  · intro hM
    have hnx2 : nx = (Node.mk [d0, d1, d2] i tg h).MaxLeafID + 1 := by
      rw [hnx, Nat.add_comm]
      exact Nat.mod_eq_of_lt hM
    have hle := Node.renumber_index_le_root _ hc
    have hnd := Node.renumber_index_nodup _ hc nx (by omega) htags
    rw [← hnx2, et] at hle
    rw [et] at hnd
    refine ⟨hlen, ?_, ?_⟩
    · intro v hv
      have := hle v hv
      rw [Node.Index_mk] at this
      simp only
      omega
    · exact ((Node.PostOrder_perm_PreOrder _).map Node.Index).nodup_iff.mp hnd

/-- C20, at the example topology `(0,1,(2,3))` with unit branch lengths: the root index is
5, and the nodes of the returned topology `(0,(1,(2,3)))` hold the indices 6, 0, 5, 1, 4, 2, 3
in preorder before and after a pass of `Reindex`. -/
theorem Detrifurcate_indices_agree_witness :
    ((Detrifurcate (⟨Node.exampleTopology0, [1, 1, 1, 1, 1, 1]⟩ : Tree Int)).map
        (fun tree' => (Node.PreOrder (fun v => [v.Index]) tree'.topology,
          (Node.Reindex tree'.topology).map
            (fun r => Node.PreOrder (fun v => [v.Index]) r.1), tree'.branch_lengths.length))
      = some ([6, 0, 5, 1, 4, 2, 3], some [6, 0, 5, 1, 4, 2, 3], 7)) ∧
    ∃ root12 tree' m', Node.Join2 (Node.Leaf 1) (Node.mk [Node.Leaf 2, Node.Leaf 3] 4
        12884901890 6209831354) Node.exampleTopology0.Index = some root12 ∧
      Detrifurcate (⟨Node.exampleTopology0, [1, 1, 1, 1, 1, 1]⟩ : Tree Int) = some tree' ∧
      tree'.topology.Children = [Node.Leaf 0, root12] ∧
      root12.Children = [Node.Leaf 1, Node.mk [Node.Leaf 2, Node.Leaf 3] 4 12884901890
        6209831354] ∧
      root12.Index = Node.exampleTopology0.Index ∧
      tree'.topology.Index = Node.exampleTopology0.Index + 1 ∧
      Node.Reindex tree'.topology = some (tree'.topology, m') ∧
      tree'.branch_lengths.length = Node.exampleTopology0.Index + 2 ∧
      tree'.branch_lengths.length = tree'.topology.Index + 1 ∧
      (Aligned (⟨Node.exampleTopology0, [1, 1, 1, 1, 1, 1]⟩ : Tree Int) → Aligned tree') ∧
      (Node.exampleTopology0.MaxLeafID + 1 < 2 ^ 32 →
        Aligned (⟨Node.exampleTopology0, [1, 1, 1, 1, 1, 1]⟩ : Tree Int)) :=
  ⟨by decide!, Detrifurcate_indices_agree Node.exampleTopology0 Node.exampleTopology0_Built
    Node.exampleTopology0 [(1, 0), (4294967297, 1), (8589934593, 2), (12884901889, 3),
      (12884901890, 4), (12884901892, 5)] (by decide) (Node.Leaf 0) (Node.Leaf 1)
    (Node.mk [Node.Leaf 2, Node.Leaf 3] 4 12884901890 6209831354) rfl
    ([1, 1, 1, 1, 1, 1] : List Int) rfl⟩

end Tree

namespace Node

/-! ## `Detrifurcate` on a tree whose indices are valid offsets -/

end Node

namespace Tree

variable {D : Type} [Zero D]

end Tree

end Libsbn
